import Mathlib

/-!
# utfize: a verification development

Shallow embedding of `main.go` of `logeable/utfize` together with the parts of
the Go standard library and of `golang.org/x/text` that the program calls.

* Go strings (paths, encoding names) are lists of characters.
* File contents are lists of bytes, each byte a natural number below 256.
* The filesystem is an explicit state; the goroutines spawned by `transDir`
  are explicit pending tasks that a scheduler runs at a point of its choice.
-/

namespace Utfize

/-! ## Package `strings` -/

/-- Position of the first instance of `substr` in `s`, if any. -/
def indexAux (substr : List Char) : List Char → Option Nat
  | [] => if substr = [] then some 0 else none
  | c :: s =>
    if substr.isPrefixOf (c :: s) then some 0
    else (indexAux substr s).map (· + 1)

/-- Go `strings.Index`: index of the first instance of `substr` in `s`, or `-1`. -/
def Index (s substr : List Char) : Int :=
  match indexAux substr s with
  | some i => (i : Int)
  | none => -1

/-- Counting loop of `strings.Count` for a non-empty `substr`. -/
def countLoop (substr : List Char) : Nat → List Char → Nat
  | 0, _ => 0
  | fuel + 1, s =>
    match indexAux substr s with
    | none => 0
    | some i => 1 + countLoop substr fuel (s.drop (i + substr.length))

/-- Go `strings.Count`: number of non-overlapping instances of `substr` in `s`;
for an empty `substr` it is the number of characters plus one. -/
def Count (s substr : List Char) : Nat :=
  if substr = [] then s.length + 1 else countLoop substr (s.length + 1) s

/-- The replacement loop of `strings.Replace`: `k` replacements are left, `i` is
the loop counter, `start` the read position and `b` the builder. -/
def replaceLoop (s old new : List Char) : Nat → Nat → Nat → List Char → List Char
  | 0, _, start, b => b ++ s.drop start
  | k + 1, i, start, b =>
    let j : Nat :=
      if old.length = 0 then
        (if 0 < i then start + (if s.drop start = [] then 0 else 1) else start)
      else start + (Index (s.drop start) old).toNat
    replaceLoop s old new k (i + 1) (j + old.length)
      (b ++ (s.drop start).take (j - start) ++ new)

/-- Go `strings.Replace(s, old, new, n)`. -/
def Replace (s old new : List Char) (n : Int) : List Char :=
  if old = new ∨ n = 0 then s
  else
    let m := Count s old
    if m = 0 then s
    else
      let n1 : Nat := if n < 0 ∨ (m : Int) < n then m else n.toNat
      replaceLoop s old new n1 0 0 []

/-! ## Decoder registry -/

/-- The encodings of `golang.org/x/text` that the program registers. -/
inductive Encoding where
  | GBK
  | GB18030
  | UTF8
  deriving DecidableEq, Repr

/-- The package-level `encodingMap`: a Go map lookup, `none` when the key is absent. -/
def encodingMap (name : List Char) : Option Encoding :=
  if name = "GBK".toList then some Encoding.GBK
  else if name = "GB18030".toList then some Encoding.GB18030
  else if name = "UTF8".toList then some Encoding.UTF8
  else none

/-! ## Package `unicode/utf8` -/

/-- The replacement character U+FFFD. -/
def RuneError : Nat := 0xFFFD

/-- Go `utf8.EncodeRune`: the UTF-8 bytes of a rune; runes out of range and
surrogates are written as U+FFFD. -/
def EncodeRune (r : Nat) : List Nat :=
  if r ≤ 0x7F then [r]
  else if r ≤ 0x7FF then [0xC0 ||| (r >>> 6), 0x80 ||| (r &&& 0x3F)]
  else if 0x10FFFF < r ∨ (0xD800 ≤ r ∧ r ≤ 0xDFFF) then [0xEF, 0xBF, 0xBD]
  else if r ≤ 0xFFFF then
    [0xE0 ||| (r >>> 12), 0x80 ||| ((r >>> 6) &&& 0x3F), 0x80 ||| (r &&& 0x3F)]
  else
    [0xF0 ||| (r >>> 18), 0x80 ||| ((r >>> 12) &&& 0x3F),
      0x80 ||| ((r >>> 6) &&& 0x3F), 0x80 ||| (r &&& 0x3F)]

/-! ## Package `golang.org/x/text`: transformers and the registered decoders

A decoder is modelled by its `Transform` method applied to a whole source
buffer with an unbounded destination buffer: it yields the bytes written, the
number of source bytes consumed and an error. The buffering of
`transform.Reader` is not modelled: the reader hands the decoder the whole input
with `atEOF` set. -/

/-- Errors a transformer or the transforming reader can report. -/
inductive TransformErr where
  | ErrShortSrc
  | ErrShortDst
  | errInconsistentByteCount
  deriving DecidableEq, Repr

/-- The data tables of package `simplifiedchinese`: `decode` is the two-byte
table (0 marks an unmapped index), `gb18030` the table of four-byte ranges as
pairs of a pointer and a code point. -/
structure Tables where
  decode : List Nat
  gb18030 : List (Nat × Nat)

/-- The binary search of the GB18030 decoder over the ranges table: `i` and `j`
are the bounds of the search. -/
def searchLoop (tab : List (Nat × Nat)) (r : Nat) : Nat → Nat → Nat → Nat
  | 0, i, _ => i
  | fuel + 1, i, j =>
    if i < j then
      let h := i + (j - i) / 2
      if (tab.getD h (0, 0)).1 ≤ r then searchLoop tab r fuel (h + 1) j
      else searchLoop tab r fuel i h
    else i

/-- Two-byte case of `gbkDecoder.Transform`, the second byte already reduced
to its column `c1`: look the pair up in the table. -/
def gbkTwoByte (T : Tables) (c0 c1 : Nat) : Nat × Nat :=
  let i := (c0 - 0x81) * 190 + c1
  if i < T.decode.length then
    (if T.decode.getD i 0 = 0 then RuneError else T.decode.getD i 0, 2)
  else (RuneError, 2)

/-- Four-byte case of `gbkDecoder.Transform` (GB18030 only); `rest1` is the
source after the second byte. `none` stands for `ErrShortSrc`. -/
def gbkFourByte (T : Tables) (atEOF : Bool) (c0 c1 : Nat) (rest1 : List Nat) :
    Option (Nat × Nat) :=
  match rest1 with
  | c2 :: c3 :: _ =>
    if c2 < 0x81 ∨ 0xff ≤ c2 then some (RuneError, 1)
    else if c3 < 0x30 ∨ 0x3a ≤ c3 then some (RuneError, 1)
    else
      let r := (((c0 - 0x81) * 10 + (c1 - 0x30)) * 126 + (c2 - 0x81)) * 10 + (c3 - 0x30)
      if r < 39420 then
        let i := searchLoop T.gb18030 r (T.gb18030.length + 1) 0 T.gb18030.length
        let dec := T.gb18030.getD (i - 1) (0, 0)
        some (r + dec.2 - dec.1, 4)
      else if 189000 ≤ r ∧ r - 189000 < 0x100000 then some (r - 189000 + 0x10000, 4)
      else some (RuneError, 1)
  | _ => if atEOF then some (RuneError, 1) else none

/-- One iteration of the loop of `gbkDecoder.Transform` at a source that starts
with `c0`: the rune decoded and the number of source bytes it takes, `none` for
`ErrShortSrc`. The flag `gb18030` tells the GB18030 decoder from the GBK one. -/
def gbkStep (T : Tables) (gb18030 atEOF : Bool) (c0 : Nat) (rest : List Nat) :
    Option (Nat × Nat) :=
  if c0 < 0x80 then some (c0, 1)
  else if c0 = 0x80 then some (0x20AC, 1)
  else if c0 < 0xff then
    match rest with
    | [] => if atEOF then some (RuneError, 1) else none
    | c1 :: rest1 =>
      if 0x40 ≤ c1 ∧ c1 < 0x7f then some (gbkTwoByte T c0 (c1 - 0x40))
      else if 0x80 ≤ c1 ∧ c1 < 0xff then some (gbkTwoByte T c0 (c1 - 0x41))
      else if gb18030 = true ∧ 0x30 ≤ c1 ∧ c1 < 0x40 then gbkFourByte T atEOF c0 c1 rest1
      else some (RuneError, 1)
  else some (RuneError, 1)

/-- The table `first` of `unicode/utf8` joined with `acceptRanges`: for a lead
byte, the length of its sequence and the range accepted for the second byte;
`none` for a byte that cannot start a sequence. -/
def utf8First (c : Nat) : Option (Nat × Nat × Nat) :=
  if c < 0xC2 then none
  else if c ≤ 0xDF then some (2, 0x80, 0xBF)
  else if c = 0xE0 then some (3, 0xA0, 0xBF)
  else if c ≤ 0xEC then some (3, 0x80, 0xBF)
  else if c = 0xED then some (3, 0x80, 0x9F)
  else if c ≤ 0xEF then some (3, 0x80, 0xBF)
  else if c = 0xF0 then some (4, 0x90, 0xBF)
  else if c ≤ 0xF3 then some (4, 0x80, 0xBF)
  else if c = 0xF4 then some (4, 0x80, 0x8F)
  else none

/-- The bytes `handleInvalid` of `utf8Decoder.Transform` writes for an
ill-formed subsequence of `size` bytes. -/
def utf8Invalid (size : Nat) : Option (List Nat × Nat) :=
  some ([0xEF, 0xBF, 0xBD], size)

/-- One iteration of the loop of `utf8Decoder.Transform` at a source that
starts with `c0`: the bytes copied or substituted and the number of source bytes
they stand for, `none` for `ErrShortSrc`. -/
def utf8Step (atEOF : Bool) (c0 : Nat) (rest : List Nat) : Option (List Nat × Nat) :=
  if c0 < 0x80 then some ([c0], 1)
  else
    match utf8First c0 with
    | none => utf8Invalid 1
    | some (size, lo, hi) =>
      if rest.length + 1 < size then
        if atEOF then
          match rest with
          | [] => utf8Invalid 1
          | c1 :: rest1 =>
            if c1 < lo ∨ hi < c1 then utf8Invalid 1
            else
              match rest1 with
              | [] => utf8Invalid 2
              | c2 :: _ => if c2 < 0x80 ∨ 0xBF < c2 then utf8Invalid 2 else utf8Invalid 3
        else none
      else
        let c1 := rest.getD 0 0
        if c1 < lo ∨ hi < c1 then utf8Invalid 1
        else if size = 2 then some (c0 :: rest.take 1, 2)
        else
          let c2 := rest.getD 1 0
          if c2 < 0x80 ∨ 0xBF < c2 then utf8Invalid 2
          else if size = 3 then some (c0 :: rest.take 2, 3)
          else
            let c3 := rest.getD 2 0
            if c3 < 0x80 ∨ 0xBF < c3 then utf8Invalid 3
            else some (c0 :: rest.take 3, 4)

/-- One iteration of the decoder of `enc`: bytes written and source bytes consumed. -/
def decodeStep (T : Tables) (enc : Encoding) (atEOF : Bool) (c0 : Nat) (rest : List Nat) :
    Option (List Nat × Nat) :=
  match enc with
  | Encoding.GBK => (gbkStep T false atEOF c0 rest).map (fun p => (EncodeRune p.1, p.2))
  | Encoding.GB18030 => (gbkStep T true atEOF c0 rest).map (fun p => (EncodeRune p.1, p.2))
  | Encoding.UTF8 => utf8Step atEOF c0 rest

/-- The loop of a decoder's `Transform` over the source that is left: bytes
written, source bytes consumed, error. -/
def decodeLoop (step : Nat → List Nat → Option (List Nat × Nat)) :
    Nat → List Nat → List Nat × Nat × Option TransformErr
  | 0, _ => ([], 0, none)
  | _ + 1, [] => ([], 0, none)
  | fuel + 1, c0 :: rest =>
    match step c0 rest with
    | none => ([], 0, some TransformErr.ErrShortSrc)
    | some (out, size) =>
      let r := decodeLoop step fuel ((c0 :: rest).drop size)
      (out ++ r.1, size + r.2.1, r.2.2)

/-- `enc.NewDecoder().Transform(dst, src, atEOF)` with a destination that is
large enough: `(dst[:nDst], nSrc, err)`. -/
def Transform (T : Tables) (enc : Encoding) (src : List Nat) (atEOF : Bool) :
    List Nat × Nat × Option TransformErr :=
  decodeLoop (decodeStep T enc atEOF) src.length src

/-- `ioutil.ReadAll(transform.NewReader(bytes.NewReader(data), enc.NewDecoder()))`:
the reader reports the transformer's error, and an inconsistent byte count when
the transformer returns no error without having consumed its source. -/
def readAllTransformed (T : Tables) (enc : Encoding) (data : List Nat) :
    Except TransformErr (List Nat) :=
  match Transform T enc data true with
  | (out, n, none) =>
    if n = data.length then Except.ok out
    else Except.error TransformErr.errInconsistentByteCount
  | (_, _, some e) => Except.error e

/-- Errors of the program: those of the operating system, of the transforming
reader, and the one `fmt.Errorf` builds for an encoding that is not registered. -/
inductive GoError where
  | ENOENT
  | ENOTDIR
  | EISDIR
  | EACCES
  | EEXIST
  | ENOTEMPTY
  | SkipDir
  | transform (e : TransformErr)
  | errorf (msg : List Char)
  deriving DecidableEq, Repr

/-- The function `transformToUtf8` of `main.go`: `(nil, err)` is `Except.error err`
and `(bs, nil)` is `Except.ok bs`. -/
def transformToUtf8 (T : Tables) (data : List Nat) (enc : Encoding) :
    Except GoError (List Nat) :=
  match readAllTransformed T enc data with
  | Except.error err => Except.error (GoError.transform err)
  | Except.ok bs => Except.ok bs

/-! ## The filesystem

A directory's contents are a list of named entries; the mode of a node is the
number of its twelve mode bits (permissions, sticky, set-group-ID, set-user-ID);
the process owns every node, is not the superuser, and a permission check reads
the owner bits of the mode.
There are no symbolic links, and paths are absolute and clean. A goroutine of
`transDir` runs as one step: its read, transform and write are not interleaved
with other steps. -/

/-- The entries of a directory, one after the other. -/
inductive Entries where
  | nil
  | file (name : List Char) (mode : Nat) (data : List Nat) (rest : Entries)
  | dir (name : List Char) (mode : Nat) (kids : Entries) (rest : Entries)
  deriving DecidableEq, Repr

/-- A node of the filesystem: a regular file or a directory. -/
inductive Node where
  | file (mode : Nat) (data : List Nat)
  | dir (mode : Nat) (kids : Entries)
  deriving DecidableEq, Repr

/-- The filesystem is its root node. -/
abbrev FS := Node

/-- Owner read bit of a mode (0400). -/
def canRead (mode : Nat) : Bool := mode / 256 % 2 = 1

/-- Owner write bit of a mode (0200). -/
def canWrite (mode : Nat) : Bool := mode / 128 % 2 = 1

/-- Owner search bit of a mode (0100). -/
def canSearch (mode : Nat) : Bool := mode / 64 % 2 = 1

/-- The mode of a directory that `mkdir(2)` makes on Linux: the permission bits
and the sticky bit of the mode asked for, without the bits of the umask; the
set-group-ID bit is that of the parent directory, whose mode is `parent`. -/
def mkdirMode (umask parent mode : Nat) : Nat :=
  ((mode % 0o2000) &&& (0o1777 ^^^ (umask % 0o1000))) ||| (parent &&& 0o2000)

/-- The mode of a file that `open(2)` creates: the mode asked for without the
bits of the umask. -/
def createMode (umask perm : Nat) : Nat :=
  (perm % 0o10000) &&& (0o7777 ^^^ (umask % 0o1000))

/-- The entry of a directory with a given name. -/
def Entries.find : Entries → List Char → Option Node
  | Entries.nil, _ => none
  | Entries.file n m d rest, name => if n = name then some (Node.file m d) else rest.find name
  | Entries.dir n m kids rest, name => if n = name then some (Node.dir m kids) else rest.find name

/-- A directory entry made of a name and a node, in front of other entries. -/
def Entries.cons (name : List Char) (v : Node) (rest : Entries) : Entries :=
  match v with
  | Node.file m d => Entries.file name m d rest
  | Node.dir m kids => Entries.dir name m kids rest

/-- Put a node under a name: in place of the entry of that name, or as a new
last entry. -/
def Entries.set (name : List Char) (v : Node) : Entries → Entries
  | Entries.nil => Entries.cons name v Entries.nil
  | Entries.file n m d rest =>
    if n = name then Entries.cons name v rest else Entries.file n m d (rest.set name v)
  | Entries.dir n m kids rest =>
    if n = name then Entries.cons name v rest else Entries.dir n m kids (rest.set name v)

/-- The names of the entries of a directory, in stored order. -/
def Entries.names : Entries → List (List Char)
  | Entries.nil => []
  | Entries.file n _ _ rest => n :: rest.names
  | Entries.dir n _ _ rest => n :: rest.names

/-- What `RemoveAll` leaves of the entries of a directory: `w` tells whether
entries may be unlinked from the directory, `sel` names the one entry to remove
(`none`: every entry). A directory is emptied first, which takes the right to
list, search and write it, and is removed once empty. -/
def Entries.removeSel (w : Bool) (sel : Option (List Char)) : Entries → Entries
  | Entries.nil => Entries.nil
  | Entries.file n m d rest =>
    if (sel = none ∨ sel = some n) ∧ w = true then rest.removeSel w sel
    else Entries.file n m d (rest.removeSel w sel)
  | Entries.dir n m kids rest =>
    if sel = none ∨ sel = some n then
      let kids1 := if canRead m = true ∧ canSearch m = true then kids.removeSel (canWrite m) none
        else kids
      if kids1 = Entries.nil ∧ w = true then rest.removeSel w sel
      else Entries.dir n m kids1 (rest.removeSel w sel)
    else Entries.dir n m kids (rest.removeSel w sel)

/-- The node at a path of components, permissions not checked. -/
def Node.get : Node → List (List Char) → Option Node
  | v, [] => some v
  | Node.file _ _, _ :: _ => none
  | Node.dir _ kids, c :: cs =>
    match kids.find c with
    | none => none
    | some v => v.get cs

/-- Replace the node at a path of components by `v`; the path's parent has to be
a directory, otherwise nothing changes. -/
def Node.put (v : Node) : Node → List (List Char) → Node
  | _, [] => v
  | Node.file m d, _ :: _ => Node.file m d
  | Node.dir m kids, [c] => Node.dir m (kids.set c v)
  | Node.dir m kids, c :: c1 :: cs =>
    match kids.find c with
    | none => Node.dir m kids
    | some w => Node.dir m (kids.set c (Node.put v w (c1 :: cs)))

/-- Path resolution as the kernel does it: every directory passed through has to
be searchable. -/
def resolve : Node → List (List Char) → Except GoError Node
  | v, [] => Except.ok v
  | Node.file _ _, _ :: _ => Except.error GoError.ENOTDIR
  | Node.dir m kids, c :: cs =>
    if canSearch m = true then
      match kids.find c with
      | none => Except.error GoError.ENOENT
      | some v => resolve v cs
    else Except.error GoError.EACCES

/-- The components of a path, read from the first character on: the first
returned component is the one under construction. -/
def rawSplit : List Char → List (List Char)
  | [] => [[]]
  | c :: s =>
    if c = '/' then [] :: rawSplit s
    else
      match rawSplit s with
      | [] => [[c]]
      | h :: t => (c :: h) :: t

/-- The components of a path: its parts between slashes, empty parts dropped. -/
def splitPath (path : List Char) : List (List Char) :=
  (rawSplit path).filter (fun c => c ≠ [])

/-- Go `filepath.Join(path, name)` for a clean `path` and an entry name. -/
def Join (path name : List Char) : List Char :=
  if path = ['/'] then path ++ name else path ++ '/' :: name

/-- Go `os.FileInfo`, as far as the program reads it. -/
structure FileInfo where
  IsDir : Bool
  Mode : Nat
  deriving DecidableEq, Repr

/-- The file info of a node. -/
def Node.info : Node → FileInfo
  | Node.file m _ => ⟨false, m⟩
  | Node.dir m _ => ⟨true, m⟩

/-- Go `os.Stat` and `os.Lstat` (there are no symbolic links). -/
def Stat (fs : FS) (path : List Char) : Except GoError FileInfo :=
  match resolve fs (splitPath path) with
  | Except.ok v => Except.ok v.info
  | Except.error e => Except.error e

/-- Go `ioutil.ReadFile`. -/
def ReadFile (fs : FS) (path : List Char) : Except GoError (List Nat) :=
  match resolve fs (splitPath path) with
  | Except.ok (Node.file m d) => if canRead m = true then Except.ok d else Except.error GoError.EACCES
  | Except.ok (Node.dir _ _) => Except.error GoError.EISDIR
  | Except.error e => Except.error e

/-- The system call `mkdir` at a path of components: the new filesystem, or the error. -/
def mkdirAt (umask : Nat) (fs : FS) (cs : List (List Char)) (mode : Nat) : Except GoError FS :=
  match resolve fs cs with
  | Except.ok _ => Except.error GoError.EEXIST
  | Except.error GoError.ENOENT =>
    match resolve fs cs.dropLast with
    | Except.ok (Node.dir pm _) =>
      if canWrite pm = true then
        Except.ok (Node.put (Node.dir (mkdirMode umask pm mode) Entries.nil) fs cs)
      else Except.error GoError.EACCES
    | Except.ok (Node.file _ _) => Except.error GoError.ENOTDIR
    | Except.error e => Except.error e
  | Except.error e => Except.error e

/-- Go `os.Mkdir(path, mode)`. -/
def Mkdir (umask : Nat) (fs : FS) (path : List Char) (mode : Nat) : Except GoError FS :=
  mkdirAt umask fs (splitPath path) mode

/-- Go `os.MkdirAll` at a path given by its components in reverse order, so that
the parent path is the tail: nothing to do when the path is a directory, else
make the parent (when the path has one below the root), then the directory
itself. The filesystem is returned with the error, since parents made before a
failure stay. -/
def mkdirAllRev (umask : Nat) (perm : Nat) : List (List Char) → FS → FS × Option GoError
  | [], fs =>
    match resolve fs [] with
    | Except.ok v => if v.info.IsDir = true then (fs, none) else (fs, some GoError.ENOTDIR)
    | Except.error e => (fs, some e)
  | c :: parent, fs =>
    match resolve fs (c :: parent).reverse with
    | Except.ok v => if v.info.IsDir = true then (fs, none) else (fs, some GoError.ENOTDIR)
    | Except.error _ =>
      let r := if parent = [] then (fs, none) else mkdirAllRev umask perm parent fs
      match r.2 with
      | some e => (r.1, some e)
      | none =>
        match mkdirAt umask r.1 (c :: parent).reverse perm with
        | Except.ok fs2 => (fs2, none)
        | Except.error e =>
          match resolve r.1 (c :: parent).reverse with
          | Except.ok v => if v.info.IsDir = true then (r.1, none) else (r.1, some e)
          | Except.error _ => (r.1, some e)

/-- Go `os.MkdirAll(path, perm)`. -/
def MkdirAll (umask : Nat) (fs : FS) (path : List Char) (perm : Nat) : FS × Option GoError :=
  mkdirAllRev umask perm (splitPath path).reverse fs

/-- Go `ioutil.WriteFile(path, data, perm)`: open with create and truncate, write. -/
def WriteFile (umask : Nat) (fs : FS) (path : List Char) (data : List Nat) (perm : Nat) :
    Except GoError FS :=
  let cs := splitPath path
  match resolve fs cs with
  | Except.ok (Node.file m _) =>
    if canWrite m = true then Except.ok (Node.put (Node.file m data) fs cs)
    else Except.error GoError.EACCES
  | Except.ok (Node.dir _ _) => Except.error GoError.EISDIR
  | Except.error GoError.ENOENT =>
    match resolve fs cs.dropLast with
    | Except.ok (Node.dir pm _) =>
      if canWrite pm = true then
        Except.ok (Node.put (Node.file (createMode umask perm) data) fs cs)
      else Except.error GoError.EACCES
    | Except.ok (Node.file _ _) => Except.error GoError.ENOTDIR
    | Except.error e => Except.error e
  | Except.error e => Except.error e

/-- Go `os.RemoveAll(path)`, whose error the program drops: the filesystem it
leaves. Nothing happens when the parent of `path` cannot be reached. -/
def RemoveAll (fs : FS) (path : List Char) : FS :=
  let cs := splitPath path
  match cs.getLast? with
  | none => fs
  | some name =>
    match resolve fs cs.dropLast with
    | Except.ok (Node.dir pm kids) =>
      if canSearch pm = true then
        Node.put (Node.dir pm (kids.removeSel (canWrite pm) (some name))) fs cs.dropLast
      else fs
    | _ => fs

/-- Order of `sort.Strings`, character by character. -/
def strLe : List Char → List Char → Bool
  | [], _ => true
  | _ :: _, [] => false
  | a :: s, b :: t =>
    if a.toNat < b.toNat then true
    else if b.toNat < a.toNat then false
    else strLe s t

/-- Insert a name into a sorted list of names. -/
def insertName (n : List Char) : List (List Char) → List (List Char)
  | [] => [n]
  | m :: ms => if strLe n m then n :: m :: ms else m :: insertName n ms

/-- Go `sort.Strings`. -/
def sortNames : List (List Char) → List (List Char)
  | [] => []
  | n :: ns => insertName n (sortNames ns)

/-- The helper `readDirNames` of `path/filepath`: the sorted names of the entries
of a directory, which has to be readable. -/
def readDirNames (fs : FS) (path : List Char) : Except GoError (List (List Char)) :=
  match resolve fs (splitPath path) with
  | Except.ok (Node.dir m kids) =>
    if canRead m = true then Except.ok (sortNames kids.names) else Except.error GoError.EACCES
  | Except.ok (Node.file _ _) => Except.error GoError.ENOTDIR
  | Except.error e => Except.error e

/-! ## The program -/

/-- The package-level variables that `init` sets from the command line. -/
structure Config where
  srcDir : List Char
  dstDir : List Char
  sourceEncoding : List Char
  sourceFile : List Char
  verbose : Bool

/-- What surrounds a run: the decoder tables, the umask of the process, and the
scheduler, which tells for every point of the walk and every spawned goroutine
whether the goroutine runs at that point. -/
structure Env where
  T : Tables
  umask : Nat
  sched : Nat → Nat → Bool

/-- A goroutine that `transDir` has spawned and that has not run yet: the
variables its closure captured. -/
structure Task where
  id : Nat
  path : List Char
  newPath : List Char
  enc : Encoding
  deriving DecidableEq, Repr

/-- One call of `fmt.Println`: a text line or an error value. -/
inductive Printed where
  | line (s : List Char)
  | error (e : GoError)
  deriving DecidableEq, Repr

/-- The state of a run of `transDir`: the filesystem, the goroutines that wait to
run, the number of goroutines spawned so far, the number of scheduling points
passed, and what was printed. -/
structure State where
  fs : FS
  pending : List Task
  spawned : Nat
  clock : Nat
  out : List Printed
  deriving DecidableEq, Repr

/-- How a function of the program ends: it returns nil, returns an error,
panics, or the model runs out of fuel. -/
inductive Ret where
  | nil
  | err (e : GoError)
  | panic
  | outOfFuel
  deriving DecidableEq, Repr

/-- The function `verboseOutput` of `main.go`. -/
def verboseOutput (cfg : Config) (msg : List Char) (σ : State) : State :=
  if cfg.verbose = true then { σ with out := σ.out ++ [Printed.line msg] } else σ

/-- The body of the goroutine of `transDir`: read the file, transform it, write
it to the new path; an error is printed and ends the goroutine. -/
def runTask (env : Env) (t : Task) (σ : State) : State :=
  match ReadFile σ.fs t.path with
  | Except.error err => { σ with out := σ.out ++ [Printed.error err] }
  | Except.ok bs =>
    match transformToUtf8 env.T bs t.enc with
    | Except.error err => { σ with out := σ.out ++ [Printed.error err] }
    | Except.ok data =>
      match WriteFile env.umask σ.fs t.newPath data 0o666 with
      | Except.error err => { σ with out := σ.out ++ [Printed.error err] }
      | Except.ok fs1 => { σ with fs := fs1 }

/-- Run the given goroutines one after the other. -/
def runTasks (env : Env) : List Task → State → State
  | [], σ => σ
  | t :: ts, σ => runTasks env ts (runTask env t σ)

/-- A scheduling point: the waiting goroutines the scheduler picks run now. -/
def tick (env : Env) (σ : State) : State :=
  let now := σ.pending.filter (fun t => env.sched σ.clock t.id)
  let later := σ.pending.filter (fun t => !env.sched σ.clock t.id)
  runTasks env now { σ with pending := later, clock := σ.clock + 1 }

/-- The deferred `wg.Wait()`: every goroutine still waiting runs to its end. -/
def wait (env : Env) (σ : State) : State :=
  runTasks env σ.pending { σ with pending := [] }

/-- The function literal `transDir` passes to `filepath.Walk`. The parameter
`err` is not read; `info` is `none` for a nil `os.FileInfo`, on which the call
`info.IsDir()` panics. -/
def walkFn (env : Env) (cfg : Config) (enc : Encoding) (σ0 : State) (path : List Char)
    (info : Option FileInfo) (_err : Option GoError) : State × Ret :=
  let σ := verboseOutput cfg path (tick env σ0)
  let newPath := Replace path cfg.srcDir cfg.dstDir 1
  match info with
  | none => (σ, Ret.panic)
  | some info =>
    if info.IsDir = true then
      let r := MkdirAll env.umask σ.fs newPath info.Mode
      match r.2 with
      | none => ({ σ with fs := r.1 }, Ret.nil)
      | some e => ({ σ with fs := r.1 }, Ret.err e)
    else
      ({ σ with pending := σ.pending ++ [⟨σ.spawned, path, newPath, enc⟩],
                spawned := σ.spawned + 1 }, Ret.nil)

/-- The loop of `walk` of `path/filepath` over the names of a directory; `rec` is
`walk` itself. -/
def walkNames (env : Env) (fn : State → List Char → Option FileInfo → Option GoError → State × Ret)
    (rec : State → List Char → FileInfo → State × Ret) (path : List Char) :
    List (List Char) → State → State × Ret
  | [], σ => (σ, Ret.nil)
  | name :: names, σ0 =>
    let filename := Join path name
    let σ := tick env σ0
    match Stat σ.fs filename with
    | Except.error e =>
      match fn σ filename none (some e) with
      | (σ1, Ret.nil) => walkNames env fn rec path names σ1
      | (σ1, Ret.err e1) =>
        if e1 = GoError.SkipDir then walkNames env fn rec path names σ1 else (σ1, Ret.err e1)
      | (σ1, r) => (σ1, r)
    | Except.ok fileInfo =>
      match rec σ filename fileInfo with
      | (σ1, Ret.nil) => walkNames env fn rec path names σ1
      | (σ1, Ret.err e1) =>
        if fileInfo.IsDir = true ∧ e1 = GoError.SkipDir then walkNames env fn rec path names σ1
        else (σ1, Ret.err e1)
      | (σ1, r) => (σ1, r)

/-- The function `walk` of `path/filepath`: it reads the names of a directory,
calls the function on the directory, returns what the function returned when
the read failed or the function returned an error, and walks the names
otherwise. The fuel bounds the depth of the recursion. -/
def walk (env : Env) (fn : State → List Char → Option FileInfo → Option GoError → State × Ret) :
    Nat → State → List Char → FileInfo → State × Ret
  | 0, σ, _, _ => (σ, Ret.outOfFuel)
  | fuel + 1, σ0, path, info =>
    if info.IsDir = false then fn σ0 path (some info) none
    else
      let σ := tick env σ0
      match readDirNames σ.fs path with
      | Except.error err => fn σ path (some info) (some err)
      | Except.ok names =>
        match fn σ path (some info) none with
        | (σ1, Ret.nil) => walkNames env fn (walk env fn fuel) path names σ1
        | (σ1, r) => (σ1, r)

/-- Go `filepath.Walk(root, fn)`. -/
def Walk (env : Env) (fn : State → List Char → Option FileInfo → Option GoError → State × Ret)
    (fuel : Nat) (σ0 : State) (root : List Char) : State × Ret :=
  let σ := tick env σ0
  let r := match Stat σ.fs root with
    | Except.error err => fn σ root none (some err)
    | Except.ok info => walk env fn fuel σ root info
  match r with
  | (σ1, Ret.err e) => if e = GoError.SkipDir then (σ1, Ret.nil) else (σ1, Ret.err e)
  | (σ1, r1) => (σ1, r1)

/-- A run starts with no goroutine and nothing printed. -/
def State.init (fs : FS) : State := ⟨fs, [], 0, 0, []⟩

/-- The function `transDir` of `main.go`, run on a filesystem: the final state
and how the function ends. -/
def transDir (env : Env) (cfg : Config) (fuel : Nat) (fs : FS) : State × Ret :=
  let σ0 := verboseOutput cfg "transform directory mode".toList (State.init fs)
  let σ1 := verboseOutput cfg ("src: ".toList ++ cfg.srcDir ++ " dst: ".toList ++ cfg.dstDir
    ++ " [".toList ++ cfg.sourceEncoding ++ "]".toList) σ0
  match Stat σ1.fs cfg.srcDir with
  | Except.error err => (σ1, Ret.err err)
  | Except.ok fi =>
    let mode := fi.Mode
    let σ2 := { σ1 with fs := RemoveAll σ1.fs cfg.dstDir }
    match Mkdir env.umask σ2.fs cfg.dstDir mode with
    | Except.error err => (σ2, Ret.err err)
    | Except.ok fs3 =>
      let σ3 := { σ2 with fs := fs3 }
      match encodingMap cfg.sourceEncoding with
      | none => (σ3, Ret.err (GoError.errorf "invalid encoding: %!s(<nil>)".toList))
      | some enc =>
        let r := Walk env (walkFn env cfg enc) fuel σ3 cfg.srcDir
        (wait env r.1, r.2)

/-- The bytes `fmt.Println` writes for a text: its characters in UTF-8 and a newline. -/
def printlnBytes (s : List Char) : List Nat :=
  (s.map (fun c => EncodeRune c.toNat)).flatten ++ [0x0A]

/-- The function `transFile` of `main.go`, run on a filesystem: the bytes written
to standard output and the error returned (`none` for nil). -/
def transFile (T : Tables) (cfg : Config) (fs : FS) : List Nat × Option GoError :=
  let out0 := if cfg.verbose = true then printlnBytes "transform file mode".toList else []
  let out1 := out0 ++ (if cfg.verbose = true then
    printlnBytes ("src: ".toList ++ cfg.sourceFile ++ " [".toList ++ cfg.sourceEncoding
      ++ "]".toList) else [])
  match ReadFile fs cfg.sourceFile with
  | Except.error err => (out1, some err)
  | Except.ok bs =>
    match encodingMap cfg.sourceEncoding with
    | none => (out1, some (GoError.errorf ("invalid encoding: ".toList ++ cfg.sourceEncoding)))
    | some enc =>
      match transformToUtf8 T bs enc with
      | Except.error err => (out1, some err)
      | Except.ok data => (out1 ++ data ++ [0x0A], none)

/-! ## Reference decoders

Written from the definitions of the encodings, not from the library code: a
byte sequence is valid when it splits into well-formed characters that the
encoding maps to Unicode scalar values, and its text is the list of these
scalar values. -/

/-- A Unicode scalar value: a code point that is not a surrogate. -/
def isScalar (cp : Nat) : Bool := cp < 0xD800 ∨ (0xDFFF < cp ∧ cp ≤ 0x10FFFF)

/-- A continuation byte of UTF-8. -/
def isCont (b : Nat) : Bool := 0x80 ≤ b ∧ b ≤ 0xBF

/-- Reference UTF-8 decoder: the code points of a well-formed UTF-8 sequence
(shortest form, no surrogates, at most U+10FFFF), `none` for any other input. -/
def refDecodeUTF8 : List Nat → Option (List Nat)
  | [] => some []
  | b0 :: rest =>
    if b0 < 0x80 then (refDecodeUTF8 rest).map (fun t => b0 :: t)
    else if 0xC0 ≤ b0 ∧ b0 ≤ 0xDF then
      match rest with
      | b1 :: r =>
        let cp := (b0 - 0xC0) * 64 + (b1 - 0x80)
        if isCont b1 = true ∧ 0x80 ≤ cp then (refDecodeUTF8 r).map (fun t => cp :: t) else none
      | _ => none
    else if 0xE0 ≤ b0 ∧ b0 ≤ 0xEF then
      match rest with
      | b1 :: b2 :: r =>
        let cp := (b0 - 0xE0) * 4096 + (b1 - 0x80) * 64 + (b2 - 0x80)
        if isCont b1 = true ∧ isCont b2 = true ∧ 0x800 ≤ cp ∧ isScalar cp = true then
          (refDecodeUTF8 r).map (fun t => cp :: t)
        else none
      | _ => none
    else if 0xF0 ≤ b0 ∧ b0 ≤ 0xF7 then
      match rest with
      | b1 :: b2 :: b3 :: r =>
        let cp := (b0 - 0xF0) * 262144 + (b1 - 0x80) * 4096 + (b2 - 0x80) * 64 + (b3 - 0x80)
        if isCont b1 = true ∧ isCont b2 = true ∧ isCont b3 = true ∧ 0x10000 ≤ cp ∧
            cp ≤ 0x10FFFF then
          (refDecodeUTF8 r).map (fun t => cp :: t)
        else none
      | _ => none
    else none

/-- The code point of a four-byte pointer below 39420 in the ranges table of
GB18030: the last range that starts at or before the pointer gives the offset. -/
def rangesCodePoint (tab : List (Nat × Nat)) (pointer : Nat) : Option Nat :=
  match (tab.filter (fun e => e.1 ≤ pointer)).getLast? with
  | none => none
  | some e => some (e.2 + (pointer - e.1))

/-- Reference decoder of GBK (`four = false`) and GB18030 (`four = true`) over
the tables of the encoding: ASCII, 0x80 for the euro sign, two-byte characters
looked up in the two-byte table, and for GB18030 four-byte characters. -/
def refDecodeGBK (T : Tables) (four : Bool) : List Nat → Option (List Nat)
  | [] => some []
  | b0 :: rest =>
    if b0 < 0x80 then (refDecodeGBK T four rest).map (fun t => b0 :: t)
    else if b0 = 0x80 then (refDecodeGBK T four rest).map (fun t => 0x20AC :: t)
    else if 0x81 ≤ b0 ∧ b0 ≤ 0xFE then
      match rest with
      | [] => none
      | b1 :: r =>
        if (0x40 ≤ b1 ∧ b1 ≤ 0x7E) ∨ (0x80 ≤ b1 ∧ b1 ≤ 0xFE) then
          let pointer := (b0 - 0x81) * 190 + (if b1 < 0x7F then b1 - 0x40 else b1 - 0x41)
          match T.decode.get? pointer with
          | some cp =>
            if cp ≠ 0 ∧ isScalar cp = true then (refDecodeGBK T four r).map (fun t => cp :: t)
            else none
          | none => none
        else if four = true ∧ 0x30 ≤ b1 ∧ b1 ≤ 0x39 then
          match r with
          | b2 :: b3 :: r1 =>
            if 0x81 ≤ b2 ∧ b2 ≤ 0xFE ∧ 0x30 ≤ b3 ∧ b3 ≤ 0x39 then
              let pointer := (((b0 - 0x81) * 10 + (b1 - 0x30)) * 126 + (b2 - 0x81)) * 10 + (b3 - 0x30)
              let cp : Option Nat :=
                if pointer < 39420 then rangesCodePoint T.gb18030 pointer
                else if 189000 ≤ pointer then some (0x10000 + (pointer - 189000))
                else none
              match cp with
              | some c =>
                if isScalar c = true then (refDecodeGBK T four r1).map (fun t => c :: t) else none
              | none => none
            else none
          | _ => none
        else none
    else none

/-- Reference decoder of a registered encoding. -/
def refDecode (T : Tables) : Encoding → List Nat → Option (List Nat)
  | Encoding.GBK => refDecodeGBK T false
  | Encoding.GB18030 => refDecodeGBK T true
  | Encoding.UTF8 => refDecodeUTF8

/-- The ranges table of GB18030 is in order of its pointers and starts at
pointer 0, as the table of the library is. -/
def Tables.rangesSorted (T : Tables) : Prop :=
  List.Pairwise (fun a b => a.1 < b.1) T.gb18030 ∧ (T.gb18030.head?.map (fun e => e.1)) = some 0

/-- A character of the encoding starts the input: the reference decoder of the
encoding yields the single code point `cp` for the first `n` bytes. -/
def startsWithChar (T : Tables) (enc : Encoding) (data : List Nat) (n cp : Nat) : Prop :=
  0 < n ∧ n ≤ data.length ∧ refDecode T enc (data.take n) = some [cp]

/-- Decoding with substitution: `text` is the input read from left to right.
A character of the encoding gives its code point; where no character of the
encoding starts, a part of at least one byte gives U+FFFD; and under GB18030
only, a lead byte followed by a byte 0x3A to 0x3F, a byte 0x81 to 0xFE and a
digit is read as the four-byte character whose second byte were that digit
plus ten, although the encoding has no character there. -/
inductive Substituted (T : Tables) (enc : Encoding) : List Nat → List Nat → Prop where
  | done : Substituted T enc [] []
  | char (data : List Nat) (n cp : Nat) (text : List Nat) :
    startsWithChar T enc data n cp → Substituted T enc (data.drop n) text →
    Substituted T enc data (cp :: text)
  | subst (data : List Nat) (n : Nat) (text : List Nat) :
    0 < n → n ≤ data.length → (∀ k cp, ¬ startsWithChar T enc data k cp) →
    Substituted T enc (data.drop n) text → Substituted T enc data (RuneError :: text)
  | lenient (c0 c1 c2 c3 cp : Nat) (rest text : List Nat) :
    enc = Encoding.GB18030 → 0x81 ≤ c0 ∧ c0 ≤ 0xFE → 0x3A ≤ c1 ∧ c1 ≤ 0x3F →
    0x81 ≤ c2 ∧ c2 ≤ 0xFE → 0x30 ≤ c3 ∧ c3 ≤ 0x39 →
    (if (((c0 - 0x81) * 10 + (c1 - 0x30)) * 126 + (c2 - 0x81)) * 10 + (c3 - 0x30) < 39420 then
      rangesCodePoint T.gb18030
        ((((c0 - 0x81) * 10 + (c1 - 0x30)) * 126 + (c2 - 0x81)) * 10 + (c3 - 0x30))
    else if 189000 ≤ (((c0 - 0x81) * 10 + (c1 - 0x30)) * 126 + (c2 - 0x81)) * 10 +
        (c3 - 0x30) then
      some (0x10000 +
        ((((c0 - 0x81) * 10 + (c1 - 0x30)) * 126 + (c2 - 0x81)) * 10 + (c3 - 0x30) - 189000))
    else none) = some cp →
    isScalar cp = true →
    Substituted T enc rest text → Substituted T enc (c0 :: c1 :: c2 :: c3 :: rest) (cp :: text)

/-! ## Notions for the proofs about the decoders -/

/-- The first character of a UTF-8 input as the reference decoder reads it: its
code point and its number of bytes. -/
def headUTF8 : List Nat → Option (Nat × Nat)
  | [] => none
  | b0 :: rest =>
    if b0 < 0x80 then some (b0, 1)
    else if 0xC0 ≤ b0 ∧ b0 ≤ 0xDF then
      match rest with
      | b1 :: _ =>
        let cp := (b0 - 0xC0) * 64 + (b1 - 0x80)
        if isCont b1 = true ∧ 0x80 ≤ cp then some (cp, 2) else none
      | _ => none
    else if 0xE0 ≤ b0 ∧ b0 ≤ 0xEF then
      match rest with
      | b1 :: b2 :: _ =>
        let cp := (b0 - 0xE0) * 4096 + (b1 - 0x80) * 64 + (b2 - 0x80)
        if isCont b1 = true ∧ isCont b2 = true ∧ 0x800 ≤ cp ∧ isScalar cp = true then
          some (cp, 3)
        else none
      | _ => none
    else if 0xF0 ≤ b0 ∧ b0 ≤ 0xF7 then
      match rest with
      | b1 :: b2 :: b3 :: _ =>
        let cp := (b0 - 0xF0) * 262144 + (b1 - 0x80) * 4096 + (b2 - 0x80) * 64 + (b3 - 0x80)
        if isCont b1 = true ∧ isCont b2 = true ∧ isCont b3 = true ∧ 0x10000 ≤ cp ∧
            cp ≤ 0x10FFFF then
          some (cp, 4)
        else none
      | _ => none
    else none

/-- The first character of a GBK or GB18030 input as the reference decoder
reads it: its code point and its number of bytes. -/
def headGBK (T : Tables) (four : Bool) : List Nat → Option (Nat × Nat)
  | [] => none
  | b0 :: rest =>
    if b0 < 0x80 then some (b0, 1)
    else if b0 = 0x80 then some (0x20AC, 1)
    else if 0x81 ≤ b0 ∧ b0 ≤ 0xFE then
      match rest with
      | [] => none
      | b1 :: r =>
        if (0x40 ≤ b1 ∧ b1 ≤ 0x7E) ∨ (0x80 ≤ b1 ∧ b1 ≤ 0xFE) then
          let pointer := (b0 - 0x81) * 190 + (if b1 < 0x7F then b1 - 0x40 else b1 - 0x41)
          match T.decode.get? pointer with
          | some cp => if cp ≠ 0 ∧ isScalar cp = true then some (cp, 2) else none
          | none => none
        else if four = true ∧ 0x30 ≤ b1 ∧ b1 ≤ 0x39 then
          match r with
          | b2 :: b3 :: _ =>
            if 0x81 ≤ b2 ∧ b2 ≤ 0xFE ∧ 0x30 ≤ b3 ∧ b3 ≤ 0x39 then
              let pointer := (((b0 - 0x81) * 10 + (b1 - 0x30)) * 126 + (b2 - 0x81)) * 10 + (b3 - 0x30)
              let cp : Option Nat :=
                if pointer < 39420 then rangesCodePoint T.gb18030 pointer
                else if 189000 ≤ pointer then some (0x10000 + (pointer - 189000))
                else none
              match cp with
              | some c => if isScalar c = true then some (c, 4) else none
              | none => none
            else none
          | _ => none
        else none
    else none

/-- The input starts with four bytes that GB18030 has no character for and that
the library reads as one: a lead byte, a byte 0x3A to 0x3F, a byte 0x81 to 0xFE
and a digit; `cp` is the code point of the pointer they make. -/
def lenientHead (T : Tables) (data : List Nat) (cp : Nat) : Prop :=
  ∃ c0 c1 c2 c3 r, data = c0 :: c1 :: c2 :: c3 :: r ∧
    (0x81 ≤ c0 ∧ c0 ≤ 0xFE) ∧ (0x3A ≤ c1 ∧ c1 ≤ 0x3F) ∧
    (0x81 ≤ c2 ∧ c2 ≤ 0xFE) ∧ (0x30 ≤ c3 ∧ c3 ≤ 0x39) ∧
    (if (((c0 - 0x81) * 10 + (c1 - 0x30)) * 126 + (c2 - 0x81)) * 10 + (c3 - 0x30) < 39420 then
      rangesCodePoint T.gb18030
        ((((c0 - 0x81) * 10 + (c1 - 0x30)) * 126 + (c2 - 0x81)) * 10 + (c3 - 0x30))
    else if 189000 ≤ (((c0 - 0x81) * 10 + (c1 - 0x30)) * 126 + (c2 - 0x81)) * 10 +
        (c3 - 0x30) then
      some (0x10000 +
        ((((c0 - 0x81) * 10 + (c1 - 0x30)) * 126 + (c2 - 0x81)) * 10 + (c3 - 0x30) - 189000))
    else none) = some cp ∧
    isScalar cp = true

/-- The first character of an input as the reference decoder of the encoding
reads it. -/
def headChar (T : Tables) : Encoding → List Nat → Option (Nat × Nat)
  | Encoding.GBK => headGBK T false
  | Encoding.GB18030 => headGBK T true
  | Encoding.UTF8 => headUTF8

/-! ## Notions for the statements about tree mode -/

/-- What a path shows of a node without its entries: a file with its mode and
contents, or a directory with its mode. -/
inductive View where
  | file (mode : Nat) (data : List Nat)
  | dir (mode : Nat)
  deriving DecidableEq, Repr

/-- The view of a node. -/
def Node.view : Node → View
  | Node.file m d => View.file m d
  | Node.dir m _ => View.dir m

/-- The view of the node at a path of components, `none` when there is none. -/
def viewAt (fs : FS) (q : List (List Char)) : Option View :=
  (fs.get q).map Node.view

/-- Every directory that a path passes through may be searched. -/
def searchable (fs : Node) (p : List (List Char)) : Prop :=
  ∀ q, q <+: p → q ≠ p → ∃ m, viewAt fs q = some (View.dir m) ∧ canSearch m = true

/-- The components of a path written one after the other, each after a slash. -/
def pathFlat : List (List Char) → List Char
  | [] => []
  | c :: cs => '/' :: c ++ pathFlat cs

/-- The clean absolute path with the given components. -/
def pathOf (cs : List (List Char)) : List Char :=
  if cs = [] then ['/'] else pathFlat cs

/-- A name a directory entry can have: not empty and without a slash. -/
def validName (n : List Char) : Prop := n ≠ [] ∧ '/' ∉ n

/-- Every entry below has a name a directory entry can have. -/
def Entries.validNames : Entries → Prop
  | Entries.nil => True
  | Entries.file n _ _ rest => validName n ∧ rest.validNames
  | Entries.dir n _ kids rest => validName n ∧ kids.validNames ∧ rest.validNames

/-- Every entry below a node has a name a directory entry can have. -/
def Node.validNames : Node → Prop
  | Node.file _ _ => True
  | Node.dir _ kids => kids.validNames

/-- The number of directory levels below a list of entries. -/
def Entries.depth : Entries → Nat
  | Entries.nil => 0
  | Entries.file _ _ _ rest => max 1 rest.depth
  | Entries.dir _ _ kids rest => max (kids.depth + 1) rest.depth

/-- The number of levels of a node: 1 for a file or an empty directory. -/
def Node.depth : Node → Nat
  | Node.file _ _ => 1
  | Node.dir _ kids => kids.depth + 1

/-! ## Notions for the proofs about tree mode

A run of `transDir` whose setup succeeded is described by a context: the
source root as a node, the filesystem without the destination, and the
parameters. The invariants say what the destination holds while the walk goes
on, in terms of the directories made so far and of the goroutines spawned. -/

/-- The fixed data of a run after setup: tables, umask, decoder, configuration,
the components of source and destination root, mode and entries of the source
root, and the filesystem as it is without the destination. -/
structure Ctx where
  T : Tables
  umask : Nat
  enc : Encoding
  cfg : Config
  sc : List (List Char)
  dc : List (List Char)
  mS : Nat
  kS : Entries
  base : FS

/-- The source root of a context. -/
def Ctx.S (c : Ctx) : Node := Node.dir c.mS c.kS

/-- The mode of the parent directory of the destination root. -/
def Ctx.pD (c : Ctx) : Nat :=
  match c.base.get c.dc.dropLast with
  | some (Node.dir pm _) => pm
  | _ => 0

/-- The mode of the mirror of a source directory of mode `m`. -/
def Ctx.mir (c : Ctx) (m : Nat) : Nat := mkdirMode c.umask c.pD m

/-- The mode of the destination root of a context. -/
def Ctx.mD (c : Ctx) : Nat := c.mir c.mS

/-- The facts setup establishes: source and destination are given by their
components, neither lies inside the other, the source root is a directory that
can be reached, and the destination can be made in its parent. -/
structure Ctx.ok (c : Ctx) : Prop where
  src : c.cfg.srcDir = pathOf c.sc
  dst : c.cfg.dstDir = pathOf c.dc
  scValid : ∀ d ∈ c.sc, validName d
  dcValid : ∀ d ∈ c.dc, validName d
  disj1 : ¬ c.sc <+: c.dc
  disj2 : ¬ c.dc <+: c.sc
  names : c.kS.validNames
  srcRes : resolve c.base c.sc = Except.ok c.S
  dstFree : c.base.get c.dc = none
  dstPar : ∃ pm pk, resolve c.base c.dc.dropLast = Except.ok (Node.dir pm pk) ∧
    canSearch pm = true ∧ canWrite pm = true
  own : c.umask % 0o1000 < 0o100

/-- The owner may read, write and search. -/
def rwx (m : Nat) : Prop := canRead m = true ∧ canWrite m = true ∧ canSearch m = true

/-- Every directory below that has entries may be read, written and searched. -/
def Entries.tidy : Entries → Prop
  | Entries.nil => True
  | Entries.file _ _ _ rest => rest.tidy
  | Entries.dir _ m kids rest => (kids = Entries.nil ∨ rwx m) ∧ kids.tidy ∧ rest.tidy

/-- A node is tidy when `RemoveAll` can remove everything below it. -/
def Node.tidy : Node → Prop
  | Node.file _ _ => True
  | Node.dir m kids => (kids = Entries.nil ∨ rwx m) ∧ kids.tidy

/-- What the goroutine of the source file at `rel` leaves at the mirrored path
when it has run: the transformed file when the source may be read and the
mirrored directory written, nothing otherwise. -/
def Ctx.outcome (c : Ctx) (rel : List (List Char)) : Option View :=
  match c.S.get rel, c.S.get rel.dropLast with
  | some (Node.file m d), some (Node.dir pm _) =>
    if canRead m = true ∧ canWrite pm = true then
      match transformToUtf8 c.T d c.enc with
      | Except.ok data => some (View.file (createMode c.umask 0o666) data)
      | Except.error _ => none
    else none
  | _, _ => none

/-- The invariant of the destination root `dn` during the walk: `D` lists the
source directories whose mirror was made, `P` the goroutines spawned, `und`
tells which of them have not run. -/
structure DInv (c : Ctx) (dn : Node) (D : List (List (List Char))) (P : List Task)
    (und : Task → Prop) : Prop where
  dirs : ∀ rel m k, c.S.get rel = some (Node.dir m k) →
    viewAt dn rel = if rel ∈ D then some (View.dir (c.mir m)) else none
  filesDone : ∀ rel m d, c.S.get rel = some (Node.file m d) →
    (∃ t ∈ P, ¬ und t ∧ t.newPath = pathOf (c.dc ++ rel)) → viewAt dn rel = c.outcome rel
  filesWait : ∀ rel m d, c.S.get rel = some (Node.file m d) →
    (¬ ∃ t ∈ P, ¬ und t ∧ t.newPath = pathOf (c.dc ++ rel)) → viewAt dn rel = none
  others : ∀ rel, c.S.get rel = none → viewAt dn rel = none
  root : [] ∈ D
  made : ∀ rel ∈ D, rel.dropLast ∈ D ∧ ∃ m k, resolve c.S rel = Except.ok (Node.dir m k)
  tasks : ∀ t ∈ P, ∃ rel m d, t.path = pathOf (c.sc ++ rel) ∧
    t.newPath = pathOf (c.dc ++ rel) ∧ t.enc = c.enc ∧
    resolve c.S rel = Except.ok (Node.file m d) ∧ rel.dropLast ∈ D ∧
    ∃ pm pk, c.S.get rel.dropLast = some (Node.dir pm pk) ∧ canRead pm = true

/-- The invariant of the filesystem during the walk: it is the filesystem
without the destination, with a tidy destination root put in that satisfies
the invariant of the destination. -/
def FInv (c : Ctx) (fs : FS) (D : List (List (List Char))) (P : List Task)
    (und : Task → Prop) : Prop :=
  ∃ kids, fs = Node.put (Node.dir c.mD kids) c.base c.dc ∧ (Node.dir c.mD kids).tidy ∧
    DInv c (Node.dir c.mD kids) D P und

/-- The invariant of the state during the walk. -/
def Inv (c : Ctx) (σ : State) (D : List (List (List Char))) (P : List Task) : Prop :=
  FInv c σ.fs D P (fun t => t ∈ σ.pending) ∧ (∀ t ∈ σ.pending, t ∈ P) ∧
    σ.spawned = P.length ∧ (∀ t ∈ P, t.id < P.length)

/-- The facts about the place the walk is at: the source path `rel` resolves
to `node`, and below the root the mirror of its parent was made and the parent
may be read. -/
structure Pos (c : Ctx) (D : List (List (List Char))) (rel : List (List Char))
    (node : Node) : Prop where
  res : resolve c.S rel = Except.ok node
  root : [] ∈ D
  par : rel ≠ [] → rel.dropLast ∈ D ∧
    ∃ pm pk, c.S.get rel.dropLast = some (Node.dir pm pk) ∧ canRead pm = true

/-- Some entry is a directory. -/
def Entries.hasDir : Entries → Prop
  | Entries.nil => False
  | Entries.file _ _ _ rest => rest.hasDir
  | Entries.dir _ _ _ _ => True

/-- The traversal of the entries succeeds: every directory below may be read
and searched, and may be written when it holds a directory. -/
def Entries.walkable : Entries → Prop
  | Entries.nil => True
  | Entries.file _ _ _ rest => rest.walkable
  | Entries.dir _ m kids rest =>
    (canRead m = true ∧ canSearch m = true ∧ (kids.hasDir → canWrite m = true) ∧ kids.walkable) ∧
      rest.walkable

/-- The traversal of a source tree succeeds: every directory may be read and
searched, and may be written when it holds a directory (its mirror then takes
the mirrors of these). -/
def Node.walkable : Node → Prop
  | Node.file _ _ => True
  | Node.dir m kids =>
    canRead m = true ∧ canSearch m = true ∧ (kids.hasDir → canWrite m = true) ∧ kids.walkable

/-- The walk has covered the tree `node` at `rel`: the mirror of every
directory in it was made and a goroutine was spawned for every file in it. -/
def Cov (c : Ctx) (D : List (List (List Char))) (P : List Task) (rel : List (List Char))
    (node : Node) : Prop :=
  (∀ r m k, node.get r = some (Node.dir m k) → rel ++ r ∈ D) ∧
  (∀ r m d, node.get r = some (Node.file m d) →
    ∃ t ∈ P, t.newPath = pathOf (c.dc ++ (rel ++ r)))

/-- The mirror of the directory at `rel` can be made, if it is not made yet:
the parent directory may be written. -/
def MkOK (c : Ctx) (D : List (List (List Char))) (rel : List (List Char)) (node : Node) : Prop :=
  rel ∉ D → ∀ m k, node = Node.dir m k →
    ∀ pm pk, c.S.get rel.dropLast = some (Node.dir pm pk) → canWrite pm = true

/-- Whether the loop of `walk` goes on to the next name after the walk of an
entry that is a directory or not (`isDir`) ended with `r`. -/
def namesNext (r : Ret) (isDir : Bool) : Bool :=
  match r with
  | Ret.nil => true
  | Ret.err e => isDir && decide (e = GoError.SkipDir)
  | _ => false

/-- The result of `filepath.Walk` after what `walk` returned. -/
def walkRet (r : Ret) : Ret :=
  match r with
  | Ret.err e => if e = GoError.SkipDir then Ret.nil else Ret.err e
  | r1 => r1

/-- What `walk` with a given fuel does at any place: the directories made, the
goroutines spawned and the result do not depend on the scheduler, the invariant
is kept, and a traversal that can succeed returns nil and covers the tree. -/
def WalkSpec (c : Ctx) (fuel : Nat) : Prop :=
  ∀ (rel : List (List Char)) (node : Node) (D : List (List (List Char))) (P : List Task),
    Pos c D rel node →
    ∃ (D1 : List (List (List Char))) (P1 : List Task) (r : Ret),
      (∀ x ∈ D, x ∈ D1) ∧ (∃ Q, P1 = P ++ Q) ∧
      (∀ (env : Env) (σ : State), env.T = c.T → env.umask = c.umask → Inv c σ D P →
        ∃ σ1, walk env (walkFn env c.cfg c.enc) fuel σ (pathOf (c.sc ++ rel)) node.info =
          (σ1, r) ∧ Inv c σ1 D1 P1) ∧
      (node.walkable → MkOK c D rel node → node.depth ≤ fuel →
        r = Ret.nil ∧ Cov c D1 P1 rel node)

/-- What the loop of `walk` over the names `ns` of the directory at `rel` does,
when the walk of each entry goes by `fuel`. -/
def NamesSpec (c : Ctx) (fuel : Nat) (rel : List (List Char)) (m : Nat) (kids : Entries)
    (ns : List (List Char)) : Prop :=
  ∀ (D : List (List (List Char))) (P : List Task), rel ∈ D → [] ∈ D →
    ∃ (D1 : List (List (List Char))) (P1 : List Task) (r : Ret),
      (∀ x ∈ D, x ∈ D1) ∧ (∃ Q, P1 = P ++ Q) ∧
      (∀ (env : Env) (σ : State), env.T = c.T → env.umask = c.umask → Inv c σ D P →
        ∃ σ1, walkNames env (walkFn env c.cfg c.enc)
            (walk env (walkFn env c.cfg c.enc) fuel) (pathOf (c.sc ++ rel)) ns σ = (σ1, r) ∧
          Inv c σ1 D1 P1) ∧
      ((Node.dir m kids).walkable → kids.depth ≤ fuel →
        r = Ret.nil ∧ ∀ n ∈ ns, ∀ child, kids.find n = some child →
          Cov c D1 P1 (rel ++ [n]) child)

/-! ## Example inputs -/

/-- Decoder tables with one two-byte character: bytes 0x81 0x40 for U+4E02. -/
def exTables : Tables := ⟨[0x4E02], [(0, 0x80)]⟩

/-- An environment whose scheduler defers every goroutine to the final wait. -/
def exEnvLazy : Env := ⟨exTables, 0o022, fun _ _ => false⟩

/-- An environment whose scheduler runs every goroutine at the first scheduling
point after its start. -/
def exEnvEager : Env := ⟨exTables, 0o022, fun _ _ => true⟩

/-- A source tree `/src` with one file and a destination `/dst` that holds an
older file. -/
def exFS : FS := Node.dir 0o755
  (Entries.dir "src".toList 0o755 (Entries.file "a.txt".toList 0o644 [0x41] Entries.nil)
  (Entries.dir "dst".toList 0o755 (Entries.file "old.txt".toList 0o644 [0x42] Entries.nil)
    Entries.nil))

/-- A source tree `/src` with a file the process may read and a file it may not
(mode 0), and a destination `/dst` that holds an older file. -/
def exMixedFS : FS := Node.dir 0o755
  (Entries.dir "src".toList 0o755
    (Entries.file "a.txt".toList 0o644 [0x41]
    (Entries.file "secret.txt".toList 0 [0x42] Entries.nil))
  (Entries.dir "dst".toList 0o755 (Entries.file "old.txt".toList 0o644 [0x42] Entries.nil)
    Entries.nil))

/-- Tree mode from `/src` to `/dst` with a given encoding name. -/
def exConfig (enc : List Char) : Config := ⟨"/src".toList, "/dst".toList, enc, [], false⟩

/-- A source tree `/src` with a directory `sub` that the process may not list
(mode 0300), holding a directory `deep`, and a file `z.txt` after it. -/
def exUnlistableFS : FS := Node.dir 0o755
  (Entries.dir "src".toList 0o755
    (Entries.dir "sub".toList 0o300
      (Entries.dir "deep".toList 0o755 Entries.nil Entries.nil)
      (Entries.file "z.txt".toList 0o644 [0x41] Entries.nil))
    Entries.nil)

/-- A source tree `/src` with a directory `sub` that the process may list but not
search (mode 0600), so that its entry `f` cannot be stat'ed. -/
def exUnsearchableFS : FS := Node.dir 0o755
  (Entries.dir "src".toList 0o755
    (Entries.dir "sub".toList 0o600
      (Entries.file "f".toList 0o644 [0x41] Entries.nil) Entries.nil)
    Entries.nil)

/-- The default layout of the command line: the source is the working directory
`/w`, the destination is `/w/output`, inside the source. -/
def exDefaultFS : FS := Node.dir 0o755
  (Entries.dir "w".toList 0o755 (Entries.file "a.txt".toList 0o644 [0x41] Entries.nil)
    Entries.nil)

/-- The default layout at a later run: the working directory `/w` holds a
readable file, a file the process may not read (mode 0), and the output of an
earlier run. -/
def exRerunFS : FS := Node.dir 0o755
  (Entries.dir "w".toList 0o755
    (Entries.file "a.txt".toList 0o644 [0x41]
    (Entries.file "secret.txt".toList 0 [0x42]
    (Entries.dir "output".toList 0o755
      (Entries.file "old.txt".toList 0o644 [0x43] Entries.nil) Entries.nil)))
    Entries.nil)

/-- The configuration of the default layout. -/
def exDefaultConfig : Config := ⟨"/w".toList, "/w/output".toList, "GBK".toList, [], false⟩

/-- Single-file mode on `/src/a.txt` with a given encoding name. -/
def exFileConfig (enc : List Char) : Config := ⟨[], [], enc, "/src/a.txt".toList, false⟩

/-! ## The decoder registry and the path mapping -/

theorem isPrefixOf_append_self (a b : List Char) : a.isPrefixOf (a ++ b) = true := by
  induction a with
  | nil => simp [List.isPrefixOf]
  | cons c a ih => simp [List.isPrefixOf, ih]

theorem indexAux_at_start (old rest : List Char) (h : old ≠ []) :
    indexAux old (old ++ rest) = some 0 := by
  cases old with
  | nil => exact absurd rfl h
  | cons c t =>
    have := isPrefixOf_append_self (c :: t) rest
    simp only [List.cons_append] at this ⊢
    simp only [indexAux, this, if_true]

theorem Replace_at_start (srcDir dstDir rest : List Char) (h : srcDir ≠ []) :
    Replace (srcDir ++ rest) srcDir dstDir 1 = dstDir ++ rest := by
  unfold Replace
  by_cases heq : srcDir = dstDir
  · simp [heq]
  · have hidx := indexAux_at_start srcDir rest h
    have hcount : Count (srcDir ++ rest) srcDir = 1 + countLoop srcDir (srcDir ++ rest).length
        ((srcDir ++ rest).drop (0 + srcDir.length)) := by
      simp only [Count, if_neg h, countLoop, hidx]
    have hm : Count (srcDir ++ rest) srcDir ≠ 0 := by rw [hcount]; omega
    have hlen : srcDir.length ≠ 0 := by
      intro h0; exact h (List.length_eq_zero.mp h0)
    have hn : (if (1:Int) < 0 ∨ ((Count (srcDir ++ rest) srcDir : Nat) : Int) < 1 then
        Count (srcDir ++ rest) srcDir else (1:Int).toNat) = 1 := by
      have : ¬ ((1:Int) < 0 ∨ ((Count (srcDir ++ rest) srcDir : Nat) : Int) < 1) := by
        omega
      rw [if_neg this]; rfl
    simp only [heq, false_or, one_ne_zero, if_false, hm, hn]
    simp [replaceLoop, hlen, Index, hidx]

/-- C5: for a non-empty `srcDir` and a walked path that has `srcDir` as a prefix,
`strings.Replace(path, srcDir, dstDir, 1)` is `dstDir` followed by the rest of
the path after the prefix, also when `srcDir` occurs again later in the path,
and two distinct such paths never get the same destination path. -/
theorem C5_destination_path_exact_and_injective (srcDir dstDir : List Char)
    (hsrc : srcDir ≠ []) :
    (∀ rest, Replace (srcDir ++ rest) srcDir dstDir 1 = dstDir ++ rest) ∧
    (∀ r1 r2, Replace (srcDir ++ r1) srcDir dstDir 1 = Replace (srcDir ++ r2) srcDir dstDir 1 →
      srcDir ++ r1 = srcDir ++ r2) := by
  refine ⟨fun rest => Replace_at_start srcDir dstDir rest hsrc, ?_⟩
  intro r1 r2 h
  rw [Replace_at_start srcDir dstDir r1 hsrc, Replace_at_start srcDir dstDir r2 hsrc] at h
  rw [List.append_cancel_left h]

theorem C5_destination_path_witness :
    "/src".toList ≠ [] ∧
    Replace ("/src".toList ++ "/a/src/b".toList) "/src".toList "/dst".toList 1 =
      "/dst".toList ++ "/a/src/b".toList :=
  ⟨by decide,
   (C5_destination_path_exact_and_injective "/src".toList "/dst".toList (by decide)).1
     "/a/src/b".toList⟩

theorem encodingMap_isSome_iff (s : List Char) :
    (encodingMap s).isSome = true ↔
      (s = "GBK".toList ∨ s = "GB18030".toList ∨ s = "UTF8".toList) := by
  unfold encodingMap
  by_cases h1 : s = "GBK".toList
  · simp [h1]
  · by_cases h2 : s = "GB18030".toList
    · rw [if_neg h1, if_pos h2]; simp [h2]
    · by_cases h3 : s = "UTF8".toList
      · rw [if_neg h1, if_neg h2, if_pos h3]; simp [h3]
      · rw [if_neg h1, if_neg h2, if_neg h3]
        constructor
        · intro h; exact absurd h (by simp)
        · rintro (h | h | h)
          · exact absurd h h1
          · exact absurd h h2
          · exact absurd h h3

theorem transFile_unknown (T : Tables) (cfg : Config) (fs : FS)
    (h : encodingMap cfg.sourceEncoding = none) : (transFile T cfg fs).2 ≠ none := by
  unfold transFile
  cases hr : ReadFile fs cfg.sourceFile <;> simp [h]

theorem transDir_unknown (env : Env) (cfg : Config) (fuel : Nat) (fs : FS)
    (h : encodingMap cfg.sourceEncoding = none) : ∃ e, (transDir env cfg fuel fs).2 = Ret.err e := by
  unfold transDir
  simp only []
  cases hs : Stat (verboseOutput cfg ("src: ".toList ++ cfg.srcDir ++ " dst: ".toList ++ cfg.dstDir
    ++ " [".toList ++ cfg.sourceEncoding ++ "]".toList)
      (verboseOutput cfg "transform directory mode".toList (State.init fs))).fs cfg.srcDir with
  | error e => exact ⟨e, rfl⟩
  | ok fi =>
    simp only []
    split
    · exact ⟨_, rfl⟩
    · simp only [h]
      exact ⟨_, rfl⟩

/-- C4: the lookup in `encodingMap` is a case-sensitive exact match on a closed
set: a name is found exactly when it is "GBK", "GB18030" or "UTF8", each of them
is mapped to its own decoder, the names "gbk", "utf8", "UTF-8" and the empty
name are unknown, and an unknown name makes both `transFile` and `transDir`
return an error, whatever the filesystem. -/
theorem C4_registry_closed_and_case_sensitive (s : List Char) :
    ((encodingMap s).isSome = true ↔
      (s = "GBK".toList ∨ s = "GB18030".toList ∨ s = "UTF8".toList)) ∧
    encodingMap "GBK".toList = some Encoding.GBK ∧
    encodingMap "GB18030".toList = some Encoding.GB18030 ∧
    encodingMap "UTF8".toList = some Encoding.UTF8 ∧
    encodingMap "gbk".toList = none ∧ encodingMap "utf8".toList = none ∧
    encodingMap "UTF-8".toList = none ∧ encodingMap [] = none ∧
    (encodingMap s = none → ∀ (T : Tables) (env : Env) (cfg : Config) (fuel : Nat) (fs : FS),
      cfg.sourceEncoding = s →
        (transFile T cfg fs).2 ≠ none ∧ ∃ e, (transDir env cfg fuel fs).2 = Ret.err e) := by
  refine ⟨encodingMap_isSome_iff s, by decide, by decide, by decide, by decide, by decide,
    by decide, by decide, ?_⟩
  intro h T env cfg fuel fs hs
  subst hs
  exact ⟨transFile_unknown T cfg fs h, transDir_unknown env cfg fuel fs h⟩

/-- C9: with verbose off, `transFile` returns nil and writes to standard output
exactly the transformed bytes followed by one newline when the read succeeds,
the name is registered and the transform succeeds; in every other case it
returns an error and writes nothing. -/
theorem C9_transFile_no_partial_success (T : Tables) (cfg : Config) (fs : FS)
    (hv : cfg.verbose = false) :
    (∀ bs enc data, ReadFile fs cfg.sourceFile = Except.ok bs →
      encodingMap cfg.sourceEncoding = some enc → transformToUtf8 T bs enc = Except.ok data →
      transFile T cfg fs = (data ++ [0x0A], none)) ∧
    ((¬ ∃ bs enc data, ReadFile fs cfg.sourceFile = Except.ok bs ∧
      encodingMap cfg.sourceEncoding = some enc ∧ transformToUtf8 T bs enc = Except.ok data) →
      (transFile T cfg fs).1 = [] ∧ (transFile T cfg fs).2 ≠ none) := by
  constructor
  · intro bs enc data h1 h2 h3
    simp [transFile, hv, h1, h2, h3]
  · intro hno
    unfold transFile
    cases h1 : ReadFile fs cfg.sourceFile with
    | error e => simp [hv]
    | ok bs =>
      cases h2 : encodingMap cfg.sourceEncoding with
      | none => simp [hv]
      | some enc =>
        cases h3 : transformToUtf8 T bs enc with
        | error e => simp [hv, h3]
        | ok data => exact absurd ⟨bs, enc, data, h1, h2, h3⟩ hno

/-! ## The transform primitive -/

theorem gbkTwoByte_eq (T : Tables) (c0 c1 : Nat) :
    gbkTwoByte T c0 c1 = ((gbkTwoByte T c0 c1).1, 2) := by
  unfold gbkTwoByte; simp only []; split_ifs <;> rfl

theorem gbkFourByte_atEOF (T : Tables) (c0 c1 : Nat) (rest1 : List Nat) :
    ∃ r size, gbkFourByte T true c0 c1 rest1 = some (r, size) ∧ 1 ≤ size ∧
      size ≤ rest1.length + 2 := by
  unfold gbkFourByte
  split
  · simp only []
    split_ifs <;> exact ⟨_, _, rfl, by simp, by simp⟩
  · exact ⟨_, _, rfl, by simp, by simp⟩

theorem gbkStep_atEOF (T : Tables) (g : Bool) (c0 : Nat) (rest : List Nat) :
    ∃ r size, gbkStep T g true c0 rest = some (r, size) ∧ 1 ≤ size ∧ size ≤ rest.length + 1 := by
  unfold gbkStep
  simp only [↓reduceIte]
  split_ifs
  · exact ⟨_, _, rfl, by simp, by simp⟩
  · exact ⟨_, _, rfl, by simp, by simp⟩
  · cases rest with
    | nil => exact ⟨_, _, rfl, by simp, by simp⟩
    | cons c1 rest1 =>
      simp only []
      split_ifs
      · rw [gbkTwoByte_eq]; exact ⟨_, _, rfl, by simp, by simp⟩
      · rw [gbkTwoByte_eq]; exact ⟨_, _, rfl, by simp, by simp⟩
      · obtain ⟨r, size, h, h1, h2⟩ := gbkFourByte_atEOF T c0 c1 rest1
        exact ⟨r, size, h, h1, by simp; omega⟩
      · exact ⟨_, _, rfl, by simp, by simp⟩
  · exact ⟨_, _, rfl, by simp, by simp⟩

theorem utf8First_size (c sz lo hi : Nat) (h : utf8First c = some (sz, lo, hi)) :
    sz = 2 ∨ sz = 3 ∨ sz = 4 := by
  unfold utf8First at h
  split_ifs at h <;> simp at h <;> omega

theorem utf8Step_atEOF (c0 : Nat) (rest : List Nat) :
    ∃ out size, utf8Step true c0 rest = some (out, size) ∧ 1 ≤ size ∧ size ≤ rest.length + 1 := by
  unfold utf8Step
  simp only [↓reduceIte]
  by_cases h0 : c0 < 0x80
  · rw [if_pos h0]; exact ⟨_, _, rfl, by simp, by simp⟩
  · rw [if_neg h0]
    cases hf : utf8First c0 with
    | none => exact ⟨_, _, rfl, by simp, by simp⟩
    | some p =>
      obtain ⟨sz, lo, hi⟩ := p
      have hsz := utf8First_size c0 sz lo hi hf
      simp only [utf8Invalid]
      by_cases h1 : rest.length + 1 < sz
      · rw [if_pos h1]
        cases rest with
        | nil => exact ⟨_, _, rfl, by simp, by simp⟩
        | cons c1 rest1 =>
          simp only []
          split_ifs
          · exact ⟨_, _, rfl, by simp, by simp⟩
          · cases rest1 with
            | nil => exact ⟨_, _, rfl, by simp, by simp⟩
            | cons c2 rest2 =>
              simp only []
              split_ifs <;> exact ⟨_, _, rfl, by simp, by simp⟩
      · rw [if_neg h1]
        split_ifs <;> exact ⟨_, _, rfl, by simp, by omega⟩

theorem decodeStep_atEOF (T : Tables) (enc : Encoding) (c0 : Nat) (rest : List Nat) :
    ∃ out size, decodeStep T enc true c0 rest = some (out, size) ∧ 1 ≤ size ∧
      size ≤ rest.length + 1 := by
  cases enc with
  | GBK =>
    obtain ⟨r, size, h, h1, h2⟩ := gbkStep_atEOF T false c0 rest
    exact ⟨EncodeRune r, size, by simp [decodeStep, h], h1, h2⟩
  | GB18030 =>
    obtain ⟨r, size, h, h1, h2⟩ := gbkStep_atEOF T true c0 rest
    exact ⟨EncodeRune r, size, by simp [decodeStep, h], h1, h2⟩
  | UTF8 => exact utf8Step_atEOF c0 rest

theorem decodeLoop_total (step : Nat → List Nat → Option (List Nat × Nat))
    (hstep : ∀ c0 rest, ∃ out size, step c0 rest = some (out, size) ∧ 1 ≤ size ∧
      size ≤ rest.length + 1) :
    ∀ fuel src, src.length ≤ fuel → (decodeLoop step fuel src).2 = (src.length, none) := by
  intro fuel
  induction fuel with
  | zero =>
    intro src h
    have : src = [] := List.length_eq_zero.mp (Nat.le_zero.mp h)
    subst this; rfl
  | succ fuel ih =>
    intro src h
    cases src with
    | nil => rfl
    | cons c0 rest =>
      obtain ⟨out, size, hs, h1, h2⟩ := hstep c0 rest
      simp only [decodeLoop, hs]
      have hlen : ((c0 :: rest).drop size).length ≤ fuel := by
        simp only [List.length_drop, List.length_cons] at *; omega
      rw [ih _ hlen]
      simp only [List.length_drop, List.length_cons, Prod.mk.injEq, and_true]
      omega

theorem transformToUtf8_eq (T : Tables) (data : List Nat) (enc : Encoding) :
    transformToUtf8 T data enc = Except.ok (Transform T enc data true).1 := by
  have h := decodeLoop_total (decodeStep T enc true) (decodeStep_atEOF T enc) data.length data
    (le_refl _)
  unfold transformToUtf8 readAllTransformed Transform
  generalize decodeLoop (decodeStep T enc true) data.length data = r at h ⊢
  obtain ⟨o, n, e⟩ := r
  simp only [Prod.mk.injEq] at h
  obtain ⟨hn, he⟩ := h
  subst hn; subst he
  simp

/-- C2, counterexample: the lone byte 0xFF and the truncated sequence 0x81 are
not valid GBK, yet `transformToUtf8` returns no error on them, and the output
holds U+FFFD in their place. -/
theorem C2_counterexample_invalid_bytes_are_substituted :
    refDecode exTables Encoding.GBK [0xFF] = none ∧
    transformToUtf8 exTables [0xFF] Encoding.GBK = Except.ok [0xEF, 0xBF, 0xBD] ∧
    refDecode exTables Encoding.GBK [0x41, 0x81] = none ∧
    transformToUtf8 exTables [0x41, 0x81] Encoding.GBK = Except.ok [0x41, 0xEF, 0xBF, 0xBD] := by
  refine ⟨by rfl, by rfl, by rfl, by rfl⟩

/-! ## Runs of the program on example inputs -/

/-- C1, the code at a failing input: with the unknown name "gbk", `transDir`
returns the error, but only after it has removed the destination `/dst` with
its file `old.txt` and made it anew as an empty directory. -/
theorem C1_unknown_encoding_after_destination_reset :
    encodingMap "gbk".toList = none ∧
    Stat exFS "/src".toList = Except.ok ⟨true, 0o755⟩ ∧
    exFS.get ["dst".toList, "old.txt".toList] = some (Node.file 0o644 [0x42]) ∧
    (transDir exEnvLazy (exConfig "gbk".toList) 8 exFS).2 =
      Ret.err (GoError.errorf "invalid encoding: %!s(<nil>)".toList) ∧
    (transDir exEnvLazy (exConfig "gbk".toList) 8 exFS).1.fs.get
      ["dst".toList, "old.txt".toList] = none ∧
    (transDir exEnvLazy (exConfig "gbk".toList) 8 exFS).1.fs.get ["dst".toList] =
      some (Node.dir 0o755 Entries.nil) := by
  refine ⟨by decide, by rfl, by decide, by decide, by decide, by decide⟩

/-- C8, the code at a failing input: the walk reports to the function that the
directory `/src/sub` cannot be listed; the function drops the error, `transDir`
returns nil and the entry `z.txt` after the failing one is visited and
mirrored. When an entry cannot be stat'ed, the function is called with a nil
file info, reads it and panics. -/
theorem C8_traversal_error_is_dropped :
    readDirNames exUnlistableFS "/src/sub".toList = Except.error GoError.EACCES ∧
    (transDir exEnvLazy (exConfig "GBK".toList) 8 exUnlistableFS).2 = Ret.nil ∧
    (transDir exEnvLazy (exConfig "GBK".toList) 8 exUnlistableFS).1.fs.get
      ["dst".toList, "z.txt".toList] = some (Node.file 0o644 [0x41]) ∧
    Stat exUnsearchableFS "/src/sub/f".toList = Except.error GoError.EACCES ∧
    (transDir exEnvLazy (exConfig "GBK".toList) 8 exUnsearchableFS).2 = Ret.panic := by
  refine ⟨by rfl, by decide, by decide, by rfl, by decide⟩

/-- C6, the code at a failing input: the destination `/dst` is not inside the
source `/src`, `transDir` returns nil, the source has the directory
`/src/sub/deep`, and there is nothing at the mirrored path `/dst/sub/deep`. -/
theorem C6_directory_below_unlistable_not_mirrored :
    (transDir exEnvLazy (exConfig "GBK".toList) 8 exUnlistableFS).2 = Ret.nil ∧
    exUnlistableFS.get ["src".toList, "sub".toList, "deep".toList] =
      some (Node.dir 0o755 Entries.nil) ∧
    (transDir exEnvLazy (exConfig "GBK".toList) 8 exUnlistableFS).1.fs.get
      ["dst".toList, "sub".toList, "deep".toList] = none ∧
    (transDir exEnvLazy (exConfig "GBK".toList) 8 exUnlistableFS).1.pending = [] := by
  refine ⟨by decide, by decide, by decide, by decide⟩

/-- C7, counterexample: in the default layout the destination `/w/output` lies
inside the source `/w`. Setup and traversal succeed and `transDir` returns nil;
the only file task that fails is the one of `secret.txt`; but the readable source
file `/w/output/old.txt` is missing at its mirrored path as well. -/
theorem C7_counterexample_destination_inside_source :
    ReadFile exRerunFS "/w/output/old.txt".toList = Except.ok [0x43] ∧
    ReadFile exRerunFS "/w/a.txt".toList = Except.ok [0x41] ∧
    ReadFile exRerunFS "/w/secret.txt".toList = Except.error GoError.EACCES ∧
    (transDir exEnvLazy exDefaultConfig 8 exRerunFS).2 = Ret.nil ∧
    (transDir exEnvLazy exDefaultConfig 8 exRerunFS).1.out = [Printed.error GoError.EACCES] ∧
    (transDir exEnvLazy exDefaultConfig 8 exRerunFS).1.fs.get
      ["w".toList, "output".toList, "a.txt".toList] = some (Node.file 0o644 [0x41]) ∧
    (transDir exEnvLazy exDefaultConfig 8 exRerunFS).1.fs.get
      ["w".toList, "output".toList, "output".toList, "old.txt".toList] = none := by
  refine ⟨by rfl, by rfl, by rfl, by decide, by decide, by decide, by decide⟩

/-- C10, counterexample: in the default layout the destination lies inside the
source. A first run in which the goroutine of `a.txt` finishes late leaves no
`output/a.txt` in the destination; a second run with the same arguments in
which that goroutine finishes at once leaves one. -/
theorem C10_counterexample_destination_inside_source :
    (transDir exEnvLazy exDefaultConfig 8 exDefaultFS).2 = Ret.nil ∧
    (transDir exEnvLazy exDefaultConfig 8 exDefaultFS).1.fs.get
      ["w".toList, "output".toList, "output".toList, "a.txt".toList] = none ∧
    (transDir exEnvEager exDefaultConfig 8
      (transDir exEnvLazy exDefaultConfig 8 exDefaultFS).1.fs).2 = Ret.nil ∧
    (transDir exEnvEager exDefaultConfig 8
      (transDir exEnvLazy exDefaultConfig 8 exDefaultFS).1.fs).1.fs.get
      ["w".toList, "output".toList, "output".toList, "a.txt".toList] =
      some (Node.file 0o644 [0x41]) := by
  refine ⟨by decide, by decide, by decide, by decide⟩

theorem C9_transFile_witness :
    (exFileConfig "GBK".toList).verbose = false ∧
    transFile exTables (exFileConfig "GBK".toList) exFS = ([0x41, 0x0A], none) :=
  ⟨rfl, (C9_transFile_no_partial_success exTables (exFileConfig "GBK".toList) exFS rfl).1
    [0x41] Encoding.GBK [0x41] (by rfl) (by decide) (by rfl)⟩

/-! ## The UTF-8 encoder against the reference UTF-8 decoder -/

theorem or_0x80 (x : Nat) (h : x < 64) : 0x80 ||| x = 0x80 + x := by
  have := Nat.mul_add_lt_is_or (show x < 2 ^ 6 from h) 2
  simpa using this.symm

theorem or_0xC0 (x : Nat) (h : x < 64) : 0xC0 ||| x = 0xC0 + x := by
  have := Nat.mul_add_lt_is_or (show x < 2 ^ 6 from h) 3
  simpa using this.symm

theorem or_0xE0 (x : Nat) (h : x < 32) : 0xE0 ||| x = 0xE0 + x := by
  have := Nat.mul_add_lt_is_or (show x < 2 ^ 5 from h) 7
  simpa using this.symm

theorem or_0xF0 (x : Nat) (h : x < 16) : 0xF0 ||| x = 0xF0 + x := by
  have := Nat.mul_add_lt_is_or (show x < 2 ^ 4 from h) 15
  simpa using this.symm

theorem and_0x3F (x : Nat) : x &&& 0x3F = x % 64 := by
  have := Nat.and_pow_two_sub_one_eq_mod x 6
  simpa using this

theorem EncodeRune_eq (r : Nat) :
    EncodeRune r =
      if r ≤ 0x7F then [r]
      else if r ≤ 0x7FF then [0xC0 + r / 64, 0x80 + r % 64]
      else if 0x10FFFF < r ∨ (0xD800 ≤ r ∧ r ≤ 0xDFFF) then [0xEF, 0xBF, 0xBD]
      else if r ≤ 0xFFFF then [0xE0 + r / 4096, 0x80 + r / 64 % 64, 0x80 + r % 64]
      else [0xF0 + r / 262144, 0x80 + r / 4096 % 64, 0x80 + r / 64 % 64, 0x80 + r % 64] := by
  unfold EncodeRune
  simp only [Nat.shiftRight_eq_div_pow, and_0x3F]
  have hm : ∀ x : Nat, x % 64 < 64 := fun x => Nat.mod_lt _ (by norm_num)
  by_cases h1 : r ≤ 0x7F
  · rw [if_pos h1, if_pos h1]
  rw [if_neg h1, if_neg h1]
  by_cases h2 : r ≤ 0x7FF
  · rw [if_pos h2, if_pos h2, or_0xC0 _ (by omega), or_0x80 _ (hm _)]
  rw [if_neg h2, if_neg h2]
  by_cases h3 : 0x10FFFF < r ∨ (0xD800 ≤ r ∧ r ≤ 0xDFFF)
  · rw [if_pos h3, if_pos h3]
  rw [if_neg h3, if_neg h3]
  by_cases h4 : r ≤ 0xFFFF
  · rw [if_pos h4, if_pos h4, or_0xE0 _ (by omega), or_0x80 _ (hm _), or_0x80 _ (hm _)]
  rw [if_neg h4, if_neg h4, or_0xF0 _ (by omega), or_0x80 _ (hm _), or_0x80 _ (hm _),
    or_0x80 _ (hm _)]

theorem refDecodeUTF8_cons (b0 : Nat) (rest : List Nat) :
    refDecodeUTF8 (b0 :: rest) =
    if b0 < 0x80 then (refDecodeUTF8 rest).map (fun t => b0 :: t)
    else if 0xC0 ≤ b0 ∧ b0 ≤ 0xDF then
      match rest with
      | b1 :: r =>
        let cp := (b0 - 0xC0) * 64 + (b1 - 0x80)
        if isCont b1 = true ∧ 0x80 ≤ cp then (refDecodeUTF8 r).map (fun t => cp :: t) else none
      | _ => none
    else if 0xE0 ≤ b0 ∧ b0 ≤ 0xEF then
      match rest with
      | b1 :: b2 :: r =>
        let cp := (b0 - 0xE0) * 4096 + (b1 - 0x80) * 64 + (b2 - 0x80)
        if isCont b1 = true ∧ isCont b2 = true ∧ 0x800 ≤ cp ∧ isScalar cp = true then
          (refDecodeUTF8 r).map (fun t => cp :: t)
        else none
      | _ => none
    else if 0xF0 ≤ b0 ∧ b0 ≤ 0xF7 then
      match rest with
      | b1 :: b2 :: b3 :: r =>
        let cp := (b0 - 0xF0) * 262144 + (b1 - 0x80) * 4096 + (b2 - 0x80) * 64 + (b3 - 0x80)
        if isCont b1 = true ∧ isCont b2 = true ∧ isCont b3 = true ∧ 0x10000 ≤ cp ∧
            cp ≤ 0x10FFFF then
          (refDecodeUTF8 r).map (fun t => cp :: t)
        else none
      | _ => none
    else none := by
  cases rest with
  | nil => rfl
  | cons b1 r =>
    cases r with
    | nil => rfl
    | cons b2 r =>
      cases r with
      | nil => rfl
      | cons b3 r => rfl

theorem refDecodeUTF8_EncodeRune (cp : Nat) (h : isScalar cp = true) (rest : List Nat) :
    refDecodeUTF8 (EncodeRune cp ++ rest) = (refDecodeUTF8 rest).map (fun t => cp :: t) := by
  rw [EncodeRune_eq]
  simp only [isScalar, decide_eq_true_eq] at h
  by_cases h1 : cp ≤ 0x7F
  · rw [if_pos h1]
    simp only [List.cons_append, List.nil_append]
    rw [refDecodeUTF8_cons, if_pos (by omega)]
  rw [if_neg h1]
  by_cases h2 : cp ≤ 0x7FF
  · rw [if_pos h2]
    simp only [List.cons_append, List.nil_append]
    rw [refDecodeUTF8_cons, if_neg (by omega), if_pos (by omega)]
    have e : (0xC0 + cp / 64 - 0xC0) * 64 + (0x80 + cp % 64 - 0x80) = cp := by omega
    simp only [e, isCont, decide_eq_true_eq]
    rw [if_pos (by omega)]
  rw [if_neg h2]
  have h3 : ¬ (0x10FFFF < cp ∨ (0xD800 ≤ cp ∧ cp ≤ 0xDFFF)) := by omega
  rw [if_neg h3]
  by_cases h4 : cp ≤ 0xFFFF
  · rw [if_pos h4]
    simp only [List.cons_append, List.nil_append]
    rw [refDecodeUTF8_cons, if_neg (by omega), if_neg (by omega), if_pos (by omega)]
    have e : (0xE0 + cp / 4096 - 0xE0) * 4096 + (0x80 + cp / 64 % 64 - 0x80) * 64 +
        (0x80 + cp % 64 - 0x80) = cp := by omega
    simp only [e, isCont, isScalar, decide_eq_true_eq]
    rw [if_pos (by omega)]
  rw [if_neg h4]
  simp only [List.cons_append, List.nil_append]
  rw [refDecodeUTF8_cons, if_neg (by omega), if_neg (by omega), if_neg (by omega), if_pos (by omega)]
  have e : (0xF0 + cp / 262144 - 0xF0) * 262144 + (0x80 + cp / 4096 % 64 - 0x80) * 4096 +
      (0x80 + cp / 64 % 64 - 0x80) * 64 + (0x80 + cp % 64 - 0x80) = cp := by omega
  simp only [e, isCont, decide_eq_true_eq]
  rw [if_pos (by omega)]

/-! ## The decoders on valid input -/

theorem decodeLoop_ref (step : Nat → List Nat → Option (List Nat × Nat))
    (ref : List Nat → Option (List Nat)) (I : List Nat → List Nat → List Nat → Prop)
    (h0 : ∀ t, ref [] = some t → I [] [] t)
    (hstep : ∀ c0 rest text, ref (c0 :: rest) = some text →
      ∃ out size text1, step c0 rest = some (out, size) ∧ 1 ≤ size ∧ size ≤ rest.length + 1 ∧
        ref ((c0 :: rest).drop size) = some text1 ∧
        ∀ out1, I ((c0 :: rest).drop size) out1 text1 → I (c0 :: rest) (out ++ out1) text) :
    ∀ fuel data text, data.length ≤ fuel → ref data = some text →
      I data (decodeLoop step fuel data).1 text := by
  intro fuel
  induction fuel with
  | zero =>
    intro data text h hr
    have : data = [] := List.length_eq_zero.mp (Nat.le_zero.mp h)
    subst this
    exact h0 text hr
  | succ fuel ih =>
    intro data text h hr
    cases data with
    | nil => exact h0 text hr
    | cons c0 rest =>
      obtain ⟨out, size, text1, hs, h1, h2, hr1, hI⟩ := hstep c0 rest text hr
      have hlen : ((c0 :: rest).drop size).length ≤ fuel := by
        simp only [List.length_drop, List.length_cons] at *; omega
      have := hI _ (ih _ text1 hlen hr1)
      simpa only [decodeLoop, hs] using this

theorem utf8Step_two (b0 b1 : Nat) (r : List Nat) (h0 : 0xC2 ≤ b0) (h1 : b0 ≤ 0xDF)
    (hc : 0x80 ≤ b1 ∧ b1 ≤ 0xBF) : utf8Step true b0 (b1 :: r) = some ([b0, b1], 2) := by
  have hf : utf8First b0 = some (2, 0x80, 0xBF) := by
    unfold utf8First; rw [if_neg (by omega), if_pos (by omega)]
  unfold utf8Step
  rw [if_neg (by omega), hf]
  simp only [List.length_cons, List.getD_cons_zero, List.take_succ_cons, List.take_zero]
  rw [if_neg (by omega), if_neg (by omega), if_pos trivial]

theorem utf8First_three (b0 b1 : Nat) (h0 : 0xE0 ≤ b0) (h1 : b0 ≤ 0xEF)
    (hlo : b0 = 0xE0 → 0xA0 ≤ b1) (hhi : b0 = 0xED → b1 ≤ 0x9F)
    (hc : 0x80 ≤ b1 ∧ b1 ≤ 0xBF) :
    ∃ lo hi, utf8First b0 = some (3, lo, hi) ∧ lo ≤ b1 ∧ b1 ≤ hi := by
  unfold utf8First
  split_ifs <;> first | omega | exact ⟨_, _, rfl, by omega, by omega⟩

theorem utf8First_four (b0 b1 : Nat) (h0 : 0xF0 ≤ b0) (h1 : b0 ≤ 0xF4)
    (hlo : b0 = 0xF0 → 0x90 ≤ b1) (hhi : b0 = 0xF4 → b1 ≤ 0x8F)
    (hc : 0x80 ≤ b1 ∧ b1 ≤ 0xBF) :
    ∃ lo hi, utf8First b0 = some (4, lo, hi) ∧ lo ≤ b1 ∧ b1 ≤ hi := by
  unfold utf8First
  split_ifs <;> first | omega | exact ⟨_, _, rfl, by omega, by omega⟩

theorem utf8Step_three (b0 b1 b2 : Nat) (r : List Nat) (h0 : 0xE0 ≤ b0) (h1 : b0 ≤ 0xEF)
    (hlo : b0 = 0xE0 → 0xA0 ≤ b1) (hhi : b0 = 0xED → b1 ≤ 0x9F)
    (hc : 0x80 ≤ b1 ∧ b1 ≤ 0xBF) (hc2 : 0x80 ≤ b2 ∧ b2 ≤ 0xBF) :
    utf8Step true b0 (b1 :: b2 :: r) = some ([b0, b1, b2], 3) := by
  obtain ⟨lo, hi, hf, hl, hh⟩ := utf8First_three b0 b1 h0 h1 hlo hhi hc
  unfold utf8Step
  rw [if_neg (by omega), hf]
  simp only [List.length_cons, List.getD_cons_zero, List.getD_cons_succ, List.take_succ_cons,
    List.take_zero]
  rw [if_neg (by omega), if_neg (by omega), if_neg (by omega), if_neg (by omega),
    if_pos trivial]

theorem utf8Step_four (b0 b1 b2 b3 : Nat) (r : List Nat) (h0 : 0xF0 ≤ b0) (h1 : b0 ≤ 0xF4)
    (hlo : b0 = 0xF0 → 0x90 ≤ b1) (hhi : b0 = 0xF4 → b1 ≤ 0x8F)
    (hc : 0x80 ≤ b1 ∧ b1 ≤ 0xBF) (hc2 : 0x80 ≤ b2 ∧ b2 ≤ 0xBF) (hc3 : 0x80 ≤ b3 ∧ b3 ≤ 0xBF) :
    utf8Step true b0 (b1 :: b2 :: b3 :: r) = some ([b0, b1, b2, b3], 4) := by
  obtain ⟨lo, hi, hf, hl, hh⟩ := utf8First_four b0 b1 h0 h1 hlo hhi hc
  unfold utf8Step
  rw [if_neg (by omega), hf]
  simp only [List.length_cons, List.getD_cons_zero, List.getD_cons_succ, List.take_succ_cons,
    List.take_zero]
  rw [if_neg (by omega), if_neg (by omega), if_neg (by omega), if_neg (by omega),
    if_neg (by omega), if_neg (by omega)]

theorem isCont_iff (b : Nat) : isCont b = true ↔ 0x80 ≤ b ∧ b ≤ 0xBF := by
  simp [isCont]

theorem isScalar_iff (cp : Nat) :
    isScalar cp = true ↔ cp < 0xD800 ∨ (0xDFFF < cp ∧ cp ≤ 0x10FFFF) := by
  simp [isScalar]

theorem utf8Step_valid (b0 : Nat) (rest text : List Nat)
    (h : refDecodeUTF8 (b0 :: rest) = some text) :
    ∃ size text1, utf8Step true b0 rest = some ((b0 :: rest).take size, size) ∧ 1 ≤ size ∧
      size ≤ rest.length + 1 ∧ refDecodeUTF8 ((b0 :: rest).drop size) = some text1 := by
  rw [refDecodeUTF8_cons] at h
  by_cases h1 : b0 < 0x80
  · rw [if_pos h1] at h
    obtain ⟨t, ht, _⟩ := Option.map_eq_some'.mp h
    refine ⟨1, t, ?_, le_refl _, by simp, ht⟩
    unfold utf8Step
    rw [if_pos h1]; rfl
  rw [if_neg h1] at h
  by_cases h2 : 0xC0 ≤ b0 ∧ b0 ≤ 0xDF
  · rw [if_pos h2] at h
    cases rest with
    | nil => cases h
    | cons b1 r =>
      simp only [] at h
      by_cases hc : isCont b1 = true ∧ 0x80 ≤ (b0 - 0xC0) * 64 + (b1 - 0x80)
      · rw [if_pos hc] at h
        obtain ⟨t, ht, _⟩ := Option.map_eq_some'.mp h
        have hb := (isCont_iff b1).mp hc.1
        exact ⟨2, t, utf8Step_two b0 b1 r (by omega) h2.2 hb, by simp, by simp, ht⟩
      · rw [if_neg hc] at h; cases h
  rw [if_neg h2] at h
  by_cases h3 : 0xE0 ≤ b0 ∧ b0 ≤ 0xEF
  · rw [if_pos h3] at h
    cases rest with
    | nil => cases h
    | cons b1 r =>
      cases r with
      | nil => cases h
      | cons b2 r =>
        simp only [] at h
        split_ifs at h with hc
        obtain ⟨t, ht, _⟩ := Option.map_eq_some'.mp h
        have hb1 := (isCont_iff b1).mp hc.1
        have hb2 := (isCont_iff b2).mp hc.2.1
        have hs := (isScalar_iff _).mp hc.2.2.2
        have hm := hc.2.2.1
        exact ⟨3, t, utf8Step_three b0 b1 b2 r h3.1 h3.2 (by omega) (by omega) hb1 hb2,
          by simp, by simp, ht⟩
  rw [if_neg h3] at h
  by_cases h4 : 0xF0 ≤ b0 ∧ b0 ≤ 0xF7
  · rw [if_pos h4] at h
    cases rest with
    | nil => cases h
    | cons b1 r =>
      cases r with
      | nil => cases h
      | cons b2 r =>
        cases r with
        | nil => cases h
        | cons b3 r =>
          simp only [] at h
          split_ifs at h with hc
          obtain ⟨t, ht, _⟩ := Option.map_eq_some'.mp h
          have hb1 := (isCont_iff b1).mp hc.1
          have hb2 := (isCont_iff b2).mp hc.2.1
          have hb3 := (isCont_iff b3).mp hc.2.2.1
          have hm := hc.2.2.2.1
          have hM := hc.2.2.2.2
          exact ⟨4, t, utf8Step_four b0 b1 b2 b3 r h4.1 (by omega) (by omega) (by omega)
            hb1 hb2 hb3, by simp, by simp, ht⟩
  rw [if_neg h4] at h
  cases h

/-- The UTF-8 decoder copies a well-formed input. -/
theorem utf8_identity (data text : List Nat) (h : refDecodeUTF8 data = some text) :
    (decodeLoop (utf8Step true) data.length data).1 = data := by
  refine decodeLoop_ref (utf8Step true) refDecodeUTF8 (fun d o _ => o = d) (fun _ _ => rfl) ?_
    data.length data text (le_refl _) h
  intro c0 rest t ht
  obtain ⟨size, t1, hs, h1, h2, hr⟩ := utf8Step_valid c0 rest t ht
  refine ⟨_, size, t1, hs, h1, h2, hr, ?_⟩
  intro out1 ho
  rw [ho, List.take_append_drop]

/-! ## The binary search over the ranges table -/

theorem ranges_mono : ∀ (tab : List (Nat × Nat)), List.Pairwise (fun a b => a.1 < b.1) tab →
    ∀ a b, a < b → b < tab.length → (tab.getD a (0, 0)).1 < (tab.getD b (0, 0)).1 := by
  intro tab
  induction tab with
  | nil => intro _ a b _ hb; simp at hb
  | cons x xs ih =>
    intro hp a b hab hb
    rw [List.pairwise_cons] at hp
    cases b with
    | zero => omega
    | succ b =>
      have hb1 : b < xs.length := by simpa using hb
      cases a with
      | zero =>
        simp only [List.getD_cons_zero, List.getD_cons_succ]
        apply hp.1
        rw [List.getD_eq_getElem xs (0, 0) hb1]
        exact List.getElem_mem hb1
      | succ a =>
        simp only [List.getD_cons_succ]
        exact ih hp.2 a b (by omega) hb1

theorem searchLoop_spec (tab : List (Nat × Nat)) (r : Nat)
    (hs : List.Pairwise (fun a b => a.1 < b.1) tab) :
    ∀ fuel i j, i ≤ j → j ≤ tab.length → j - i < fuel →
      (∀ k, k < i → (tab.getD k (0, 0)).1 ≤ r) →
      (∀ k, j ≤ k → k < tab.length → r < (tab.getD k (0, 0)).1) →
      searchLoop tab r fuel i j ≤ tab.length ∧
      (∀ k, k < searchLoop tab r fuel i j → (tab.getD k (0, 0)).1 ≤ r) ∧
      (∀ k, searchLoop tab r fuel i j ≤ k → k < tab.length → r < (tab.getD k (0, 0)).1) := by
  intro fuel
  induction fuel with
  | zero => intro i j _ _ h; omega
  | succ fuel ih =>
    intro i j hij hj hf hlo hhi
    unfold searchLoop
    by_cases hlt : i < j
    · rw [if_pos hlt]
      simp only []
      have hdiv : (j - i) / 2 < j - i := Nat.div_lt_self (by omega) (by norm_num)
      by_cases hc : (tab.getD (i + (j - i) / 2) (0, 0)).1 ≤ r
      · rw [if_pos hc]
        apply ih _ _ (by omega) hj (by omega) _ hhi
        intro k hk
        by_cases hk2 : k = i + (j - i) / 2
        · rw [hk2]; exact hc
        · have := ranges_mono tab hs k (i + (j - i) / 2) (by omega) (by omega)
          omega
      · rw [if_neg hc]
        apply ih _ _ (by omega) (by omega) (by omega) hlo
        intro k hk hkl
        by_cases hk2 : k = i + (j - i) / 2
        · rw [hk2]; omega
        · have := ranges_mono tab hs (i + (j - i) / 2) k (by omega) hkl
          omega
    · rw [if_neg hlt]
      have : i = j := by omega
      subst this
      exact ⟨hj, hlo, hhi⟩

theorem filter_eq_take : ∀ (tab : List (Nat × Nat)) (r m : Nat), m ≤ tab.length →
    (∀ k, k < m → (tab.getD k (0, 0)).1 ≤ r) →
    (∀ k, m ≤ k → k < tab.length → r < (tab.getD k (0, 0)).1) →
    tab.filter (fun e => e.1 ≤ r) = tab.take m := by
  intro tab
  induction tab with
  | nil => intro r m _ _ _; simp
  | cons x xs ih =>
    intro r m hm hlo hhi
    cases m with
    | zero =>
      rw [List.take_zero, List.filter_eq_nil_iff]
      intro e he
      obtain ⟨k, hk, rfl⟩ := List.getElem_of_mem he
      have := hhi k (Nat.zero_le _) hk
      rw [List.getD_eq_getElem _ _ hk] at this
      simp only [decide_eq_true_eq]; omega
    | succ m =>
      have h0 := hlo 0 (by omega)
      simp only [List.getD_cons_zero] at h0
      rw [List.filter_cons_of_pos (by simpa using h0), List.take_succ_cons]
      congr 1
      apply ih r m (by simpa using hm)
      · intro k hk
        have := hlo (k + 1) (by omega)
        simpa using this
      · intro k hk hkl
        have := hhi (k + 1) (by omega) (by simpa using hkl)
        simpa using this

/-- The binary search of the decoder finds the range the reference names. -/
theorem search_eq_ranges (T : Tables) (hT : T.rangesSorted) (r : Nat) :
    rangesCodePoint T.gb18030 r = some (r +
      (T.gb18030.getD (searchLoop T.gb18030 r (T.gb18030.length + 1) 0 T.gb18030.length - 1)
        (0, 0)).2 -
      (T.gb18030.getD (searchLoop T.gb18030 r (T.gb18030.length + 1) 0 T.gb18030.length - 1)
        (0, 0)).1) := by
  obtain ⟨hs, hh⟩ := hT
  obtain ⟨hm, hlo, hhi⟩ := searchLoop_spec T.gb18030 r hs (T.gb18030.length + 1) 0
    T.gb18030.length (Nat.zero_le _) (le_refl _) (by omega) (fun k hk => by omega)
    (fun k hk hkl => by omega)
  generalize searchLoop T.gb18030 r (T.gb18030.length + 1) 0 T.gb18030.length = m at hm hlo hhi
  have hne : 0 < T.gb18030.length := by
    cases hl : T.gb18030 with
    | nil => rw [hl] at hh; simp at hh
    | cons x xs => simp
  have h0 : (T.gb18030.getD 0 (0, 0)).1 = 0 := by
    cases hl : T.gb18030 with
    | nil => rw [hl] at hne; simp at hne
    | cons x xs => rw [hl] at hh; simpa using hh
  have hm1 : 1 ≤ m := by
    by_contra hc
    have := hhi 0 (by omega) hne
    omega
  have hle := hlo (m - 1) (by omega)
  have hg : T.gb18030.getD (m - 1) (0, 0) = T.gb18030[m - 1] :=
    List.getD_eq_getElem _ _ (by omega)
  rw [hg] at hle ⊢
  unfold rangesCodePoint
  rw [filter_eq_take T.gb18030 r m hm hlo hhi, List.getLast?_eq_getElem?, List.length_take,
    Nat.min_eq_left hm, List.getElem?_take_of_lt (by omega),
    List.getElem?_eq_getElem (by omega)]
  simp only [Option.some.injEq]
  omega

theorem refDecodeGBK_cons (T : Tables) (four : Bool) (b0 : Nat) (rest : List Nat) :
    refDecodeGBK T four (b0 :: rest) =
    if b0 < 0x80 then (refDecodeGBK T four rest).map (fun t => b0 :: t)
    else if b0 = 0x80 then (refDecodeGBK T four rest).map (fun t => 0x20AC :: t)
    else if 0x81 ≤ b0 ∧ b0 ≤ 0xFE then
      match rest with
      | [] => none
      | b1 :: r =>
        if (0x40 ≤ b1 ∧ b1 ≤ 0x7E) ∨ (0x80 ≤ b1 ∧ b1 ≤ 0xFE) then
          let pointer := (b0 - 0x81) * 190 + (if b1 < 0x7F then b1 - 0x40 else b1 - 0x41)
          match T.decode.get? pointer with
          | some cp =>
            if cp ≠ 0 ∧ isScalar cp = true then (refDecodeGBK T four r).map (fun t => cp :: t)
            else none
          | none => none
        else if four = true ∧ 0x30 ≤ b1 ∧ b1 ≤ 0x39 then
          match r with
          | b2 :: b3 :: r1 =>
            if 0x81 ≤ b2 ∧ b2 ≤ 0xFE ∧ 0x30 ≤ b3 ∧ b3 ≤ 0x39 then
              let pointer := (((b0 - 0x81) * 10 + (b1 - 0x30)) * 126 + (b2 - 0x81)) * 10 + (b3 - 0x30)
              let cp : Option Nat :=
                if pointer < 39420 then rangesCodePoint T.gb18030 pointer
                else if 189000 ≤ pointer then some (0x10000 + (pointer - 189000))
                else none
              match cp with
              | some c =>
                if isScalar c = true then (refDecodeGBK T four r1).map (fun t => c :: t) else none
              | none => none
            else none
          | _ => none
        else none
    else none := by
  cases rest with
  | nil => rfl
  | cons b1 r =>
    cases r with
    | nil => rfl
    | cons b2 r =>
      cases r with
      | nil => rfl
      | cons b3 r => rfl

theorem gbkTwoByte_valid (T : Tables) (c0 c1 cp : Nat)
    (h : T.decode.get? ((c0 - 0x81) * 190 + c1) = some cp) (hcp : cp ≠ 0) :
    gbkTwoByte T c0 c1 = (cp, 2) := by
  have hlt : (c0 - 0x81) * 190 + c1 < T.decode.length := by
    rw [List.get?_eq_getElem?] at h
    exact (List.getElem?_eq_some_iff.mp h).1
  have hg : T.decode.getD ((c0 - 0x81) * 190 + c1) 0 = cp := by
    rw [List.getD_eq_getElem?_getD, ← List.get?_eq_getElem?, h]; rfl
  unfold gbkTwoByte
  simp only []
  rw [if_pos hlt, hg, if_neg hcp]

theorem gbkStep_valid (T : Tables) (hT : T.rangesSorted) (four : Bool) (b0 : Nat)
    (rest text : List Nat) (h : refDecodeGBK T four (b0 :: rest) = some text) :
    ∃ cp size text1, gbkStep T four true b0 rest = some (cp, size) ∧ 1 ≤ size ∧
      size ≤ rest.length + 1 ∧ isScalar cp = true ∧ text = cp :: text1 ∧
      refDecodeGBK T four ((b0 :: rest).drop size) = some text1 := by
  rw [refDecodeGBK_cons] at h
  by_cases h1 : b0 < 0x80
  · rw [if_pos h1] at h
    obtain ⟨t, ht, he⟩ := Option.map_eq_some'.mp h
    refine ⟨b0, 1, t, ?_, le_refl _, by simp, ?_, he.symm, ht⟩
    · unfold gbkStep; rw [if_pos h1]
    · rw [isScalar_iff]; omega
  rw [if_neg h1] at h
  by_cases h2 : b0 = 0x80
  · rw [if_pos h2] at h
    obtain ⟨t, ht, he⟩ := Option.map_eq_some'.mp h
    refine ⟨0x20AC, 1, t, ?_, le_refl _, by simp, by decide, he.symm, ht⟩
    unfold gbkStep; rw [if_neg h1, if_pos h2]
  rw [if_neg h2] at h
  by_cases h3 : 0x81 ≤ b0 ∧ b0 ≤ 0xFE
  swap
  · rw [if_neg h3] at h; cases h
  rw [if_pos h3] at h
  cases rest with
  | nil => cases h
  | cons b1 r =>
    simp only [] at h
    by_cases h4 : (0x40 ≤ b1 ∧ b1 ≤ 0x7E) ∨ (0x80 ≤ b1 ∧ b1 ≤ 0xFE)
    · rw [if_pos h4] at h
      generalize hg : T.decode.get?
        ((b0 - 0x81) * 190 + (if b1 < 0x7F then b1 - 0x40 else b1 - 0x41)) = o at h
      cases o with
      | none => cases h
      | some cp =>
        simp only [] at h
        by_cases hc : cp ≠ 0 ∧ isScalar cp = true
        swap
        · rw [if_neg hc] at h; cases h
        rw [if_pos hc] at h
        obtain ⟨t, ht, he⟩ := Option.map_eq_some'.mp h
        refine ⟨cp, 2, t, ?_, by simp, by simp, hc.2, he.symm, ht⟩
        unfold gbkStep
        rw [if_neg h1, if_neg h2, if_pos (by omega)]
        simp only []
        by_cases hb : b1 < 0x7F
        · rw [if_pos hb] at hg
          rw [if_pos (by omega), gbkTwoByte_valid T b0 (b1 - 0x40) cp hg hc.1]
        · rw [if_neg hb] at hg
          rw [if_neg (by omega), if_pos (by omega), gbkTwoByte_valid T b0 (b1 - 0x41) cp hg hc.1]
    rw [if_neg h4] at h
    by_cases h5 : four = true ∧ 0x30 ≤ b1 ∧ b1 ≤ 0x39
    swap
    · rw [if_neg h5] at h; cases h
    rw [if_pos h5] at h
    cases r with
    | nil => cases h
    | cons b2 r =>
      cases r with
      | nil => cases h
      | cons b3 r1 =>
        simp only [] at h
        by_cases h6 : 0x81 ≤ b2 ∧ b2 ≤ 0xFE ∧ 0x30 ≤ b3 ∧ b3 ≤ 0x39
        swap
        · rw [if_neg h6] at h; cases h
        rw [if_pos h6] at h
        generalize hp : (((b0 - 0x81) * 10 + (b1 - 0x30)) * 126 + (b2 - 0x81)) * 10 +
          (b3 - 0x30) = p at h
        have hstep : ∀ c, gbkFourByte T true b0 b1 (b2 :: b3 :: r1) = some (c, 4) →
            gbkStep T four true b0 (b1 :: b2 :: b3 :: r1) = some (c, 4) := by
          intro c hc
          unfold gbkStep
          rw [if_neg h1, if_neg h2, if_pos (by omega)]
          simp only []
          rw [if_neg (by omega), if_neg (by omega), if_pos ⟨h5.1, by omega, by omega⟩, hc]
        by_cases h7 : p < 39420
        · rw [if_pos h7, search_eq_ranges T hT p] at h
          simp only [] at h
          split_ifs at h with hsc
          obtain ⟨t, ht, he⟩ := Option.map_eq_some'.mp h
          refine ⟨_, 4, t, hstep _ ?_, by simp, by simp, hsc, he.symm, ht⟩
          unfold gbkFourByte
          simp only []
          rw [if_neg (by omega), if_neg (by omega), hp, if_pos h7]
        · rw [if_neg h7] at h
          by_cases h8 : 189000 ≤ p
          swap
          · rw [if_neg h8] at h; cases h
          rw [if_pos h8] at h
          simp only [] at h
          split_ifs at h with hsc
          obtain ⟨t, ht, he⟩ := Option.map_eq_some'.mp h
          have hs := (isScalar_iff _).mp hsc
          have e : p - 189000 + 0x10000 = 0x10000 + (p - 189000) := by omega
          refine ⟨_, 4, t, hstep _ ?_, by simp, by simp, hsc, he.symm, ht⟩
          unfold gbkFourByte
          simp only []
          rw [if_neg (by omega), if_neg (by omega), hp, if_neg h7, if_pos ⟨h8, by omega⟩, e]

theorem gbk_decodes (T : Tables) (hT : T.rangesSorted) (four : Bool) (data text : List Nat)
    (h : refDecodeGBK T four data = some text) :
    refDecodeUTF8 (decodeLoop
      (fun c0 rest => (gbkStep T four true c0 rest).map (fun p => (EncodeRune p.1, p.2)))
      data.length data).1 = some text := by
  refine decodeLoop_ref _ (refDecodeGBK T four) (fun _ o t => refDecodeUTF8 o = some t) ?_ ?_
    data.length data text (le_refl _) h
  · intro t ht
    have e : refDecodeGBK T four [] = some [] := rfl
    rw [e] at ht
    rw [← Option.some.inj ht]; rfl
  · intro c0 rest t ht
    obtain ⟨cp, size, t1, hs, h1, h2, hsc, he, hr⟩ := gbkStep_valid T hT four c0 rest t ht
    refine ⟨EncodeRune cp, size, t1, by rw [hs]; rfl, h1, h2, hr, ?_⟩
    intro out1 ho
    show refDecodeUTF8 (EncodeRune cp ++ out1) = some t
    rw [refDecodeUTF8_EncodeRune cp hsc, ho, he]; rfl

/-- C3: for every registered encoding and every byte sequence that is valid
under it (the reference decoder of the encoding yields a text for it),
`transformToUtf8` succeeds and its output, decoded as UTF-8 by the reference
UTF-8 decoder, is exactly that text; for the UTF8 entry the output is the input
byte for byte. The tables of the two Chinese encodings are a parameter; the
ranges table is in order of its pointers and starts at pointer 0, as the
library's is. -/
theorem C3_valid_input_decodes_as_reference (T : Tables) (hT : T.rangesSorted)
    (enc : Encoding) (data text : List Nat) (h : refDecode T enc data = some text) :
    ∃ bs, transformToUtf8 T data enc = Except.ok bs ∧ refDecodeUTF8 bs = some text ∧
      (enc = Encoding.UTF8 → bs = data) := by
  refine ⟨(Transform T enc data true).1, transformToUtf8_eq T data enc, ?_, ?_⟩
  · cases enc with
    | GBK => exact gbk_decodes T hT false data text h
    | GB18030 => exact gbk_decodes T hT true data text h
    | UTF8 =>
      have e : (Transform T Encoding.UTF8 data true).1 = data := utf8_identity data text h
      rw [e]; exact h
  · intro he
    subst he
    exact utf8_identity data text h

theorem C3_valid_input_witness :
    exTables.rangesSorted ∧
    refDecode exTables Encoding.GBK [0x41, 0x81, 0x40] = some [0x41, 0x4E02] ∧
    ∃ bs, transformToUtf8 exTables [0x41, 0x81, 0x40] Encoding.GBK = Except.ok bs ∧
      refDecodeUTF8 bs = some [0x41, 0x4E02] ∧ (Encoding.GBK = Encoding.UTF8 → bs = [0x41, 0x81, 0x40]) :=
  ⟨⟨by simp [exTables], rfl⟩, rfl,
    C3_valid_input_decodes_as_reference exTables ⟨by simp [exTables], rfl⟩ Encoding.GBK
      [0x41, 0x81, 0x40] [0x41, 0x4E02] rfl⟩

/-! ## The reference decoders character by character -/

theorem refDecodeUTF8_head (b0 : Nat) (rest : List Nat) :
    refDecodeUTF8 (b0 :: rest) =
      match headUTF8 (b0 :: rest) with
      | none => none
      | some (cp, n) => (refDecodeUTF8 ((b0 :: rest).drop n)).map (fun t => cp :: t) := by
  rw [refDecodeUTF8_cons]
  unfold headUTF8
  by_cases h1 : b0 < 0x80
  · simp only [if_pos h1, List.drop_succ_cons, List.drop_zero]
  simp only [if_neg h1]
  by_cases h2 : 0xC0 ≤ b0 ∧ b0 ≤ 0xDF
  · simp only [if_pos h2]
    cases rest with
    | nil => rfl
    | cons b1 r =>
      simp only []
      split_ifs <;> simp
  simp only [if_neg h2]
  by_cases h3 : 0xE0 ≤ b0 ∧ b0 ≤ 0xEF
  · simp only [if_pos h3]
    cases rest with
    | nil => rfl
    | cons b1 r =>
      cases r with
      | nil => rfl
      | cons b2 r =>
        simp only []
        split_ifs <;> simp
  simp only [if_neg h3]
  by_cases h4 : 0xF0 ≤ b0 ∧ b0 ≤ 0xF7
  · simp only [if_pos h4]
    cases rest with
    | nil => rfl
    | cons b1 r =>
      cases r with
      | nil => rfl
      | cons b2 r =>
        cases r with
        | nil => rfl
        | cons b3 r =>
          simp only []
          split_ifs <;> simp
  simp only [if_neg h4]

theorem headUTF8_take (data : List Nat) (cp n : Nat) (h : headUTF8 data = some (cp, n)) :
    0 < n ∧ n ≤ data.length ∧ ∀ tail, headUTF8 (data.take n ++ tail) = some (cp, n) := by
  cases data with
  | nil => cases h
  | cons b0 rest =>
    unfold headUTF8 at h
    by_cases h1 : b0 < 0x80
    · simp only [if_pos h1, Option.some.injEq, Prod.mk.injEq] at h
      obtain ⟨rfl, rfl⟩ := h
      refine ⟨by norm_num, by simp, fun tail => ?_⟩
      simp [headUTF8, h1]
    simp only [if_neg h1] at h
    by_cases h2 : 0xC0 ≤ b0 ∧ b0 ≤ 0xDF
    · simp only [if_pos h2] at h
      cases rest with
      | nil => cases h
      | cons b1 r =>
        simp only [] at h
        split_ifs at h with hc
        simp only [Option.some.injEq, Prod.mk.injEq] at h
        obtain ⟨rfl, rfl⟩ := h
        refine ⟨by norm_num, by simp, fun tail => ?_⟩
        simp [headUTF8, h1, h2, hc]
    simp only [if_neg h2] at h
    by_cases h3 : 0xE0 ≤ b0 ∧ b0 ≤ 0xEF
    · simp only [if_pos h3] at h
      cases rest with
      | nil => cases h
      | cons b1 r =>
        cases r with
        | nil => cases h
        | cons b2 r =>
          simp only [] at h
          split_ifs at h with hc
          simp only [Option.some.injEq, Prod.mk.injEq] at h
          obtain ⟨rfl, rfl⟩ := h
          refine ⟨by norm_num, by simp, fun tail => ?_⟩
          simp [headUTF8, h1, h2, h3, hc]
    simp only [if_neg h3] at h
    by_cases h4 : 0xF0 ≤ b0 ∧ b0 ≤ 0xF7
    · simp only [if_pos h4] at h
      cases rest with
      | nil => cases h
      | cons b1 r =>
        cases r with
        | nil => cases h
        | cons b2 r =>
          cases r with
          | nil => cases h
          | cons b3 r =>
            simp only [] at h
            split_ifs at h with hc
            simp only [Option.some.injEq, Prod.mk.injEq] at h
            obtain ⟨rfl, rfl⟩ := h
            refine ⟨by norm_num, by simp, fun tail => ?_⟩
            simp [headUTF8, h1, h2, h3, h4, hc]
    simp only [if_neg h4] at h
    cases h

theorem refDecodeGBK_head (T : Tables) (four : Bool) (b0 : Nat) (rest : List Nat) :
    refDecodeGBK T four (b0 :: rest) =
      match headGBK T four (b0 :: rest) with
      | none => none
      | some (cp, n) => (refDecodeGBK T four ((b0 :: rest).drop n)).map (fun t => cp :: t) := by
  rw [refDecodeGBK_cons]
  unfold headGBK
  by_cases h1 : b0 < 0x80
  · simp only [if_pos h1, List.drop_succ_cons, List.drop_zero]
  simp only [if_neg h1]
  by_cases h2 : b0 = 0x80
  · simp only [if_pos h2, List.drop_succ_cons, List.drop_zero]
  simp only [if_neg h2]
  by_cases h3 : 0x81 ≤ b0 ∧ b0 ≤ 0xFE
  swap
  · simp only [if_neg h3]
  simp only [if_pos h3]
  cases rest with
  | nil => rfl
  | cons b1 r =>
    simp only []
    by_cases h4 : (0x40 ≤ b1 ∧ b1 ≤ 0x7E) ∨ (0x80 ≤ b1 ∧ b1 ≤ 0xFE)
    · simp only [if_pos h4]
      cases T.decode.get? ((b0 - 0x81) * 190 + (if b1 < 0x7F then b1 - 0x40 else b1 - 0x41)) with
      | none => rfl
      | some cp =>
        simp only []
        split_ifs <;> simp
    simp only [if_neg h4]
    by_cases h5 : four = true ∧ 0x30 ≤ b1 ∧ b1 ≤ 0x39
    swap
    · simp only [if_neg h5]
    simp only [if_pos h5]
    cases r with
    | nil => rfl
    | cons b2 r =>
      cases r with
      | nil => rfl
      | cons b3 r1 =>
        simp only []
        by_cases h6 : 0x81 ≤ b2 ∧ b2 ≤ 0xFE ∧ 0x30 ≤ b3 ∧ b3 ≤ 0x39
        swap
        · simp only [if_neg h6]
        simp only [if_pos h6]
        generalize (if (((b0 - 0x81) * 10 + (b1 - 0x30)) * 126 + (b2 - 0x81)) * 10 +
            (b3 - 0x30) < 39420 then
          rangesCodePoint T.gb18030
            ((((b0 - 0x81) * 10 + (b1 - 0x30)) * 126 + (b2 - 0x81)) * 10 + (b3 - 0x30))
          else if 189000 ≤ (((b0 - 0x81) * 10 + (b1 - 0x30)) * 126 + (b2 - 0x81)) * 10 +
            (b3 - 0x30) then
            some (0x10000 + ((((b0 - 0x81) * 10 + (b1 - 0x30)) * 126 + (b2 - 0x81)) * 10 +
              (b3 - 0x30) - 189000))
          else none) = o
        cases o with
        | none => rfl
        | some c =>
          simp only []
          split_ifs <;> simp

theorem headGBK_take (T : Tables) (four : Bool) (data : List Nat) (cp n : Nat)
    (h : headGBK T four data = some (cp, n)) :
    0 < n ∧ n ≤ data.length ∧ ∀ tail, headGBK T four (data.take n ++ tail) = some (cp, n) := by
  cases data with
  | nil => cases h
  | cons b0 rest =>
    unfold headGBK at h
    by_cases h1 : b0 < 0x80
    · simp only [if_pos h1, Option.some.injEq, Prod.mk.injEq] at h
      obtain ⟨rfl, rfl⟩ := h
      refine ⟨by norm_num, by simp, fun tail => ?_⟩
      simp [headGBK, h1]
    simp only [if_neg h1] at h
    by_cases h2 : b0 = 0x80
    · simp only [if_pos h2, Option.some.injEq, Prod.mk.injEq] at h
      obtain ⟨rfl, rfl⟩ := h
      refine ⟨by norm_num, by simp, fun tail => ?_⟩
      simp [headGBK, h2]
    simp only [if_neg h2] at h
    by_cases h3 : 0x81 ≤ b0 ∧ b0 ≤ 0xFE
    swap
    · simp only [if_neg h3] at h; cases h
    simp only [if_pos h3] at h
    cases rest with
    | nil => cases h
    | cons b1 r =>
      simp only [] at h
      by_cases h4 : (0x40 ≤ b1 ∧ b1 ≤ 0x7E) ∨ (0x80 ≤ b1 ∧ b1 ≤ 0xFE)
      · simp only [if_pos h4] at h
        generalize hg : T.decode.get?
          ((b0 - 0x81) * 190 + (if b1 < 0x7F then b1 - 0x40 else b1 - 0x41)) = o at h
        cases o with
        | none => cases h
        | some c =>
          simp only [] at h
          split_ifs at h with hc
          simp only [Option.some.injEq, Prod.mk.injEq] at h
          obtain ⟨rfl, rfl⟩ := h
          refine ⟨by norm_num, by simp, fun tail => ?_⟩
          simp only [List.take_succ_cons, List.take_zero, List.cons_append, List.nil_append]
          unfold headGBK
          simp only [if_neg h1, if_neg h2, if_pos h3, if_pos h4, hg, if_pos hc]
      simp only [if_neg h4] at h
      by_cases h5 : four = true ∧ 0x30 ≤ b1 ∧ b1 ≤ 0x39
      swap
      · simp only [if_neg h5] at h; cases h
      simp only [if_pos h5] at h
      cases r with
      | nil => cases h
      | cons b2 r =>
        cases r with
        | nil => cases h
        | cons b3 r1 =>
          simp only [] at h
          by_cases h6 : 0x81 ≤ b2 ∧ b2 ≤ 0xFE ∧ 0x30 ≤ b3 ∧ b3 ≤ 0x39
          swap
          · simp only [if_neg h6] at h; cases h
          simp only [if_pos h6] at h
          refine ⟨?_, ?_, fun tail => ?_⟩
          · split at h
            · split_ifs at h
              simp only [Option.some.injEq, Prod.mk.injEq] at h
              omega
            · cases h
          · split at h
            · split_ifs at h
              simp only [Option.some.injEq, Prod.mk.injEq] at h
              simp only [List.length_cons]
              omega
            · cases h
          · have hn : n = 4 := by
              split at h
              · split_ifs at h
                simp only [Option.some.injEq, Prod.mk.injEq] at h
                exact h.2.symm
              · cases h
            subst hn
            simp only [List.take_succ_cons, List.take_zero, List.cons_append, List.nil_append]
            unfold headGBK
            simp only [if_neg h1, if_neg h2, if_pos h3, if_neg h4, if_pos h5, if_pos h6]
            exact h

theorem refDecode_nil (T : Tables) (enc : Encoding) : refDecode T enc [] = some [] := by
  cases enc <;> rfl

theorem headChar_nil (T : Tables) (enc : Encoding) : headChar T enc [] = none := by
  cases enc <;> rfl

theorem refDecode_head (T : Tables) (enc : Encoding) (b0 : Nat) (rest : List Nat) :
    refDecode T enc (b0 :: rest) =
      match headChar T enc (b0 :: rest) with
      | none => none
      | some (cp, n) => (refDecode T enc ((b0 :: rest).drop n)).map (fun t => cp :: t) := by
  cases enc with
  | GBK => exact refDecodeGBK_head T false b0 rest
  | GB18030 => exact refDecodeGBK_head T true b0 rest
  | UTF8 => exact refDecodeUTF8_head b0 rest

theorem headChar_take (T : Tables) (enc : Encoding) (data : List Nat) (cp n : Nat)
    (h : headChar T enc data = some (cp, n)) :
    0 < n ∧ n ≤ data.length ∧ ∀ tail, headChar T enc (data.take n ++ tail) = some (cp, n) := by
  cases enc with
  | GBK => exact headGBK_take T false data cp n h
  | GB18030 => exact headGBK_take T true data cp n h
  | UTF8 => exact headUTF8_take data cp n h

/-- The reference decoder reads the first character and goes on behind it. -/
theorem refDecode_of_head (T : Tables) (enc : Encoding) (data : List Nat) (cp n : Nat)
    (h : headChar T enc data = some (cp, n)) :
    refDecode T enc data = (refDecode T enc (data.drop n)).map (fun t => cp :: t) := by
  cases data with
  | nil => rw [headChar_nil] at h; cases h
  | cons b0 rest => rw [refDecode_head, h]

theorem startsWithChar_of_head (T : Tables) (enc : Encoding) (data : List Nat) (cp n : Nat)
    (h : headChar T enc data = some (cp, n)) : startsWithChar T enc data n cp := by
  obtain ⟨h0, hl, ht⟩ := headChar_take T enc data cp n h
  refine ⟨h0, hl, ?_⟩
  have h1 := ht []
  rw [List.append_nil] at h1
  rw [refDecode_of_head T enc _ cp n h1, List.drop_take, Nat.sub_self, List.take_zero,
    refDecode_nil]
  rfl

theorem head_of_startsWithChar (T : Tables) (enc : Encoding) (data : List Nat) (k cp : Nat)
    (h : startsWithChar T enc data k cp) : ∃ c n, headChar T enc data = some (c, n) := by
  obtain ⟨h0, hl, hr⟩ := h
  cases hd : data.take k with
  | nil =>
    have := congrArg List.length hd
    simp only [List.length_take, List.length_nil] at this
    omega
  | cons b0 r =>
    rw [hd, refDecode_head] at hr
    cases hh : headChar T enc (b0 :: r) with
    | none => rw [hh] at hr; cases hr
    | some p =>
      obtain ⟨c, n⟩ := p
      obtain ⟨_, _, ht⟩ := headChar_take T enc (b0 :: r) c n hh
      refine ⟨c, n, ?_⟩
      have := ht ((b0 :: r).drop n ++ data.drop k)
      rw [← List.append_assoc, List.take_append_drop, ← hd, List.take_append_drop] at this
      exact this

theorem not_startsWithChar_of_head (T : Tables) (enc : Encoding) (data : List Nat)
    (h : headChar T enc data = none) : ∀ k cp, ¬ startsWithChar T enc data k cp := by
  intro k cp hs
  obtain ⟨c, n, hc⟩ := head_of_startsWithChar T enc data k cp hs
  rw [h] at hc; cases hc

theorem EncodeRune_RuneError : EncodeRune RuneError = [0xEF, 0xBF, 0xBD] := by decide

theorem isScalar_RuneError : isScalar RuneError = true := by decide

theorem EncodeRune_not_scalar (r : Nat) (h : isScalar r = false) :
    EncodeRune r = [0xEF, 0xBF, 0xBD] := by
  have h1 : ¬ (r < 0xD800 ∨ (0xDFFF < r ∧ r ≤ 0x10FFFF)) := by
    intro hc
    have := (isScalar_iff r).mpr hc
    rw [h] at this; cases this
  unfold EncodeRune
  rw [if_neg (by omega), if_neg (by omega), if_pos (by omega)]

theorem refDecodeUTF8_RuneError (rest : List Nat) :
    refDecodeUTF8 ([0xEF, 0xBF, 0xBD] ++ rest) =
      (refDecodeUTF8 rest).map (fun t => RuneError :: t) := by
  rw [← EncodeRune_RuneError]
  exact refDecodeUTF8_EncodeRune RuneError isScalar_RuneError rest

theorem decodeLoop_inv (step : Nat → List Nat → Option (List Nat × Nat))
    (I : List Nat → List Nat → Prop) (h0 : I [] [])
    (hstep : ∀ c0 rest, ∃ out size, step c0 rest = some (out, size) ∧ 1 ≤ size ∧
      size ≤ rest.length + 1 ∧
      ∀ out1, I ((c0 :: rest).drop size) out1 → I (c0 :: rest) (out ++ out1)) :
    ∀ fuel data, data.length ≤ fuel → I data (decodeLoop step fuel data).1 := by
  intro fuel
  induction fuel with
  | zero =>
    intro data h
    have : data = [] := List.length_eq_zero.mp (Nat.le_zero.mp h)
    subst this
    exact h0
  | succ fuel ih =>
    intro data h
    cases data with
    | nil => exact h0
    | cons c0 rest =>
      obtain ⟨out, size, hs, h1, h2, hI⟩ := hstep c0 rest
      have hlen : ((c0 :: rest).drop size).length ≤ fuel := by
        simp only [List.length_drop, List.length_cons] at *; omega
      have := hI _ (ih _ hlen)
      simpa only [decodeLoop, hs] using this

/-! ## The UTF-8 decoder step against the first character of the reference -/

theorem utf8Step_of_head (b0 : Nat) (rest : List Nat) (cp n : Nat)
    (h : headUTF8 (b0 :: rest) = some (cp, n)) :
    utf8Step true b0 rest = some ((b0 :: rest).take n, n) := by
  unfold headUTF8 at h
  by_cases h1 : b0 < 0x80
  · simp only [if_pos h1, Option.some.injEq, Prod.mk.injEq] at h
    obtain ⟨_, rfl⟩ := h
    unfold utf8Step
    rw [if_pos h1]; rfl
  simp only [if_neg h1] at h
  by_cases h2 : 0xC0 ≤ b0 ∧ b0 ≤ 0xDF
  · simp only [if_pos h2] at h
    cases rest with
    | nil => cases h
    | cons b1 r =>
      simp only [] at h
      split_ifs at h with hc
      simp only [Option.some.injEq, Prod.mk.injEq] at h
      obtain ⟨_, rfl⟩ := h
      have hb := (isCont_iff b1).mp hc.1
      exact utf8Step_two b0 b1 r (by omega) h2.2 hb
  simp only [if_neg h2] at h
  by_cases h3 : 0xE0 ≤ b0 ∧ b0 ≤ 0xEF
  · simp only [if_pos h3] at h
    cases rest with
    | nil => cases h
    | cons b1 r =>
      cases r with
      | nil => cases h
      | cons b2 r =>
        simp only [] at h
        split_ifs at h with hc
        simp only [Option.some.injEq, Prod.mk.injEq] at h
        obtain ⟨_, rfl⟩ := h
        have hb1 := (isCont_iff b1).mp hc.1
        have hb2 := (isCont_iff b2).mp hc.2.1
        have hs := (isScalar_iff _).mp hc.2.2.2
        have hm := hc.2.2.1
        exact utf8Step_three b0 b1 b2 r h3.1 h3.2 (by omega) (by omega) hb1 hb2
  simp only [if_neg h3] at h
  by_cases h4 : 0xF0 ≤ b0 ∧ b0 ≤ 0xF7
  · simp only [if_pos h4] at h
    cases rest with
    | nil => cases h
    | cons b1 r =>
      cases r with
      | nil => cases h
      | cons b2 r =>
        cases r with
        | nil => cases h
        | cons b3 r =>
          simp only [] at h
          split_ifs at h with hc
          simp only [Option.some.injEq, Prod.mk.injEq] at h
          obtain ⟨_, rfl⟩ := h
          have hb1 := (isCont_iff b1).mp hc.1
          have hb2 := (isCont_iff b2).mp hc.2.1
          have hb3 := (isCont_iff b3).mp hc.2.2.1
          have hm := hc.2.2.2.1
          have hM := hc.2.2.2.2
          exact utf8Step_four b0 b1 b2 b3 r h4.1 (by omega) (by omega) (by omega)
            hb1 hb2 hb3
  simp only [if_neg h4] at h
  cases h

theorem utf8First_spec (c sz lo hi : Nat) (h : utf8First c = some (sz, lo, hi)) :
    0x80 ≤ lo ∧ hi ≤ 0xBF ∧ 0xC2 ≤ c ∧ c ≤ 0xF4 ∧
    (sz = 2 → c ≤ 0xDF) ∧ (sz = 3 → 0xE0 ≤ c ∧ c ≤ 0xEF) ∧ (sz = 4 → 0xF0 ≤ c) ∧
    (sz = 2 ∨ sz = 3 ∨ sz = 4) ∧
    (c = 0xE0 → 0xA0 ≤ lo) ∧ (c = 0xED → hi ≤ 0x9F) ∧ (c = 0xF0 → 0x90 ≤ lo) ∧
    (c = 0xF4 → hi ≤ 0x8F) := by
  unfold utf8First at h
  split_ifs at h <;> simp only [Option.some.injEq, Prod.mk.injEq] at h <;>
    (obtain ⟨rfl, rfl, rfl⟩ := h) <;> omega

theorem headUTF8_two (b0 b1 : Nat) (r : List Nat) (h0 : 0xC2 ≤ b0) (h1 : b0 ≤ 0xDF)
    (hc : ¬ (b1 < 0x80 ∨ 0xBF < b1)) :
    headUTF8 (b0 :: b1 :: r) = some ((b0 - 0xC0) * 64 + (b1 - 0x80), 2) := by
  unfold headUTF8
  simp only []
  rw [if_neg (by omega), if_pos (by omega)]
  rw [if_pos ⟨(isCont_iff b1).mpr (by omega), by omega⟩]

theorem headUTF8_three (b0 b1 b2 : Nat) (r : List Nat) (h0 : 0xE0 ≤ b0) (h1 : b0 ≤ 0xEF)
    (lo hi : Nat) (hlo : b0 = 0xE0 → 0xA0 ≤ lo) (hhi : b0 = 0xED → hi ≤ 0x9F)
    (hl : 0x80 ≤ lo) (hh : hi ≤ 0xBF)
    (hc : ¬ (b1 < lo ∨ hi < b1)) (hc2 : ¬ (b2 < 0x80 ∨ 0xBF < b2)) :
    headUTF8 (b0 :: b1 :: b2 :: r) =
      some ((b0 - 0xE0) * 4096 + (b1 - 0x80) * 64 + (b2 - 0x80), 3) := by
  unfold headUTF8
  simp only []
  rw [if_neg (by omega), if_neg (by omega), if_pos (by omega)]
  rw [if_pos ⟨(isCont_iff b1).mpr (by omega), (isCont_iff b2).mpr (by omega), by omega,
    (isScalar_iff _).mpr (by omega)⟩]

theorem headUTF8_four (b0 b1 b2 b3 : Nat) (r : List Nat) (h0 : 0xF0 ≤ b0) (h1 : b0 ≤ 0xF4)
    (lo hi : Nat) (hlo : b0 = 0xF0 → 0x90 ≤ lo) (hhi : b0 = 0xF4 → hi ≤ 0x8F)
    (hl : 0x80 ≤ lo) (hh : hi ≤ 0xBF)
    (hc : ¬ (b1 < lo ∨ hi < b1)) (hc2 : ¬ (b2 < 0x80 ∨ 0xBF < b2))
    (hc3 : ¬ (b3 < 0x80 ∨ 0xBF < b3)) :
    headUTF8 (b0 :: b1 :: b2 :: b3 :: r) =
      some ((b0 - 0xF0) * 262144 + (b1 - 0x80) * 4096 + (b2 - 0x80) * 64 + (b3 - 0x80), 4) := by
  unfold headUTF8
  simp only []
  rw [if_neg (by omega), if_neg (by omega), if_neg (by omega), if_pos (by omega)]
  rw [if_pos ⟨(isCont_iff b1).mpr (by omega), (isCont_iff b2).mpr (by omega),
    (isCont_iff b3).mpr (by omega), by omega, by omega⟩]

theorem utf8Step_out (c0 : Nat) (rest : List Nat) :
    ∃ out size, utf8Step true c0 rest = some (out, size) ∧ 1 ≤ size ∧
      size ≤ rest.length + 1 ∧
      (out = [0xEF, 0xBF, 0xBD] ∨ ∃ cp n, headUTF8 (c0 :: rest) = some (cp, n)) := by
  unfold utf8Step
  simp only [↓reduceIte]
  by_cases h0 : c0 < 0x80
  · rw [if_pos h0]
    exact ⟨_, _, rfl, by simp, by simp, Or.inr ⟨c0, 1, by simp [headUTF8, h0]⟩⟩
  rw [if_neg h0]
  cases hf : utf8First c0 with
  | none => exact ⟨_, _, rfl, by simp, by simp, Or.inl rfl⟩
  | some p =>
    obtain ⟨sz, lo, hi⟩ := p
    obtain ⟨hl, hh, hc2, hc4, hs2, hs3, hs4, hsz, hE0, hED, hF0, hF4⟩ :=
      utf8First_spec c0 sz lo hi hf
    simp only [utf8Invalid]
    by_cases h1 : rest.length + 1 < sz
    · rw [if_pos h1]
      cases rest with
      | nil => exact ⟨_, _, rfl, by simp, by simp, Or.inl rfl⟩
      | cons c1 rest1 =>
        simp only []
        split_ifs
        · exact ⟨_, _, rfl, by simp, by simp, Or.inl rfl⟩
        · cases rest1 with
          | nil => exact ⟨_, _, rfl, by simp, by simp, Or.inl rfl⟩
          | cons c2 rest2 =>
            simp only []
            split_ifs <;> exact ⟨_, _, rfl, by simp, by simp, Or.inl rfl⟩
    · rw [if_neg h1]
      cases rest with
      | nil => simp only [List.length_nil] at h1; omega
      | cons c1 r1 =>
        simp only [List.getD_cons_zero, List.getD_cons_succ]
        by_cases hb1 : c1 < lo ∨ hi < c1
        · rw [if_pos hb1]; exact ⟨_, _, rfl, by simp, by simp, Or.inl rfl⟩
        rw [if_neg hb1]
        by_cases e2 : sz = 2
        · rw [if_pos e2]
          exact ⟨_, _, rfl, by simp, by simp, Or.inr ⟨_, _,
            headUTF8_two c0 c1 r1 hc2 (hs2 e2) (by omega)⟩⟩
        rw [if_neg e2]
        cases r1 with
        | nil => simp only [List.length_cons, List.length_nil] at h1; omega
        | cons c2 r2 =>
          simp only [List.getD_cons_zero, List.getD_cons_succ]
          by_cases hb2 : c2 < 0x80 ∨ 0xBF < c2
          · rw [if_pos hb2]; exact ⟨_, _, rfl, by simp, by simp, Or.inl rfl⟩
          rw [if_neg hb2]
          by_cases e3 : sz = 3
          · rw [if_pos e3]
            exact ⟨_, _, rfl, by simp, by simp, Or.inr ⟨_, _,
              headUTF8_three c0 c1 c2 r2 (hs3 e3).1 (hs3 e3).2 lo hi hE0 hED hl hh hb1 hb2⟩⟩
          rw [if_neg e3]
          have e4 : sz = 4 := by omega
          cases r2 with
          | nil => simp only [List.length_cons, List.length_nil] at h1; omega
          | cons c3 r3 =>
            simp only [List.getD_cons_zero, List.getD_cons_succ]
            by_cases hb3 : c3 < 0x80 ∨ 0xBF < c3
            · rw [if_pos hb3]; exact ⟨_, _, rfl, by simp, by simp, Or.inl rfl⟩
            rw [if_neg hb3]
            exact ⟨_, _, rfl, by simp, by simp, Or.inr ⟨_, _,
              headUTF8_four c0 c1 c2 c3 r3 (hs4 e4) hc4 lo hi hF0 hF4 hl hh hb1 hb2 hb3⟩⟩

/-- A step of the UTF-8 decoder copies the first character of the reference, or
writes U+FFFD where none starts. -/
theorem utf8Step_step (c0 : Nat) (rest : List Nat) :
    ∃ out size, utf8Step true c0 rest = some (out, size) ∧ 1 ≤ size ∧
      size ≤ rest.length + 1 ∧
      ((∃ cp, headUTF8 (c0 :: rest) = some (cp, size) ∧
          ∀ out1, refDecodeUTF8 (out ++ out1) = (refDecodeUTF8 out1).map (fun t => cp :: t)) ∨
        (headUTF8 (c0 :: rest) = none ∧ out = [0xEF, 0xBF, 0xBD])) := by
  cases hh : headUTF8 (c0 :: rest) with
  | some p =>
    obtain ⟨cp, n⟩ := p
    obtain ⟨h0, hl, ht⟩ := headUTF8_take (c0 :: rest) cp n hh
    refine ⟨_, n, utf8Step_of_head c0 rest cp n hh, h0, by simpa using hl,
      Or.inl ⟨cp, rfl, fun out1 => ?_⟩⟩
    have h1 := refDecode_of_head exTables Encoding.UTF8 _ cp n (ht out1)
    have hlen : ((c0 :: rest).take n).length = n := by
      rw [List.length_take]; exact Nat.min_eq_left hl
    rw [List.drop_left' hlen] at h1
    exact h1
  | none =>
    obtain ⟨out, size, hs, h1, h2, ho⟩ := utf8Step_out c0 rest
    rcases ho with ho | ⟨cp, n, hc⟩
    · exact ⟨out, size, hs, h1, h2, Or.inr ⟨rfl, ho⟩⟩
    · rw [hh] at hc; cases hc

/-! ## The GBK decoder step against the first character of the reference -/

theorem isScalar_false_iff (cp : Nat) :
    isScalar cp = false ↔ ¬ (cp < 0xD800 ∨ (0xDFFF < cp ∧ cp ≤ 0x10FFFF)) := by
  rw [← isScalar_iff, Bool.not_eq_true]

theorem twoByte_step (T : Tables) (four : Bool) (c0 c1 : Nat) (r : List Nat)
    (h1 : ¬ c0 < 0x80) (h2 : ¬ c0 = 0x80) (h3 : 0x81 ≤ c0 ∧ c0 ≤ 0xFE)
    (h4 : (0x40 ≤ c1 ∧ c1 ≤ 0x7E) ∨ (0x80 ≤ c1 ∧ c1 ≤ 0xFE)) (c : Nat)
    (hc : c = if c1 < 0x7F then c1 - 0x40 else c1 - 0x41) :
    ∃ rr, gbkTwoByte T c0 c = (rr, 2) ∧
      ((headGBK T four (c0 :: c1 :: r) = some (rr, 2) ∧ isScalar rr = true) ∨
       (headGBK T four (c0 :: c1 :: r) = none ∧ EncodeRune rr = [0xEF, 0xBF, 0xBD])) := by
  have hhead : headGBK T four (c0 :: c1 :: r) =
      match T.decode.get? ((c0 - 0x81) * 190 + c) with
      | some cp => if cp ≠ 0 ∧ isScalar cp = true then some (cp, 2) else none
      | none => none := by
    unfold headGBK
    simp only []
    rw [if_neg h1, if_neg h2, if_pos h3, if_pos h4, ← hc]
  rw [hhead]
  unfold gbkTwoByte
  simp only []
  cases hg : T.decode.get? ((c0 - 0x81) * 190 + c) with
  | none =>
    have hlen : ¬ (c0 - 0x81) * 190 + c < T.decode.length := by
      intro hlt
      rw [List.get?_eq_getElem?, List.getElem?_eq_getElem hlt] at hg
      cases hg
    rw [if_neg hlen]
    exact ⟨RuneError, rfl, Or.inr ⟨rfl, EncodeRune_RuneError⟩⟩
  | some cp =>
    have hlt : (c0 - 0x81) * 190 + c < T.decode.length := by
      rw [List.get?_eq_getElem?] at hg
      exact (List.getElem?_eq_some_iff.mp hg).1
    have hd : T.decode.getD ((c0 - 0x81) * 190 + c) 0 = cp := by
      rw [List.getD_eq_getElem?_getD, ← List.get?_eq_getElem?, hg]; rfl
    rw [if_pos hlt, hd]
    by_cases h0 : cp = 0
    · rw [if_pos h0]
      refine ⟨RuneError, rfl, Or.inr ⟨?_, EncodeRune_RuneError⟩⟩
      simp only []
      rw [if_neg (fun h => h.1 h0)]
    · rw [if_neg h0]
      refine ⟨cp, rfl, ?_⟩
      simp only []
      cases hs : isScalar cp with
      | true => exact Or.inl ⟨by rw [if_pos ⟨h0, rfl⟩], rfl⟩
      | false =>
        refine Or.inr ⟨by rw [if_neg (fun h => by cases h.2)], EncodeRune_not_scalar cp hs⟩

theorem fourByte_step (T : Tables) (hT : T.rangesSorted) (c0 c1 : Nat) (rest1 : List Nat)
    (h1 : ¬ c0 < 0x80) (h2 : ¬ c0 = 0x80) (h3 : 0x81 ≤ c0 ∧ c0 ≤ 0xFE)
    (h4 : ¬ ((0x40 ≤ c1 ∧ c1 ≤ 0x7E) ∨ (0x80 ≤ c1 ∧ c1 ≤ 0xFE)))
    (h5 : 0x30 ≤ c1 ∧ c1 ≤ 0x39) :
    ∃ rr size, gbkFourByte T true c0 c1 rest1 = some (rr, size) ∧ 1 ≤ size ∧
      size ≤ rest1.length + 2 ∧
      ((headGBK T true (c0 :: c1 :: rest1) = some (rr, size) ∧ isScalar rr = true) ∨
       (headGBK T true (c0 :: c1 :: rest1) = none ∧ EncodeRune rr = [0xEF, 0xBF, 0xBD])) := by
  have h5' : True ∧ 0x30 ≤ c1 ∧ c1 ≤ 0x39 := ⟨trivial, h5⟩
  cases rest1 with
  | nil =>
    refine ⟨RuneError, 1, rfl, by simp, by simp, Or.inr ⟨?_, EncodeRune_RuneError⟩⟩
    unfold headGBK
    simp only []
    rw [if_neg h1, if_neg h2, if_pos h3, if_neg h4, if_pos h5']
  | cons c2 rest2 =>
    cases rest2 with
    | nil =>
      refine ⟨RuneError, 1, rfl, by simp, by simp, Or.inr ⟨?_, EncodeRune_RuneError⟩⟩
      unfold headGBK
      simp only []
      rw [if_neg h1, if_neg h2, if_pos h3, if_neg h4, if_pos h5']
    | cons c3 r =>
      have hhead : headGBK T true (c0 :: c1 :: c2 :: c3 :: r) =
          headGBK T true (c0 :: c1 :: c2 :: c3 :: r) := rfl
      conv at hhead =>
        rhs
        unfold headGBK
        simp only []
        rw [if_neg h1, if_neg h2, if_pos h3, if_neg h4, if_pos h5']
      unfold gbkFourByte
      simp only []
      by_cases hb2 : c2 < 0x81 ∨ 0xff ≤ c2
      · rw [if_pos hb2]
        refine ⟨RuneError, 1, rfl, by simp, by simp, Or.inr ⟨?_, EncodeRune_RuneError⟩⟩
        rw [hhead, if_neg (by omega)]
      rw [if_neg hb2]
      by_cases hb3 : c3 < 0x30 ∨ 0x3a ≤ c3
      · rw [if_pos hb3]
        refine ⟨RuneError, 1, rfl, by simp, by simp, Or.inr ⟨?_, EncodeRune_RuneError⟩⟩
        rw [hhead, if_neg (by omega)]
      rw [if_neg hb3]
      have h6 : 0x81 ≤ c2 ∧ c2 ≤ 0xFE ∧ 0x30 ≤ c3 ∧ c3 ≤ 0x39 := by omega
      generalize hp : (((c0 - 0x81) * 10 + (c1 - 0x30)) * 126 + (c2 - 0x81)) * 10 +
        (c3 - 0x30) = p at hhead ⊢
      by_cases h7 : p < 39420
      · rw [if_pos h7]
        have hsr := search_eq_ranges T hT p
        cases hs : isScalar (p +
          (T.gb18030.getD (searchLoop T.gb18030 p (T.gb18030.length + 1) 0
            T.gb18030.length - 1) (0, 0)).2 -
          (T.gb18030.getD (searchLoop T.gb18030 p (T.gb18030.length + 1) 0
            T.gb18030.length - 1) (0, 0)).1) with
        | true =>
          refine ⟨_, 4, rfl, by simp, by simp, Or.inl ⟨?_, hs⟩⟩
          rw [hhead, if_pos h6, if_pos h7, hsr]
          simp only []
          rw [if_pos hs]
        | false =>
          refine ⟨_, 4, rfl, by simp, by simp, Or.inr ⟨?_, EncodeRune_not_scalar _ hs⟩⟩
          rw [hhead, if_pos h6, if_pos h7, hsr]
          simp only []
          rw [if_neg (by rw [hs]; simp)]
      rw [if_neg h7]
      by_cases h8 : 189000 ≤ p ∧ p - 189000 < 0x100000
      · rw [if_pos h8]
        have e : p - 189000 + 0x10000 = 0x10000 + (p - 189000) := by omega
        have hs : isScalar (0x10000 + (p - 189000)) = true :=
          (isScalar_iff _).mpr (by omega)
        refine ⟨_, 4, rfl, by simp, by simp, Or.inl ⟨?_, by rw [e]; exact hs⟩⟩
        rw [hhead, if_pos h6, if_neg h7, if_pos h8.1, e]
        simp only []
        rw [if_pos hs]
      · rw [if_neg h8]
        refine ⟨RuneError, 1, rfl, by simp, by simp, Or.inr ⟨?_, EncodeRune_RuneError⟩⟩
        rw [hhead, if_pos h6, if_neg h7]
        by_cases h9 : 189000 ≤ p
        · rw [if_pos h9]
          simp only []
          have hs : isScalar (0x10000 + (p - 189000)) = false :=
            (isScalar_false_iff _).mpr (by omega)
          rw [if_neg (by rw [hs]; simp)]
        · rw [if_neg h9]

/-- The four-byte case of the decoder at a second byte 0x3A to 0x3F, which the
encoding does not have: the decoder reads it as a digit. -/
theorem fourByte_lenient (T : Tables) (hT : T.rangesSorted) (c0 c1 : Nat) (rest1 : List Nat)
    (h1 : ¬ c0 < 0x80) (h2 : ¬ c0 = 0x80) (h3 : 0x81 ≤ c0 ∧ c0 ≤ 0xFE)
    (h5 : 0x3A ≤ c1 ∧ c1 ≤ 0x3F) :
    headGBK T true (c0 :: c1 :: rest1) = none ∧
    ∃ rr size, gbkFourByte T true c0 c1 rest1 = some (rr, size) ∧ 1 ≤ size ∧
      size ≤ rest1.length + 2 ∧
      (EncodeRune rr = [0xEF, 0xBF, 0xBD] ∨
       (size = 4 ∧ isScalar rr = true ∧ ∃ c2 c3 r, rest1 = c2 :: c3 :: r ∧
        (0x81 ≤ c2 ∧ c2 ≤ 0xFE) ∧ (0x30 ≤ c3 ∧ c3 ≤ 0x39) ∧
        (if (((c0 - 0x81) * 10 + (c1 - 0x30)) * 126 + (c2 - 0x81)) * 10 + (c3 - 0x30) < 39420
          then rangesCodePoint T.gb18030
            ((((c0 - 0x81) * 10 + (c1 - 0x30)) * 126 + (c2 - 0x81)) * 10 + (c3 - 0x30))
          else if 189000 ≤ (((c0 - 0x81) * 10 + (c1 - 0x30)) * 126 + (c2 - 0x81)) * 10 +
              (c3 - 0x30) then
            some (0x10000 + ((((c0 - 0x81) * 10 + (c1 - 0x30)) * 126 + (c2 - 0x81)) * 10 +
              (c3 - 0x30) - 189000))
          else none) = some rr)) := by
  constructor
  · unfold headGBK
    simp only []
    rw [if_neg h1, if_neg h2, if_pos h3, if_neg (by omega), if_neg (by omega)]
  cases rest1 with
  | nil => exact ⟨RuneError, 1, rfl, by simp, by simp, Or.inl EncodeRune_RuneError⟩
  | cons c2 rest2 =>
    cases rest2 with
    | nil => exact ⟨RuneError, 1, rfl, by simp, by simp, Or.inl EncodeRune_RuneError⟩
    | cons c3 r =>
      unfold gbkFourByte
      simp only []
      by_cases hb2 : c2 < 0x81 ∨ 0xff ≤ c2
      · rw [if_pos hb2]
        exact ⟨RuneError, 1, rfl, by simp, by simp, Or.inl EncodeRune_RuneError⟩
      rw [if_neg hb2]
      by_cases hb3 : c3 < 0x30 ∨ 0x3a ≤ c3
      · rw [if_pos hb3]
        exact ⟨RuneError, 1, rfl, by simp, by simp, Or.inl EncodeRune_RuneError⟩
      rw [if_neg hb3]
      generalize hp : (((c0 - 0x81) * 10 + (c1 - 0x30)) * 126 + (c2 - 0x81)) * 10 +
        (c3 - 0x30) = p
      by_cases h7 : p < 39420
      · rw [if_pos h7]
        have hsr := search_eq_ranges T hT p
        cases hs : isScalar (p +
          (T.gb18030.getD (searchLoop T.gb18030 p (T.gb18030.length + 1) 0
            T.gb18030.length - 1) (0, 0)).2 -
          (T.gb18030.getD (searchLoop T.gb18030 p (T.gb18030.length + 1) 0
            T.gb18030.length - 1) (0, 0)).1) with
        | true =>
          refine ⟨_, 4, rfl, by simp, by simp, Or.inr ⟨rfl, hs, c2, c3, r, rfl, by omega,
            by omega, ?_⟩⟩
          rw [hp, if_pos h7, hsr]
        | false =>
          exact ⟨_, 4, rfl, by simp, by simp, Or.inl (EncodeRune_not_scalar _ hs)⟩
      rw [if_neg h7]
      by_cases h8 : 189000 ≤ p ∧ p - 189000 < 0x100000
      · rw [if_pos h8]
        have e : p - 189000 + 0x10000 = 0x10000 + (p - 189000) := by omega
        have hs : isScalar (0x10000 + (p - 189000)) = true :=
          (isScalar_iff _).mpr (by omega)
        refine ⟨_, 4, rfl, by simp, by simp, Or.inr ⟨rfl, by rw [e]; exact hs, c2, c3, r, rfl,
          by omega, by omega, ?_⟩⟩
        rw [hp, if_neg h7, if_pos h8.1, e]
      · rw [if_neg h8]
        exact ⟨RuneError, 1, rfl, by simp, by simp, Or.inl EncodeRune_RuneError⟩

/-- A step of the GBK or GB18030 decoder yields the first character of the
reference, or a rune written as U+FFFD where none starts. -/
theorem gbkStep_step (T : Tables) (hT : T.rangesSorted) (four : Bool) (c0 : Nat)
    (rest : List Nat) :
    ∃ rr size, gbkStep T four true c0 rest = some (rr, size) ∧ 1 ≤ size ∧
      size ≤ rest.length + 1 ∧
      ((headGBK T four (c0 :: rest) = some (rr, size) ∧ isScalar rr = true) ∨
       (headGBK T four (c0 :: rest) = none ∧ EncodeRune rr = [0xEF, 0xBF, 0xBD]) ∨
       (headGBK T four (c0 :: rest) = none ∧ four = true ∧ size = 4 ∧
        lenientHead T (c0 :: rest) rr)) := by
  unfold gbkStep
  simp only [↓reduceIte]
  by_cases h1 : c0 < 0x80
  · rw [if_pos h1]
    exact ⟨c0, 1, rfl, le_refl _, by simp,
      Or.inl ⟨by simp [headGBK, h1], (isScalar_iff c0).mpr (by omega)⟩⟩
  rw [if_neg h1]
  by_cases h2 : c0 = 0x80
  · rw [if_pos h2]
    exact ⟨0x20AC, 1, rfl, le_refl _, by simp, Or.inl ⟨by simp [headGBK, h2], by decide⟩⟩
  rw [if_neg h2]
  by_cases h3 : c0 < 0xff
  swap
  · rw [if_neg h3]
    refine ⟨RuneError, 1, rfl, le_refl _, by simp, Or.inr (Or.inl ⟨?_, EncodeRune_RuneError⟩)⟩
    unfold headGBK
    simp only []
    rw [if_neg h1, if_neg h2, if_neg (by omega)]
  rw [if_pos h3]
  have h3' : 0x81 ≤ c0 ∧ c0 ≤ 0xFE := by omega
  cases rest with
  | nil =>
    refine ⟨RuneError, 1, rfl, le_refl _, by simp, Or.inr (Or.inl ⟨?_, EncodeRune_RuneError⟩)⟩
    unfold headGBK
    simp only []
    rw [if_neg h1, if_neg h2, if_pos h3']
  | cons c1 rest1 =>
    simp only []
    by_cases ha : 0x40 ≤ c1 ∧ c1 < 0x7f
    · rw [if_pos ha]
      obtain ⟨rr, hr, hd⟩ := twoByte_step T four c0 c1 rest1 h1 h2 h3' (Or.inl (by omega))
        (c1 - 0x40) (by rw [if_pos (by omega)])
      rw [hr]
      exact ⟨rr, 2, rfl, by simp, by simp, hd.imp id Or.inl⟩
    rw [if_neg ha]
    by_cases hb : 0x80 ≤ c1 ∧ c1 < 0xff
    · rw [if_pos hb]
      obtain ⟨rr, hr, hd⟩ := twoByte_step T four c0 c1 rest1 h1 h2 h3' (Or.inr (by omega))
        (c1 - 0x41) (by rw [if_neg (by omega)])
      rw [hr]
      exact ⟨rr, 2, rfl, by simp, by simp, hd.imp id Or.inl⟩
    rw [if_neg hb]
    have h4 : ¬ ((0x40 ≤ c1 ∧ c1 ≤ 0x7E) ∨ (0x80 ≤ c1 ∧ c1 ≤ 0xFE)) := by omega
    by_cases hc : four = true ∧ 0x30 ≤ c1 ∧ c1 < 0x40
    · rw [if_pos hc]
      obtain ⟨hf, hc1, hc2⟩ := hc
      subst hf
      by_cases hd9 : c1 ≤ 0x39
      · obtain ⟨rr, size, hs, hs1, hs2, hd⟩ :=
          fourByte_step T hT c0 c1 rest1 h1 h2 h3' h4 ⟨hc1, hd9⟩
        exact ⟨rr, size, hs, hs1, by simp only [List.length_cons]; omega, hd.imp id Or.inl⟩
      · obtain ⟨hh, rr, size, hs, hs1, hs2, hd⟩ :=
          fourByte_lenient T hT c0 c1 rest1 h1 h2 h3' ⟨by omega, by omega⟩
        refine ⟨rr, size, hs, hs1, by simp only [List.length_cons]; omega, Or.inr ?_⟩
        rcases hd with he | ⟨h4s, hsc, c2, c3, r, hrest, hc2r, hc3r, hpt⟩
        · exact Or.inl ⟨hh, he⟩
        · exact Or.inr ⟨hh, rfl, h4s, c0, c1, c2, c3, r, by rw [hrest], h3',
            ⟨by omega, by omega⟩, hc2r, hc3r, hpt, hsc⟩
    · rw [if_neg hc]
      refine ⟨RuneError, 1, rfl, le_refl _, by simp, Or.inr (Or.inl ⟨?_, EncodeRune_RuneError⟩)⟩
      unfold headGBK
      simp only []
      rw [if_neg h1, if_neg h2, if_pos h3', if_neg h4,
        if_neg (fun h => hc ⟨h.1, by omega, by omega⟩)]

/-- A step of a registered decoder writes the first character of the reference
in UTF-8, or U+FFFD where no character starts, or under GB18030 the character
of four bytes the encoding does not have. -/
theorem decodeStep_step (T : Tables) (hT : T.rangesSorted) (enc : Encoding) (c0 : Nat)
    (rest : List Nat) :
    ∃ out size, decodeStep T enc true c0 rest = some (out, size) ∧ 1 ≤ size ∧
      size ≤ rest.length + 1 ∧
      ((∃ cp, headChar T enc (c0 :: rest) = some (cp, size) ∧
          ∀ out1, refDecodeUTF8 (out ++ out1) = (refDecodeUTF8 out1).map (fun t => cp :: t)) ∨
        (headChar T enc (c0 :: rest) = none ∧ out = [0xEF, 0xBF, 0xBD]) ∨
        (∃ cp, enc = Encoding.GB18030 ∧ size = 4 ∧ lenientHead T (c0 :: rest) cp ∧
          ∀ out1, refDecodeUTF8 (out ++ out1) = (refDecodeUTF8 out1).map (fun t => cp :: t))) := by
  have hg : ∀ four, ∃ out size,
      (gbkStep T four true c0 rest).map (fun p => (EncodeRune p.1, p.2)) = some (out, size) ∧
      1 ≤ size ∧ size ≤ rest.length + 1 ∧
      ((∃ cp, headGBK T four (c0 :: rest) = some (cp, size) ∧
          ∀ out1, refDecodeUTF8 (out ++ out1) = (refDecodeUTF8 out1).map (fun t => cp :: t)) ∨
        (headGBK T four (c0 :: rest) = none ∧ out = [0xEF, 0xBF, 0xBD]) ∨
        (∃ cp, four = true ∧ size = 4 ∧ lenientHead T (c0 :: rest) cp ∧
          ∀ out1, refDecodeUTF8 (out ++ out1) = (refDecodeUTF8 out1).map (fun t => cp :: t))) := by
    intro four
    obtain ⟨rr, size, hs, h1, h2, hd⟩ := gbkStep_step T hT four c0 rest
    refine ⟨EncodeRune rr, size, by rw [hs]; rfl, h1, h2, ?_⟩
    rcases hd with ⟨hh, hsc⟩ | ⟨hh, he⟩ | ⟨_, hf, h4, hl⟩
    · exact Or.inl ⟨rr, hh, fun out1 => refDecodeUTF8_EncodeRune rr hsc out1⟩
    · exact Or.inr (Or.inl ⟨hh, he⟩)
    · have hsc : isScalar rr = true := by
        obtain ⟨_, _, _, _, _, _, _, _, _, _, _, hsc⟩ := hl
        exact hsc
      exact Or.inr (Or.inr ⟨rr, hf, h4, hl, fun out1 => refDecodeUTF8_EncodeRune rr hsc out1⟩)
  cases enc with
  | GBK =>
    obtain ⟨out, size, hs, h1, h2, hd⟩ := hg false
    refine ⟨out, size, hs, h1, h2, ?_⟩
    rcases hd with h | h | ⟨cp, hf, _⟩
    · exact Or.inl h
    · exact Or.inr (Or.inl h)
    · cases hf
  | GB18030 =>
    obtain ⟨out, size, hs, h1, h2, hd⟩ := hg true
    refine ⟨out, size, hs, h1, h2, ?_⟩
    rcases hd with h | h | ⟨cp, _, h4, hl, ho⟩
    · exact Or.inl h
    · exact Or.inr (Or.inl h)
    · exact Or.inr (Or.inr ⟨cp, rfl, h4, hl, ho⟩)
  | UTF8 =>
    obtain ⟨out, size, hs, h1, h2, hd⟩ := utf8Step_step c0 rest
    exact ⟨out, size, hs, h1, h2, hd.imp id Or.inl⟩

/-- The library reads four bytes with a second byte 0x3A under GB18030 as a
character, although the encoding has none there. -/
theorem gb18030_reads_stray_second_byte :
    refDecode exTables Encoding.GB18030 [0x81, 0x3A, 0x81, 0x30] = none ∧
    transformToUtf8 exTables [0x81, 0x3A, 0x81, 0x30] Encoding.GB18030 =
      Except.ok [0xE3, 0x86, 0xB8] ∧
    refDecodeUTF8 [0xE3, 0x86, 0xB8] = some [0x31B8] := by
  refine ⟨by rfl, by rfl, by rfl⟩

/-- C2, amended: for every registered encoding and every byte sequence, valid or
not, `transformToUtf8` returns a nil error and an output that is well-formed
UTF-8; the text of the output is the input decoded with substitution: every
character of the encoding gives its code point, and every part where no
character of the encoding starts gives U+FFFD (under GB18030 the library also
reads four bytes with a second byte 0x3A to 0x3F as a character). So under GBK
and UTF8 the output for an input that is not valid holds U+FFFD. The tables of
the two Chinese encodings are a parameter; the ranges table is in order of its
pointers and starts at pointer 0, as the library's is. -/
theorem C2_invalid_input_is_substituted (T : Tables) (hT : T.rangesSorted) (enc : Encoding)
    (data : List Nat) :
    ∃ bs text, transformToUtf8 T data enc = Except.ok bs ∧ refDecodeUTF8 bs = some text ∧
      Substituted T enc data text ∧
      (refDecode T enc data = none → enc ≠ Encoding.GB18030 → RuneError ∈ text) := by
  have hI := decodeLoop_inv (decodeStep T enc true)
    (fun d out => ∃ text, refDecodeUTF8 out = some text ∧ Substituted T enc d text ∧
      (refDecode T enc d = none → enc ≠ Encoding.GB18030 → RuneError ∈ text))
    ⟨[], rfl, Substituted.done, fun h => by rw [refDecode_nil] at h; cases h⟩
    (by
      intro c0 rest
      obtain ⟨out, size, hs, h1, h2, hd⟩ := decodeStep_step T hT enc c0 rest
      refine ⟨out, size, hs, h1, h2, ?_⟩
      rintro out1 ⟨text1, hu1, hsub, hbad⟩
      rcases hd with ⟨cp, hh, ho⟩ | ⟨hh, ho⟩ | ⟨cp, henc, h4, hl, ho⟩
      · refine ⟨cp :: text1, by rw [ho, hu1]; rfl,
          Substituted.char _ size cp text1 (startsWithChar_of_head T enc _ cp size hh) hsub,
          ?_⟩
        intro hn hne
        rw [refDecode_of_head T enc _ cp size hh] at hn
        cases hr : refDecode T enc ((c0 :: rest).drop size) with
        | none => exact List.mem_cons_of_mem _ (hbad hr hne)
        | some t => rw [hr] at hn; cases hn
      · refine ⟨RuneError :: text1, by rw [ho, refDecodeUTF8_RuneError, hu1]; rfl,
          Substituted.subst _ size text1 h1 (by simpa using h2)
            (not_startsWithChar_of_head T enc _ hh) hsub,
          fun _ _ => List.mem_cons_self _ _⟩
      · obtain ⟨b0, b1, b2, b3, r, hdata, hb0, hb1, hb2, hb3, hpt, hsc⟩ := hl
        refine ⟨cp :: text1, by rw [ho, hu1]; rfl, ?_, fun _ hne => absurd henc hne⟩
        rw [h4, hdata] at hsub
        rw [hdata]
        exact Substituted.lenient b0 b1 b2 b3 cp r text1 henc hb0 hb1 hb2 hb3 hpt hsc hsub)
    data.length data (le_refl _)
  obtain ⟨text, h1, h2, h3⟩ := hI
  exact ⟨(Transform T enc data true).1, text, transformToUtf8_eq T data enc, h1, h2, h3⟩

theorem C2_invalid_input_witness :
    exTables.rangesSorted ∧ refDecode exTables Encoding.GBK [0x41, 0x81] = none ∧
    ∃ bs text, transformToUtf8 exTables [0x41, 0x81] Encoding.GBK = Except.ok bs ∧
      refDecodeUTF8 bs = some text ∧ Substituted exTables Encoding.GBK [0x41, 0x81] text ∧
      (refDecode exTables Encoding.GBK [0x41, 0x81] = none →
        Encoding.GBK ≠ Encoding.GB18030 → RuneError ∈ text) :=
  ⟨⟨by simp [exTables], rfl⟩, rfl,
    C2_invalid_input_is_substituted exTables ⟨by simp [exTables], rfl⟩ Encoding.GBK
      [0x41, 0x81]⟩

/-! ## Entries, nodes and paths of components -/

theorem Entries.find_cons (n : List Char) (v : Node) (rest : Entries) (k : List Char) :
    (Entries.cons n v rest).find k = if n = k then some v else rest.find k := by
  cases v <;> simp [Entries.cons, Entries.find]

theorem Entries.find_set (t : Entries) (n : List Char) (v : Node) (k : List Char) :
    (t.set n v).find k = if n = k then some v else t.find k := by
  induction t with
  | nil => simp [Entries.set, Entries.find_cons, Entries.find]
  | file a m d rest ih =>
    simp only [Entries.set]
    by_cases h : a = n
    · subst h
      simp only [if_true, Entries.find_cons, Entries.find]
      by_cases hk : a = k <;> simp [hk]
    · simp only [if_neg h, Entries.find, ih]
      by_cases hk : a = k
      · have : ¬ n = k := fun e => h (hk.trans e.symm)
        simp [hk, this]
      · simp [hk]
  | dir a m kids rest _ ih =>
    simp only [Entries.set]
    by_cases h : a = n
    · subst h
      simp only [if_true, Entries.find_cons, Entries.find]
      by_cases hk : a = k <;> simp [hk]
    · simp only [if_neg h, Entries.find, ih]
      by_cases hk : a = k
      · have : ¬ n = k := fun e => h (hk.trans e.symm)
        simp [hk, this]
      · simp [hk]

theorem Node.get_nil (v : Node) : v.get [] = some v := by
  cases v <;> rfl

theorem Node.get_file_cons (m : Nat) (d : List Nat) (c : List Char) (cs : List (List Char)) :
    (Node.file m d).get (c :: cs) = none := rfl

theorem Node.get_dir_cons (m : Nat) (kids : Entries) (c : List Char) (cs : List (List Char)) :
    (Node.dir m kids).get (c :: cs) = (kids.find c).bind (fun v => v.get cs) := by
  simp only [Node.get]
  cases kids.find c <;> rfl

theorem Node.get_append (fs : Node) (p q : List (List Char)) :
    fs.get (p ++ q) = (fs.get p).bind (fun v => v.get q) := by
  induction p generalizing fs with
  | nil => simp [Node.get_nil]
  | cons c cs ih =>
    cases fs with
    | file m d => simp [Node.get_file_cons]
    | dir m kids =>
      simp only [List.cons_append, Node.get_dir_cons]
      cases kids.find c with
      | none => rfl
      | some v => simp [ih]

theorem Node.put_nil (v fs : Node) : Node.put v fs [] = v := by
  cases fs <;> rfl

theorem Node.put_file (v : Node) (m : Nat) (d : List Nat) (c : List Char)
    (cs : List (List Char)) : Node.put v (Node.file m d) (c :: cs) = Node.file m d := rfl

theorem Node.put_dir_single (v : Node) (m : Nat) (kids : Entries) (c : List Char) :
    Node.put v (Node.dir m kids) [c] = Node.dir m (kids.set c v) := rfl

theorem Node.put_dir_cons (v : Node) (m : Nat) (kids : Entries) (c c1 : List Char)
    (cs : List (List Char)) :
    Node.put v (Node.dir m kids) (c :: c1 :: cs) =
      match kids.find c with
      | none => Node.dir m kids
      | some w => Node.dir m (kids.set c (Node.put v w (c1 :: cs))) := rfl

/-- The view at the root does not change when a node is put at a path below. -/
theorem Node.view_put_cons (v fs : Node) (c : List Char) (cs : List (List Char)) :
    (Node.put v fs (c :: cs)).view = fs.view := by
  cases fs with
  | file m d => rfl
  | dir m kids =>
    cases cs with
    | nil => rfl
    | cons c1 cs =>
      rw [Node.put_dir_cons]
      cases kids.find c <;> rfl

/-- Putting a node at a path whose parent is a directory makes it the node there. -/
theorem Node.get_put_append (v : Node) (p r : List (List Char)) :
    ∀ fs : Node, (p ≠ [] → ∃ m k, fs.get p.dropLast = some (Node.dir m k)) →
      (Node.put v fs p).get (p ++ r) = v.get r := by
  induction p with
  | nil => intro fs _; simp [Node.put_nil]
  | cons c cs ih =>
    intro fs h
    obtain ⟨m, k, hpar⟩ := h (by simp)
    cases cs with
    | nil =>
      simp only [List.dropLast_single, Node.get_nil, Option.some.injEq] at hpar
      subst hpar
      simp [Node.put_dir_single, Node.get_dir_cons, Entries.find_set]
    | cons c1 cs =>
      cases fs with
      | file m0 d0 => simp [List.dropLast, Node.get_file_cons] at hpar
      | dir m0 kids =>
        simp only [List.dropLast_cons₂, Node.get_dir_cons] at hpar
        rw [Node.put_dir_cons]
        cases hf : kids.find c with
        | none => simp [hf] at hpar
        | some w =>
          simp only [hf, Option.some_bind] at hpar
          simp only [List.cons_append, Node.get_dir_cons, Entries.find_set, if_true,
            Option.some_bind]
          have := ih w (fun _ => ⟨m, k, hpar⟩)
          simpa using this

theorem viewAt_nil (fs : Node) : viewAt fs [] = some fs.view := by
  simp [viewAt, Node.get_nil]

theorem viewAt_dir_cons (m : Nat) (kids : Entries) (c : List Char) (cs : List (List Char)) :
    viewAt (Node.dir m kids) (c :: cs) = (kids.find c).bind (fun v => viewAt v cs) := by
  simp only [viewAt, Node.get_dir_cons]
  cases kids.find c <;> rfl

/-- Putting a node at a path changes no view at a path that does not pass
through it. -/
theorem viewAt_put_apart (v : Node) (p : List (List Char)) :
    ∀ (fs : Node) (q : List (List Char)), ¬ p <+: q →
      viewAt (Node.put v fs p) q = viewAt fs q := by
  induction p with
  | nil => intro fs q h; exact absurd (List.nil_prefix) h
  | cons c cs ih =>
    intro fs q h
    cases q with
    | nil => simp [viewAt_nil, Node.view_put_cons]
    | cons c' q' =>
      cases fs with
      | file m d => rfl
      | dir m kids =>
        cases cs with
        | nil =>
          have hne : ¬ c = c' := by
            intro e; subst e; exact h (by simp)
          simp [Node.put_dir_single, viewAt_dir_cons, Entries.find_set, hne]
        | cons c1 cs1 =>
          rw [Node.put_dir_cons]
          cases hf : kids.find c with
          | none => rfl
          | some w =>
            simp only [viewAt_dir_cons, Entries.find_set]
            by_cases hc : c = c'
            · subst hc
              have h' : ¬ (c1 :: cs1) <+: q' := by
                intro hp; exact h (by simpa using hp)
              simp [hf, ih w q' h']
            · simp [hc]

/-- Putting a node at a path changes no node at a path that parts from it. -/
theorem Node.get_put_diverge (v : Node) (p : List (List Char)) :
    ∀ (fs : Node) (q : List (List Char)), ¬ p <+: q → ¬ q <+: p →
      (Node.put v fs p).get q = fs.get q := by
  induction p with
  | nil => intro fs q h; exact absurd (List.nil_prefix) h
  | cons c cs ih =>
    intro fs q h h2
    cases q with
    | nil => exact absurd (List.nil_prefix) h2
    | cons c' q' =>
      cases fs with
      | file m d => rfl
      | dir m kids =>
        cases cs with
        | nil =>
          have hne : ¬ c = c' := by
            intro e; subst e; exact h (by simp)
          simp [Node.put_dir_single, Node.get_dir_cons, Entries.find_set, hne]
        | cons c1 cs1 =>
          rw [Node.put_dir_cons]
          cases hf : kids.find c with
          | none => rfl
          | some w =>
            simp only [Node.get_dir_cons, Entries.find_set]
            by_cases hc : c = c'
            · subst hc
              have h' : ¬ (c1 :: cs1) <+: q' := by
                intro hp; exact h (by simpa using hp)
              have h2' : ¬ q' <+: (c1 :: cs1) := by
                intro hp; exact h2 (by simpa using hp)
              simp [hf, ih w q' h' h2']
            · simp [hc]

/-- The views along and below a path after a node was put there, when the
parent of the path is a directory. -/
theorem viewAt_put (v fs : Node) (p q : List (List Char))
    (hpar : p ≠ [] → ∃ m k, fs.get p.dropLast = some (Node.dir m k)) :
    viewAt (Node.put v fs p) q =
      if p <+: q then viewAt v (q.drop p.length) else viewAt fs q := by
  by_cases h : p <+: q
  · obtain ⟨r, rfl⟩ := h
    simp only [viewAt, Node.get_put_append v p r fs hpar, List.prefix_append, if_true,
      List.drop_left]
  · rw [if_neg h]; exact viewAt_put_apart v p fs q h

/-! ## Path resolution -/

theorem resolve_nil (fs : Node) : resolve fs [] = Except.ok fs := by
  cases fs <;> rfl

theorem resolve_dir_cons (m : Nat) (kids : Entries) (c : List Char) (cs : List (List Char)) :
    resolve (Node.dir m kids) (c :: cs) =
      if canSearch m = true then
        match kids.find c with
        | none => Except.error GoError.ENOENT
        | some v => resolve v cs
      else Except.error GoError.EACCES := rfl

theorem resolve_file_cons (m : Nat) (d : List Nat) (c : List Char) (cs : List (List Char)) :
    resolve (Node.file m d) (c :: cs) = Except.error GoError.ENOTDIR := rfl

theorem resolve_append (p q : List (List Char)) :
    ∀ fs : Node, resolve fs (p ++ q) =
      match resolve fs p with
      | Except.ok v => resolve v q
      | Except.error e => Except.error e := by
  induction p with
  | nil => intro fs; simp [resolve_nil]
  | cons c cs ih =>
    intro fs
    cases fs with
    | file m d => rfl
    | dir m kids =>
      simp only [List.cons_append, resolve_dir_cons]
      by_cases hs : canSearch m = true
      · simp only [hs, if_true]
        cases kids.find c with
        | none => rfl
        | some v => exact ih v
      · simp only [hs]; rfl

theorem resolve_get (p : List (List Char)) :
    ∀ (fs n : Node), resolve fs p = Except.ok n → fs.get p = some n := by
  induction p with
  | nil => intro fs n h; simp [resolve_nil] at h; simp [Node.get_nil, h]
  | cons c cs ih =>
    intro fs n h
    cases fs with
    | file m d => simp [resolve_file_cons] at h
    | dir m kids =>
      rw [resolve_dir_cons] at h
      by_cases hs : canSearch m = true
      · simp only [hs, if_true] at h
        cases hf : kids.find c with
        | none => simp [hf] at h
        | some v =>
          simp only [hf] at h
          simp [Node.get_dir_cons, hf, ih v n h]
      · simp [hs] at h

theorem searchable_nil (fs : Node) : searchable fs [] := by
  intro q hq hne
  exact absurd (List.prefix_nil.mp hq) hne

theorem searchable_cons {m : Nat} {kids : Entries} {c : List Char} {cs : List (List Char)}
    {v : Node} (hf : kids.find c = some v) (h : searchable (Node.dir m kids) (c :: cs)) :
    canSearch m = true ∧ searchable v cs := by
  constructor
  · obtain ⟨m', hv, hs⟩ := h [] List.nil_prefix (by simp)
    simp [viewAt_nil, Node.view] at hv
    subst hv; exact hs
  · intro q hq hne
    obtain ⟨m', hv, hs⟩ := h (c :: q) (by simpa using hq) (by simpa using hne)
    simp only [viewAt_dir_cons, hf, Option.some_bind] at hv
    exact ⟨m', hv, hs⟩

theorem resolve_of_searchable (p : List (List Char)) :
    ∀ fs : Node, searchable fs p →
      resolve fs p = match fs.get p with
        | some n => Except.ok n
        | none => Except.error GoError.ENOENT := by
  induction p with
  | nil => intro fs _; simp [resolve_nil, Node.get_nil]
  | cons c cs ih =>
    intro fs h
    cases fs with
    | file m d =>
      obtain ⟨m', hv, _⟩ := h [] List.nil_prefix (by simp)
      simp [viewAt_nil, Node.view] at hv
    | dir m kids =>
      rw [resolve_dir_cons, Node.get_dir_cons]
      cases hf : kids.find c with
      | none =>
        obtain ⟨m', hv, hs⟩ := h [] List.nil_prefix (by simp)
        simp [viewAt_nil, Node.view] at hv
        subst hv
        simp [hs]
      | some v =>
        obtain ⟨hs, hrest⟩ := searchable_cons hf h
        simp only [hs, if_true, Option.some_bind]
        exact ih v hrest

theorem searchable_of_resolve (p : List (List Char)) :
    ∀ (fs n : Node), resolve fs p = Except.ok n → searchable fs p := by
  induction p with
  | nil => intro fs n _; exact searchable_nil fs
  | cons c cs ih =>
    intro fs n h
    cases fs with
    | file m d => simp [resolve_file_cons] at h
    | dir m kids =>
      rw [resolve_dir_cons] at h
      by_cases hs : canSearch m = true
      · simp only [hs, if_true] at h
        cases hf : kids.find c with
        | none => simp [hf] at h
        | some v =>
          simp only [hf] at h
          have hrec := ih v n h
          intro q hq hne
          cases q with
          | nil => exact ⟨m, by simp [viewAt_nil, Node.view], hs⟩
          | cons c' q' =>
            have hq' : c' = c ∧ q' <+: cs := by simpa using hq
            obtain ⟨hc, hq''⟩ := hq'
            subst hc
            obtain ⟨m', hv, hs'⟩ := hrec q' hq'' (by intro e; exact hne (by rw [e]))
            exact ⟨m', by simp [viewAt_dir_cons, hf, hv], hs'⟩
      · simp [hs] at h

/-! ## Paths as strings -/

theorem rawSplit_ne_nil (s : List Char) : rawSplit s ≠ [] := by
  cases s with
  | nil => simp [rawSplit]
  | cons c s =>
    simp only [rawSplit]
    split_ifs
    · simp
    · split <;> simp

theorem rawSplit_append_slash (a b : List Char) :
    rawSplit (a ++ '/' :: b) = rawSplit a ++ rawSplit b := by
  induction a with
  | nil => simp [rawSplit]
  | cons c a ih =>
    simp only [List.cons_append, rawSplit]
    by_cases hc : c = '/'
    · simp [hc, ih]
    · simp only [hc, if_false, List.append_eq]
      rw [ih]
      cases hr : rawSplit a with
      | nil => exact absurd hr (rawSplit_ne_nil a)
      | cons h t => simp

theorem rawSplit_of_noslash (n : List Char) (h : '/' ∉ n) : rawSplit n = [n] := by
  induction n with
  | nil => rfl
  | cons c n ih =>
    have hc : ¬ c = '/' := by
      intro e; exact h (by simp [e])
    have hn : '/' ∉ n := by
      intro e; exact h (by simp [e])
    simp [rawSplit, hc, ih hn]

theorem rawSplit_name_pathFlat (cs : List (List Char)) :
    ∀ c : List Char, '/' ∉ c → (∀ d ∈ cs, validName d) →
      rawSplit (c ++ pathFlat cs) = c :: cs := by
  induction cs with
  | nil => intro c hc _; simp [pathFlat, rawSplit_of_noslash c hc]
  | cons d ds ih =>
    intro c hc hv
    have hd := hv d (by simp)
    simp only [pathFlat, List.cons_append]
    rw [rawSplit_append_slash, rawSplit_of_noslash c hc,
      ih d hd.2 (fun e he => hv e (by simp [he]))]
    simp

theorem splitPath_pathOf (cs : List (List Char)) (hv : ∀ d ∈ cs, validName d) :
    splitPath (pathOf cs) = cs := by
  cases cs with
  | nil => simp [pathOf, splitPath, rawSplit]
  | cons c cs =>
    have hc := hv c (by simp)
    have h := rawSplit_name_pathFlat cs c hc.2 (fun e he => hv e (by simp [he]))
    have hall : ∀ d ∈ c :: cs, (fun e : List Char => decide (e ≠ [])) d = true := by
      intro d hd
      have := (hv d hd).1
      simp [this]
    have hf := List.filter_eq_self.mpr hall
    simp only [pathOf, splitPath, pathFlat, rawSplit, if_true, List.cons_ne_nil, if_false,
      List.cons_append, List.append_eq]
    rw [h, List.filter_cons_of_neg (by simp)]
    exact hf

theorem pathFlat_append (a b : List (List Char)) :
    pathFlat (a ++ b) = pathFlat a ++ pathFlat b := by
  induction a with
  | nil => rfl
  | cons c a ih => simp [pathFlat, ih]

theorem pathFlat_ne_nil {cs : List (List Char)} (h : cs ≠ []) : pathFlat cs ≠ [] := by
  cases cs with
  | nil => exact absurd rfl h
  | cons c cs => simp [pathFlat]

theorem pathOf_ne_nil (cs : List (List Char)) : pathOf cs ≠ [] := by
  unfold pathOf
  split_ifs with h
  · simp
  · exact pathFlat_ne_nil h

theorem pathOf_append {a : List (List Char)} (h : a ≠ []) (b : List (List Char)) :
    pathOf (a ++ b) = pathOf a ++ pathFlat b := by
  have : a ++ b ≠ [] := by simp [h]
  simp [pathOf, h, this, pathFlat_append]

theorem Join_pathOf {cs : List (List Char)} (h : cs ≠ []) (hv : ∀ d ∈ cs, validName d)
    (n : List Char) : Join (pathOf cs) n = pathOf (cs ++ [n]) := by
  rw [pathOf_append h]
  have hne : pathOf cs ≠ ['/'] := by
    cases cs with
    | nil => exact absurd rfl h
    | cons c cs =>
      have hc := (hv c (by simp)).1
      cases c with
      | nil => exact absurd rfl hc
      | cons x c => simp [pathOf, pathFlat]
  simp [Join, hne, pathFlat]

/-- The new path the walk function computes for a path below the source root. -/
theorem Replace_pathOf {sc dc : List (List Char)} (hs : sc ≠ []) (hd : dc ≠ [])
    (rel : List (List Char)) :
    Replace (pathOf (sc ++ rel)) (pathOf sc) (pathOf dc) 1 = pathOf (dc ++ rel) := by
  rw [pathOf_append hs, pathOf_append hd, Replace_at_start _ _ _ (pathOf_ne_nil sc)]

/-! ## Putting nodes below a node that was put -/

theorem Entries.set_cons_same (n : List Char) (a b : Node) (rest : Entries) :
    (Entries.cons n b rest).set n a = Entries.cons n a rest := by
  cases b <;> simp [Entries.cons, Entries.set]

theorem Entries.set_set (t : Entries) (n : List Char) (a b : Node) :
    (t.set n b).set n a = t.set n a := by
  induction t with
  | nil => simp [Entries.set, Entries.set_cons_same]
  | file x m d rest ih =>
    by_cases h : x = n
    · subst h; simp [Entries.set, Entries.set_cons_same]
    · simp [Entries.set, h, ih]
  | dir x m kids rest _ ih =>
    by_cases h : x = n
    · subst h; simp [Entries.set, Entries.set_cons_same]
    · simp [Entries.set, h, ih]

theorem Node.put_put_same (a b : Node) (p : List (List Char)) :
    ∀ fs : Node, Node.put a (Node.put b fs p) p = Node.put a fs p := by
  induction p with
  | nil => intro fs; simp [Node.put_nil]
  | cons c cs ih =>
    intro fs
    cases fs with
    | file m d => rfl
    | dir m kids =>
      cases cs with
      | nil => simp [Node.put_dir_single, Entries.set_set]
      | cons c1 cs1 =>
        rw [Node.put_dir_cons]
        cases hf : kids.find c with
        | none => simp [Node.put_dir_cons, hf]
        | some x =>
          simp only [Node.put_dir_cons, Entries.find_set, if_true, hf, Entries.set_set]
          rw [ih x]

theorem Node.put_append (v : Node) (p r : List (List Char)) :
    ∀ fs w : Node, fs.get p = some w →
      Node.put v fs (p ++ r) = Node.put (Node.put v w r) fs p := by
  induction p with
  | nil =>
    intro fs w h
    simp only [Node.get_nil, Option.some.injEq] at h
    subst h
    simp [Node.put_nil]
  | cons c cs ih =>
    intro fs w h
    cases fs with
    | file m d => simp [Node.get_file_cons] at h
    | dir m kids =>
      rw [Node.get_dir_cons] at h
      cases hf : kids.find c with
      | none => simp [hf] at h
      | some x =>
        simp only [hf, Option.some_bind] at h
        cases cs with
        | nil =>
          simp only [Node.get_nil, Option.some.injEq] at h
          subst h
          cases r with
          | nil => simp [Node.put_nil]
          | cons c1 r1 =>
            simp [Node.put_dir_cons, Node.put_dir_single, hf]
        | cons c1 cs1 =>
          have := ih x w h
          simp only [List.cons_append] at this ⊢
          simp only [Node.put_dir_cons, hf, this]

theorem resolve_put_diverge (v : Node) (p : List (List Char)) :
    ∀ (fs : Node) (q : List (List Char)), ¬ p <+: q → ¬ q <+: p →
      resolve (Node.put v fs p) q = resolve fs q := by
  induction p with
  | nil => intro fs q h; exact absurd (List.nil_prefix) h
  | cons c cs ih =>
    intro fs q h h2
    cases q with
    | nil => exact absurd (List.nil_prefix) h2
    | cons c' q' =>
      cases fs with
      | file m d => rfl
      | dir m kids =>
        cases cs with
        | nil =>
          have hne : ¬ c = c' := by
            intro e; subst e; exact h (by simp)
          simp [Node.put_dir_single, resolve_dir_cons, Entries.find_set, hne]
        | cons c1 cs1 =>
          rw [Node.put_dir_cons]
          cases hf : kids.find c with
          | none => rfl
          | some w =>
            simp only [resolve_dir_cons, Entries.find_set]
            by_cases hc : c = c'
            · subst hc
              have h' : ¬ (c1 :: cs1) <+: q' := by
                intro hp; exact h (by simpa using hp)
              have h2' : ¬ q' <+: (c1 :: cs1) := by
                intro hp; exact h2 (by simpa using hp)
              simp [hf, ih w q' h' h2']
            · simp [hc]

theorem searchable_put (v fs : Node) (p q : List (List Char)) (hq : q <+: p)
    (h : searchable fs q) : searchable (Node.put v fs p) q := by
  intro x hx hne
  obtain ⟨m, hv, hs⟩ := h x hx hne
  refine ⟨m, ?_, hs⟩
  rw [viewAt_put_apart v p fs x ?_]
  · exact hv
  · intro hpx
    have h1 : p <+: q := hpx.trans hx
    have h2 : q = p := List.IsPrefix.eq_of_length_le hq h1.length_le
    have h3 : x.length ≤ q.length := hx.length_le
    have h4 : p.length ≤ x.length := hpx.length_le
    rw [h2] at hx h3
    exact hne (by rw [h2]; exact List.IsPrefix.eq_of_length_le hx (by omega) |>.symm ▸ rfl)

theorem resolve_put_self (v fs : Node) (p : List (List Char)) (hs : searchable fs p)
    (hpar : p ≠ [] → ∃ m k, fs.get p.dropLast = some (Node.dir m k)) :
    resolve (Node.put v fs p) p = Except.ok v := by
  rw [resolve_of_searchable p _ (searchable_put v fs p p (List.prefix_refl p) hs)]
  have := Node.get_put_append v p [] fs hpar
  simp only [List.append_nil, Node.get_nil] at this
  rw [this]

theorem resolve_put_below (v fs : Node) (p r : List (List Char)) (hs : searchable fs p)
    (hpar : p ≠ [] → ∃ m k, fs.get p.dropLast = some (Node.dir m k)) :
    resolve (Node.put v fs p) (p ++ r) = resolve v r := by
  rw [resolve_append, resolve_put_self v fs p hs hpar]

/-! ## The operations in the cases the walk meets -/

theorem mkdirAllRev_exists (u perm : Nat) (fs : FS) (rp : List (List Char)) (m : Nat)
    (k : Entries) (h : resolve fs rp.reverse = Except.ok (Node.dir m k)) :
    mkdirAllRev u perm rp fs = (fs, none) := by
  cases rp with
  | nil =>
    simp only [List.reverse_nil] at h
    simp [mkdirAllRev, h, Node.info]
  | cons c parent =>
    simp only [mkdirAllRev, h, Node.info, if_true]

theorem mkdirAt_new (u perm : Nat) (fs : FS) (p : List (List Char))
    (h1 : resolve fs p = Except.error GoError.ENOENT) (pm : Nat) (pk : Entries)
    (h2 : resolve fs p.dropLast = Except.ok (Node.dir pm pk)) :
    mkdirAt u fs p perm =
      if canWrite pm = true then
        Except.ok (Node.put (Node.dir (mkdirMode u pm perm) Entries.nil) fs p)
      else Except.error GoError.EACCES := by
  simp [mkdirAt, h1, h2]

theorem mkdirAllRev_new (u perm : Nat) (fs : FS) (p : List (List Char)) (hp : p ≠ [])
    (h1 : resolve fs p = Except.error GoError.ENOENT) (pm : Nat) (pk : Entries)
    (h2 : resolve fs p.dropLast = Except.ok (Node.dir pm pk)) :
    mkdirAllRev u perm p.reverse fs =
      if canWrite pm = true then
        (Node.put (Node.dir (mkdirMode u pm perm) Entries.nil) fs p, none)
      else (fs, some GoError.EACCES) := by
  obtain ⟨q, c, rfl⟩ : ∃ q c, p = q ++ [c] :=
    ⟨p.dropLast, p.getLast hp, (List.dropLast_append_getLast hp).symm⟩
  simp only [List.dropLast_concat] at h2
  have hrev : (q ++ [c]).reverse = c :: q.reverse := by simp
  have hback : (c :: q.reverse).reverse = q ++ [c] := by simp
  rw [hrev]
  have hpar : (if q.reverse = [] then (fs, (none : Option GoError))
      else mkdirAllRev u perm q.reverse fs) = (fs, none) := by
    split_ifs
    · rfl
    · exact mkdirAllRev_exists u perm fs q.reverse pm pk (by simpa using h2)
  have hmk := mkdirAt_new u perm fs (q ++ [c]) h1 pm pk (by simpa using h2)
  simp only [mkdirAllRev, hback, h1, hpar, hmk]
  by_cases hw : canWrite pm = true
  · simp [hw]
  · simp [hw]

theorem WriteFile_new (u perm : Nat) (fs : FS) (path : List Char) (data : List Nat)
    (h1 : resolve fs (splitPath path) = Except.error GoError.ENOENT) (pm : Nat) (pk : Entries)
    (h2 : resolve fs (splitPath path).dropLast = Except.ok (Node.dir pm pk)) :
    WriteFile u fs path data perm =
      if canWrite pm = true then
        Except.ok (Node.put (Node.file (createMode u perm) data) fs (splitPath path))
      else Except.error GoError.EACCES := by
  simp [WriteFile, h1, h2]

theorem WriteFile_old (u perm : Nat) (fs : FS) (path : List Char) (data : List Nat)
    (m : Nat) (d : List Nat)
    (h1 : resolve fs (splitPath path) = Except.ok (Node.file m d)) :
    WriteFile u fs path data perm =
      if canWrite m = true then
        Except.ok (Node.put (Node.file m data) fs (splitPath path))
      else Except.error GoError.EACCES := by
  simp [WriteFile, h1]

/-! ## Permission bits after the umask -/

theorem canRead_eq_testBit (m : Nat) : canRead m = m.testBit 8 := by
  unfold canRead; rw [Nat.testBit_to_div_mod]

theorem canWrite_eq_testBit (m : Nat) : canWrite m = m.testBit 7 := by
  unfold canWrite; rw [Nat.testBit_to_div_mod]

theorem canSearch_eq_testBit (m : Nat) : canSearch m = m.testBit 6 := by
  unfold canSearch; rw [Nat.testBit_to_div_mod]

theorem testBit_mkdirMode (u p m i : Nat) :
    (mkdirMode u p m).testBit i =
      ((decide (i < 10) && m.testBit i && !(decide (i < 9) && u.testBit i)) ||
        (p.testBit i && decide (i = 10))) := by
  unfold mkdirMode
  have e1 : (0o2000 : Nat) = 2 ^ 10 := by norm_num
  have e2 : (0o1777 : Nat) = 2 ^ 10 - 1 := by norm_num
  have e3 : (0o1000 : Nat) = 2 ^ 9 := by norm_num
  rw [e1, e2, e3]
  simp only [Nat.testBit_or, Nat.testBit_and, Nat.testBit_xor, Nat.testBit_mod_two_pow,
    Nat.testBit_two_pow_sub_one, Nat.testBit_two_pow]
  by_cases h10 : i < 10 <;> by_cases h9 : i < 9 <;> by_cases he : i = 10 <;>
    simp [h10, h9, he] <;> omega

theorem umask_testBit (u i : Nat) (hu : u % 0o1000 < 0o100) (h6 : 6 ≤ i) (h9 : i < 9) :
    u.testBit i = false := by
  have h : (u % 2 ^ 9).testBit i = false :=
    Nat.testBit_lt_two_pow (lt_of_lt_of_le hu (by
      calc (0o100 : Nat) = 2 ^ 6 := by norm_num
        _ ≤ 2 ^ i := Nat.pow_le_pow_right (by norm_num) h6))
  rw [Nat.testBit_mod_two_pow] at h
  simpa [h9] using h

theorem canRead_mkdirMode (u p m : Nat) (hu : u % 0o1000 < 0o100) :
    canRead (mkdirMode u p m) = canRead m := by
  rw [canRead_eq_testBit, canRead_eq_testBit, testBit_mkdirMode,
    umask_testBit u 8 hu (by norm_num) (by norm_num)]
  simp

theorem canWrite_mkdirMode (u p m : Nat) (hu : u % 0o1000 < 0o100) :
    canWrite (mkdirMode u p m) = canWrite m := by
  rw [canWrite_eq_testBit, canWrite_eq_testBit, testBit_mkdirMode,
    umask_testBit u 7 hu (by norm_num) (by norm_num)]
  simp

theorem canSearch_mkdirMode (u p m : Nat) (hu : u % 0o1000 < 0o100) :
    canSearch (mkdirMode u p m) = canSearch m := by
  rw [canSearch_eq_testBit, canSearch_eq_testBit, testBit_mkdirMode,
    umask_testBit u 6 hu (by norm_num) (by norm_num)]
  simp

theorem mkdirMode_parent (u p q m : Nat) :
    mkdirMode u (mkdirMode u p q) m = mkdirMode u p m := by
  apply Nat.eq_of_testBit_eq
  intro i
  rw [testBit_mkdirMode, testBit_mkdirMode, testBit_mkdirMode]
  by_cases he : i = 10
  · subst he; simp
  · simp [he]

theorem canWrite_newFile (u : Nat) (hu : u % 0o1000 < 0o100) :
    canWrite (createMode u 0o666) = true := by
  rw [canWrite_eq_testBit]
  unfold createMode
  have e2 : (0o7777 : Nat) = 2 ^ 12 - 1 := by norm_num
  have e3 : (0o1000 : Nat) = 2 ^ 9 := by norm_num
  have hb := umask_testBit u 7 hu (by norm_num) (by norm_num)
  rw [e2, e3]
  simp only [Nat.testBit_and, Nat.testBit_xor, Nat.testBit_mod_two_pow,
    Nat.testBit_two_pow_sub_one, hb]
  decide

theorem Ctx.ok.canRead_mir {c : Ctx} (h : c.ok) (m : Nat) : canRead (c.mir m) = canRead m :=
  canRead_mkdirMode _ _ _ h.own

theorem Ctx.ok.canWrite_mir {c : Ctx} (h : c.ok) (m : Nat) : canWrite (c.mir m) = canWrite m :=
  canWrite_mkdirMode _ _ _ h.own

theorem Ctx.ok.canSearch_mir {c : Ctx} (h : c.ok) (m : Nat) :
    canSearch (c.mir m) = canSearch m :=
  canSearch_mkdirMode _ _ _ h.own

theorem Ctx.mir_parent (c : Ctx) (pm m : Nat) : mkdirMode c.umask (c.mir pm) m = c.mir m :=
  mkdirMode_parent _ _ _ _

/-! ## Facts of a context -/

theorem prefix_dropLast_of_ne {α : Type} {q p : List α} (h : q <+: p) (hne : q ≠ p) :
    q <+: p.dropLast := by
  obtain ⟨r, rfl⟩ := h
  have hr : r ≠ [] := by
    intro e; subst e; exact hne (by simp)
  rw [List.dropLast_append_of_ne_nil _ hr]
  exact List.prefix_append _ _

theorem Ctx.ok.sc_ne {c : Ctx} (h : c.ok) : c.sc ≠ [] := by
  intro e; exact h.disj1 (by rw [e]; exact List.nil_prefix)

theorem Ctx.ok.dc_ne {c : Ctx} (h : c.ok) : c.dc ≠ [] := by
  intro e; exact h.disj2 (by rw [e]; exact List.nil_prefix)

theorem Ctx.ok.dstParGet {c : Ctx} (h : c.ok) :
    ∃ m k, c.base.get c.dc.dropLast = some (Node.dir m k) := by
  obtain ⟨pm, pk, hr, _, _⟩ := h.dstPar
  exact ⟨pm, pk, resolve_get _ _ _ hr⟩

theorem Ctx.ok.searchableDst {c : Ctx} (h : c.ok) : searchable c.base c.dc := by
  obtain ⟨pm, pk, hr, hs, _⟩ := h.dstPar
  have hsp := searchable_of_resolve _ _ _ hr
  intro q hq hne
  by_cases he : q = c.dc.dropLast
  · subst he
    exact ⟨pm, by simp [viewAt, resolve_get _ _ _ hr, Node.view], hs⟩
  · exact hsp q (prefix_dropLast_of_ne hq hne) he

theorem Ctx.ok.srcResolve {c : Ctx} (h : c.ok) (dn : Node) (rel : List (List Char)) :
    resolve (Node.put dn c.base c.dc) (c.sc ++ rel) = resolve c.S rel := by
  rw [resolve_append, resolve_put_diverge dn c.dc c.base c.sc h.disj2 h.disj1, h.srcRes]

theorem Ctx.ok.dstResolve {c : Ctx} (h : c.ok) (dn : Node) (rel : List (List Char)) :
    resolve (Node.put dn c.base c.dc) (c.dc ++ rel) = resolve dn rel :=
  resolve_put_below dn c.base c.dc rel h.searchableDst (fun _ => h.dstParGet)

theorem Ctx.ok.dstGet {c : Ctx} (h : c.ok) (dn : Node) :
    (Node.put dn c.base c.dc).get c.dc = some dn := by
  have := Node.get_put_append dn c.dc [] c.base (fun _ => h.dstParGet)
  simpa [Node.get_nil] using this

theorem Ctx.ok.dstPut {c : Ctx} (h : c.ok) (v dn : Node) (rel : List (List Char)) :
    Node.put v (Node.put dn c.base c.dc) (c.dc ++ rel) =
      Node.put (Node.put v dn rel) c.base c.dc := by
  rw [Node.put_append v c.dc rel _ dn (h.dstGet dn), Node.put_put_same]

/-! ## Names and prefixes in the source tree -/

theorem Entries.validName_of_find (t : Entries) (n : List Char) (v : Node)
    (hv : t.validNames) (hf : t.find n = some v) : validName n ∧ v.validNames := by
  induction t with
  | nil => simp [Entries.find] at hf
  | file a m d rest ih =>
    simp only [Entries.find] at hf
    by_cases h : a = n
    · simp only [h, if_true, Option.some.injEq] at hf
      subst hf; subst h
      exact ⟨hv.1, trivial⟩
    · simp only [h, if_false] at hf
      exact ih hv.2 hf
  | dir a m kids rest _ ih =>
    simp only [Entries.find] at hf
    by_cases h : a = n
    · simp only [h, if_true, Option.some.injEq] at hf
      subst hf; subst h
      exact ⟨hv.1, hv.2.1⟩
    · simp only [h, if_false] at hf
      exact ih hv.2.2 hf

theorem Node.validNames_of_get (rel : List (List Char)) :
    ∀ (S v : Node), S.validNames → S.get rel = some v →
      (∀ d ∈ rel, validName d) ∧ v.validNames := by
  induction rel with
  | nil =>
    intro S v hv hg
    simp only [Node.get_nil, Option.some.injEq] at hg
    subst hg
    exact ⟨by simp, hv⟩
  | cons c cs ih =>
    intro S v hv hg
    cases S with
    | file m d => simp [Node.get_file_cons] at hg
    | dir m kids =>
      rw [Node.get_dir_cons] at hg
      cases hf : kids.find c with
      | none => simp [hf] at hg
      | some w =>
        simp only [hf, Option.some_bind] at hg
        obtain ⟨hc, hw⟩ := Entries.validName_of_find kids c w hv hf
        obtain ⟨hcs, hv'⟩ := ih w v hw hg
        refine ⟨?_, hv'⟩
        intro d hd
        rcases List.mem_cons.mp hd with h | h
        · rw [h]; exact hc
        · exact hcs d h

theorem Node.get_file_below {S : Node} {rel r : List (List Char)} {m : Nat} {d : List Nat}
    (h : S.get rel = some (Node.file m d)) (hr : r ≠ []) : S.get (rel ++ r) = none := by
  rw [Node.get_append, h]
  cases r with
  | nil => exact absurd rfl hr
  | cons a r => rfl

theorem Node.get_prefix_dir {S : Node} {rel r : List (List Char)} {v : Node}
    (h : S.get (rel ++ r) = some v) (hr : r ≠ []) : ∃ m k, S.get rel = some (Node.dir m k) := by
  rw [Node.get_append] at h
  cases hg : S.get rel with
  | none => simp [hg] at h
  | some w =>
    cases w with
    | file m d =>
      cases r with
      | nil => exact absurd rfl hr
      | cons a r => simp [hg, Node.get_file_cons] at h
    | dir m k => exact ⟨m, k, rfl⟩

/-! ## Tidy nodes -/

theorem Entries.tidy_cons (n : List Char) (v : Node) (rest : Entries) :
    (Entries.cons n v rest).tidy ↔ v.tidy ∧ rest.tidy := by
  cases v with
  | file m d => simp [Entries.cons, Entries.tidy, Node.tidy]
  | dir m k => simp [Entries.cons, Entries.tidy, Node.tidy, and_assoc]

theorem Entries.tidy_set (t : Entries) (n : List Char) (v : Node) (ht : t.tidy)
    (hv : v.tidy) : (t.set n v).tidy := by
  induction t with
  | nil => simp [Entries.set, Entries.tidy_cons, hv, Entries.tidy]
  | file a m d rest ih =>
    simp only [Entries.tidy] at ht
    by_cases h : a = n
    · simp [Entries.set, h, Entries.tidy_cons, hv, ht]
    · simp [Entries.set, h, Entries.tidy, ih ht]
  | dir a m kids rest _ ih =>
    simp only [Entries.tidy] at ht
    by_cases h : a = n
    · simp [Entries.set, h, Entries.tidy_cons, hv, ht.2.2]
    · simp [Entries.set, h, Entries.tidy, ih ht.2.2, ht.1, ht.2.1]

theorem Entries.tidy_find (t : Entries) (n : List Char) (v : Node) (ht : t.tidy)
    (hf : t.find n = some v) : v.tidy := by
  induction t with
  | nil => simp [Entries.find] at hf
  | file a m d rest ih =>
    simp only [Entries.tidy] at ht
    simp only [Entries.find] at hf
    by_cases h : a = n
    · simp only [h, if_true, Option.some.injEq] at hf
      subst hf; trivial
    · simp only [h, if_false] at hf
      exact ih ht hf
  | dir a m kids rest _ ih =>
    simp only [Entries.tidy] at ht
    simp only [Entries.find] at hf
    by_cases h : a = n
    · simp only [h, if_true, Option.some.injEq] at hf
      subst hf; exact ⟨ht.1, ht.2.1⟩
    · simp only [h, if_false] at hf
      exact ih ht.2.2 hf

theorem Entries.find_ne_nil {t : Entries} {n : List Char} {v : Node}
    (hf : t.find n = some v) : t ≠ Entries.nil := by
  intro e; subst e; simp [Entries.find] at hf

theorem Entries.set_ne_nil (t : Entries) (n : List Char) (v : Node) :
    t.set n v ≠ Entries.nil := by
  cases t with
  | nil => cases v <;> simp [Entries.set, Entries.cons]
  | file a m d rest =>
    simp only [Entries.set]; split_ifs
    · cases v <;> simp [Entries.cons]
    · simp
  | dir a m kids rest =>
    simp only [Entries.set]; split_ifs
    · cases v <;> simp [Entries.cons]
    · simp

/-- Putting a tidy node into a directory that may be read, written and searched
keeps a tidy node tidy. -/
theorem Node.tidy_put (v : Node) (hv : v.tidy) (rel : List (List Char)) :
    ∀ dn : Node, dn.tidy → rel ≠ [] →
      (∀ pm pk, dn.get rel.dropLast = some (Node.dir pm pk) → rwx pm) →
      (Node.put v dn rel).tidy := by
  induction rel with
  | nil => intro dn _ h; exact absurd rfl h
  | cons c cs ih =>
    intro dn hd _ hpar
    cases dn with
    | file m d => exact hd
    | dir m kids =>
      cases cs with
      | nil =>
        have hr := hpar m kids (by simp [Node.get_nil])
        exact ⟨Or.inr hr, Entries.tidy_set kids c v hd.2 hv⟩
      | cons c1 cs1 =>
        rw [Node.put_dir_cons]
        cases hf : kids.find c with
        | none => exact hd
        | some w =>
          have hw := Entries.tidy_find kids c w hd.2 hf
          have hrec := ih w hw (by simp) (by
            intro pm pk hg
            apply hpar pm pk
            simp only [List.dropLast_cons₂, Node.get_dir_cons, hf, Option.some_bind]
            exact hg)
          refine ⟨?_, Entries.tidy_set kids c _ hd.2 hrec⟩
          rcases hd.1 with h | h
          · exact absurd h (Entries.find_ne_nil hf)
          · exact Or.inr h

theorem Node.put_dir_form (v : Node) (m : Nat) (kids : Entries) (c : List Char)
    (cs : List (List Char)) : ∃ k, Node.put v (Node.dir m kids) (c :: cs) = Node.dir m k := by
  have h := Node.view_put_cons v (Node.dir m kids) c cs
  cases hp : Node.put v (Node.dir m kids) (c :: cs) with
  | file m' d => rw [hp] at h; simp [Node.view] at h
  | dir m' k =>
    rw [hp] at h
    simp only [Node.view, View.dir.injEq] at h
    exact ⟨k, by rw [h]⟩

/-! ## The invariant of the destination -/

theorem DInv.prefixClosed {c : Ctx} {dn : Node} {D : List (List (List Char))} {P : List Task}
    {und : Task → Prop} (h : DInv c dn D P und) :
    ∀ (n : Nat) (rel q : List (List Char)), rel.length = n → rel ∈ D → q <+: rel → q ∈ D := by
  intro n
  induction n with
  | zero =>
    intro rel q hl _ hq
    have : rel = [] := List.length_eq_zero.mp hl
    subst this
    rw [List.prefix_nil.mp hq]; exact h.root
  | succ n ih =>
    intro rel q hl hrel hq
    by_cases he : q = rel
    · rw [he]; exact hrel
    · exact ih rel.dropLast q (by simp [hl]) (h.made rel hrel).1 (prefix_dropLast_of_ne hq he)

theorem viewAt_dir_get {S : Node} {q : List (List Char)} {m : Nat}
    (h : viewAt S q = some (View.dir m)) : ∃ k, S.get q = some (Node.dir m k) := by
  unfold viewAt at h
  cases hg : S.get q with
  | none => simp [hg] at h
  | some v =>
    cases v with
    | file m' d => simp [hg, Node.view] at h
    | dir m' k =>
      simp only [hg, Option.map_some', Node.view, Option.some.injEq, View.dir.injEq] at h
      exact ⟨k, by rw [h]⟩

theorem viewAt_file_get {S : Node} {q : List (List Char)} {m : Nat} {d : List Nat}
    (h : viewAt S q = some (View.file m d)) : S.get q = some (Node.file m d) := by
  unfold viewAt at h
  cases hg : S.get q with
  | none => simp [hg] at h
  | some v =>
    cases v with
    | file m' d' =>
      simp only [hg, Option.map_some', Node.view, Option.some.injEq, View.file.injEq] at h
      rw [h.1, h.2]
    | dir m' k => simp [hg, Node.view] at h

/-- The mirrored path of a source path whose parent was made can be searched. -/
theorem DInv.searchableAt {c : Ctx} {dn : Node} {D : List (List (List Char))} {P : List Task}
    {und : Task → Prop} (h : DInv c dn D P und) (hok : c.ok) (rel : List (List Char))
    (hpar : rel.dropLast ∈ D) (hs : searchable c.S rel) : searchable dn rel := by
  intro q hq hne
  obtain ⟨m, hv, hcs⟩ := hs q hq hne
  obtain ⟨k, hg⟩ := viewAt_dir_get hv
  have hqD : q ∈ D :=
    h.prefixClosed rel.dropLast.length rel.dropLast q rfl hpar (prefix_dropLast_of_ne hq hne)
  refine ⟨c.mir m, ?_, by rw [hok.canSearch_mir]; exact hcs⟩
  rw [h.dirs q m k hg, if_pos hqD]

theorem Ctx.ok.relValid {c : Ctx} (h : c.ok) {rel : List (List Char)} {v : Node}
    (hg : c.S.get rel = some v) : ∀ d ∈ c.dc ++ rel, validName d := by
  intro d hd
  rcases List.mem_append.mp hd with h1 | h1
  · exact h.dcValid d h1
  · exact (Node.validNames_of_get rel c.S v h.names hg).1 d h1

theorem Ctx.ok.srcValid {c : Ctx} (h : c.ok) {rel : List (List Char)} {v : Node}
    (hg : c.S.get rel = some v) : ∀ d ∈ c.sc ++ rel, validName d := by
  intro d hd
  rcases List.mem_append.mp hd with h1 | h1
  · exact h.scValid d h1
  · exact (Node.validNames_of_get rel c.S v h.names hg).1 d h1

theorem Ctx.ok.newPath_inj {c : Ctx} (h : c.ok) {r1 r2 : List (List Char)} {v1 v2 : Node}
    (h1 : c.S.get r1 = some v1) (h2 : c.S.get r2 = some v2)
    (he : pathOf (c.dc ++ r1) = pathOf (c.dc ++ r2)) : r1 = r2 := by
  have e1 := splitPath_pathOf _ (h.relValid h1)
  have e2 := splitPath_pathOf _ (h.relValid h2)
  rw [he, e2] at e1
  exact (List.append_cancel_left e1).symm

theorem DInv.afterTask {c : Ctx} {dn dn1 : Node} {D : List (List (List Char))} {P : List Task}
    {und : Task → Prop} (hok : c.ok) (h : DInv c dn D P und) (t : Task) (ht : t ∈ P)
    (rel : List (List Char)) (m : Nat) (d : List Nat)
    (hS : c.S.get rel = some (Node.file m d)) (hnew : t.newPath = pathOf (c.dc ++ rel))
    (hframe : ∀ q, ¬ rel <+: q → viewAt dn1 q = viewAt dn q)
    (hat : viewAt dn1 rel = c.outcome rel)
    (hbelow : ∀ r, r ≠ [] → viewAt dn1 (rel ++ r) = none) :
    DInv c dn1 D P (fun x => und x ∧ x ≠ t) := by
  have hnp : ∀ rel1 v, c.S.get rel1 = some v → rel1 ≠ rel → ¬ rel <+: rel1 := by
    intro rel1 v hg hne hp
    obtain ⟨r, rfl⟩ := hp
    have hr : r ≠ [] := by
      intro e; subst e; exact hne (by simp)
    rw [Node.get_file_below hS hr] at hg
    cases hg
  refine ⟨?_, ?_, ?_, ?_, h.root, h.made, h.tasks⟩
  · intro rel1 m1 k1 hg
    have hne : rel1 ≠ rel := by
      intro e; rw [e, hS] at hg; cases hg
    rw [hframe rel1 (hnp rel1 _ hg hne)]
    exact h.dirs rel1 m1 k1 hg
  · intro rel1 m1 d1 hg hdone
    by_cases he : rel1 = rel
    · rw [he]; exact hat
    · rw [hframe rel1 (hnp rel1 _ hg he)]
      obtain ⟨t1, ht1, hu, hp⟩ := hdone
      by_cases hu1 : und t1
      · have : t1 = t := by
          by_contra hne; exact hu ⟨hu1, hne⟩
        rw [this, hnew] at hp
        exact absurd (hok.newPath_inj hS hg hp).symm he
      · exact h.filesDone rel1 m1 d1 hg ⟨t1, ht1, hu1, hp⟩
  · intro rel1 m1 d1 hg hnd
    have he : rel1 ≠ rel := by
      intro e
      exact hnd ⟨t, ht, fun hx => hx.2 rfl, by rw [hnew, e]⟩
    rw [hframe rel1 (hnp rel1 _ hg he)]
    apply h.filesWait rel1 m1 d1 hg
    rintro ⟨t1, ht1, hu, hp⟩
    exact hnd ⟨t1, ht1, fun hx => hu hx.1, hp⟩
  · intro rel1 hg
    by_cases hp : rel <+: rel1
    · obtain ⟨r, rfl⟩ := hp
      have hr : r ≠ [] := by
        intro e; subst e; simp [hS] at hg
      exact hbelow r hr
    · rw [hframe rel1 hp]; exact h.others rel1 hg

theorem DInv.taskRel {c : Ctx} {dn : Node} {D : List (List (List Char))} {P : List Task}
    {und : Task → Prop} (hok : c.ok) (h : DInv c dn D P und) {t : Task} (ht : t ∈ P)
    {rel : List (List Char)} {v : Node} (hg : c.S.get rel = some v)
    (hp : t.newPath = pathOf (c.dc ++ rel)) : rel.dropLast ∈ D := by
  obtain ⟨rel1, m, d, _, hn, _, hr, hD, _⟩ := h.tasks t ht
  have : rel1 = rel := hok.newPath_inj (resolve_get _ _ _ hr) hg (by rw [← hn, hp])
  rw [← this]; exact hD

theorem DInv.afterMkdir {c : Ctx} {dn dn1 : Node} {D : List (List (List Char))} {P : List Task}
    {und : Task → Prop} (hok : c.ok) (h : DInv c dn D P und)
    (rel : List (List Char)) (m : Nat) (k : Entries)
    (hS : resolve c.S rel = Except.ok (Node.dir m k)) (hnot : rel ∉ D)
    (hpar : rel.dropLast ∈ D)
    (hframe : ∀ q, ¬ rel <+: q → viewAt dn1 q = viewAt dn q)
    (hat : viewAt dn1 rel = some (View.dir (c.mir m)))
    (hbelow : ∀ r, r ≠ [] → viewAt dn1 (rel ++ r) = none) :
    DInv c dn1 (rel :: D) P und := by
  have hg := resolve_get _ _ _ hS
  have hbelowD : ∀ r, r ≠ [] → rel ++ r ∉ D := by
    intro r _ hin
    exact hnot (h.prefixClosed _ _ rel rfl hin (List.prefix_append _ _))
  have hnotask : ∀ r, r ≠ [] → ∀ v, c.S.get (rel ++ r) = some v →
      ¬ ∃ t ∈ P, ¬ und t ∧ t.newPath = pathOf (c.dc ++ (rel ++ r)) := by
    rintro r hr v hv ⟨t, ht, _, hp⟩
    have hD := h.taskRel hok ht hv hp
    rw [List.dropLast_append_of_ne_nil _ hr] at hD
    exact hnot (h.prefixClosed _ _ rel rfl hD (List.prefix_append _ _))
  refine ⟨?_, ?_, ?_, ?_, List.mem_cons_of_mem _ h.root, ?_, ?_⟩
  · intro rel1 m1 k1 hg1
    by_cases hp : rel <+: rel1
    · obtain ⟨r, rfl⟩ := hp
      by_cases hr : r = []
      · subst hr
        simp only [List.append_nil] at hg1 ⊢
        rw [hg] at hg1
        simp only [Option.some.injEq, Node.dir.injEq] at hg1
        rw [hat, if_pos (List.mem_cons_self _ _), hg1.1]
      · rw [hbelow r hr, if_neg]
        intro hin
        rcases List.mem_cons.mp hin with e | e
        · exact hr (by simpa using e)
        · exact hbelowD r hr e
    · rw [hframe rel1 hp, h.dirs rel1 m1 k1 hg1]
      have hne : rel1 ≠ rel := by
        intro e; exact hp (by rw [e])
      simp [hne]
  · intro rel1 m1 d1 hg1 hdone
    by_cases hp : rel <+: rel1
    · obtain ⟨r, rfl⟩ := hp
      have hr : r ≠ [] := by
        intro e; subst e
        simp only [List.append_nil] at hg1
        rw [hg] at hg1; cases hg1
      exact absurd hdone (hnotask r hr _ hg1)
    · rw [hframe rel1 hp]; exact h.filesDone rel1 m1 d1 hg1 hdone
  · intro rel1 m1 d1 hg1 hnd
    by_cases hp : rel <+: rel1
    · obtain ⟨r, rfl⟩ := hp
      have hr : r ≠ [] := by
        intro e; subst e
        simp only [List.append_nil] at hg1
        rw [hg] at hg1; cases hg1
      exact hbelow r hr
    · rw [hframe rel1 hp]; exact h.filesWait rel1 m1 d1 hg1 hnd
  · intro rel1 hg1
    by_cases hp : rel <+: rel1
    · obtain ⟨r, rfl⟩ := hp
      have hr : r ≠ [] := by
        intro e; subst e
        simp only [List.append_nil] at hg1
        rw [hg] at hg1; cases hg1
      exact hbelow r hr
    · rw [hframe rel1 hp]; exact h.others rel1 hg1
  · intro rel1 hin
    rcases List.mem_cons.mp hin with e | e
    · rw [e]; exact ⟨List.mem_cons_of_mem _ hpar, m, k, hS⟩
    · exact ⟨List.mem_cons_of_mem _ (h.made rel1 e).1, (h.made rel1 e).2⟩
  · intro t ht
    obtain ⟨rel1, m1, d1, h1, h2, h3, h4, h5, h6⟩ := h.tasks t ht
    exact ⟨rel1, m1, d1, h1, h2, h3, h4, List.mem_cons_of_mem _ h5, h6⟩

theorem DInv.afterSpawn {c : Ctx} {dn : Node} {D : List (List (List Char))} {P : List Task}
    {und und1 : Task → Prop} (h : DInv c dn D P und) (t : Task) (ht : t ∉ P)
    (hund : ∀ x, und1 x ↔ (und x ∨ x = t))
    (rel : List (List Char)) (m : Nat) (d : List Nat)
    (hS : resolve c.S rel = Except.ok (Node.file m d))
    (h1 : t.path = pathOf (c.sc ++ rel)) (h2 : t.newPath = pathOf (c.dc ++ rel))
    (h3 : t.enc = c.enc) (hpar : rel.dropLast ∈ D)
    (hread : ∃ pm pk, c.S.get rel.dropLast = some (Node.dir pm pk) ∧ canRead pm = true) :
    DInv c dn D (P ++ [t]) und1 := by
  refine ⟨h.dirs, ?_, ?_, h.others, h.root, h.made, ?_⟩
  · intro rel1 m1 d1 hg1 hdone
    apply h.filesDone rel1 m1 d1 hg1
    obtain ⟨t1, ht1, hu, hp⟩ := hdone
    have hne : t1 ≠ t := by
      intro e; exact hu ((hund t1).mpr (Or.inr e))
    have hin : t1 ∈ P := by
      rcases List.mem_append.mp ht1 with e | e
      · exact e
      · exact absurd (List.mem_singleton.mp e) hne
    exact ⟨t1, hin, fun hx => hu ((hund t1).mpr (Or.inl hx)), hp⟩
  · intro rel1 m1 d1 hg1 hnd
    apply h.filesWait rel1 m1 d1 hg1
    rintro ⟨t1, ht1, hu, hp⟩
    apply hnd
    refine ⟨t1, List.mem_append_left _ ht1, ?_, hp⟩
    intro hx
    rcases (hund t1).mp hx with e | e
    · exact hu e
    · rw [e] at ht1; exact ht ht1
  · intro t1 ht1
    rcases List.mem_append.mp ht1 with e | e
    · exact h.tasks t1 e
    · rw [List.mem_singleton.mp e]
      exact ⟨rel, m, d, h1, h2, h3, hS, hpar, hread⟩

/-! ## The goroutines keep the invariant -/

theorem searchable_mono {fs : Node} {p q : List (List Char)} (h : searchable fs p)
    (hq : q <+: p) : searchable fs q := by
  intro x hx hne
  apply h x (hx.trans hq)
  intro e
  rw [e] at hx
  exact hne (by rw [e]; exact List.IsPrefix.eq_of_length_le hx hq.length_le |>.symm ▸ rfl)

theorem DInv.viewFile {c : Ctx} {dn : Node} {D : List (List (List Char))} {P : List Task}
    {und : Task → Prop} (h : DInv c dn D P und) {rel : List (List Char)} {m : Nat}
    {d : List Nat} (hg : c.S.get rel = some (Node.file m d)) :
    viewAt dn rel = none ∨ viewAt dn rel = c.outcome rel := by
  by_cases hd : ∃ t ∈ P, ¬ und t ∧ t.newPath = pathOf (c.dc ++ rel)
  · exact Or.inr (h.filesDone rel m d hg hd)
  · exact Or.inl (h.filesWait rel m d hg hd)

theorem Ctx.outcome_eq (c : Ctx) {rel : List (List Char)} {m pm : Nat} {d : List Nat}
    {pk : Entries} (hg : c.S.get rel = some (Node.file m d))
    (hp : c.S.get rel.dropLast = some (Node.dir pm pk)) :
    c.outcome rel =
      if canRead m = true ∧ canWrite pm = true then
        match transformToUtf8 c.T d c.enc with
        | Except.ok data => some (View.file (createMode c.umask 0o666) data)
        | Except.error _ => none
      else none := by
  simp only [Ctx.outcome, hg, hp]

theorem Ctx.S_get_nil (c : Ctx) : c.S.get [] = some (Node.dir c.mS c.kS) := rfl

/-- What the write of a goroutine does on a filesystem that satisfies the
invariant. -/
theorem FInv.writeResult {c : Ctx} {fs : FS} {D : List (List (List Char))} {P : List Task}
    {und : Task → Prop} (hok : c.ok) {kids : Entries}
    (hfs : fs = Node.put (Node.dir c.mD kids) c.base c.dc)
    (hD : DInv c (Node.dir c.mD kids) D P und)
    {rel : List (List Char)} {m pm : Nat} {d data : List Nat} {pk : Entries}
    (hres : resolve c.S rel = Except.ok (Node.file m d))
    (hparD : rel.dropLast ∈ D)
    (hpg : c.S.get rel.dropLast = some (Node.dir pm pk))
    (hcr : canRead m = true)
    (htr : transformToUtf8 c.T d c.enc = Except.ok data) :
    WriteFile c.umask fs (pathOf (c.dc ++ rel)) data 0o666 =
      if canWrite pm = true then
        Except.ok (Node.put (Node.file (createMode c.umask 0o666) data) fs (c.dc ++ rel))
      else Except.error GoError.EACCES := by
  have hg := resolve_get _ _ _ hres
  have hrel : rel ≠ [] := by
    intro e; rw [e, Ctx.S_get_nil] at hg; cases hg
  have hsp := splitPath_pathOf _ (hok.relValid hg)
  have hsS := searchable_of_resolve _ _ _ hres
  have hsd := hD.searchableAt hok rel hparD hsS
  have houtc := c.outcome_eq hg hpg
  have hdrop : (c.dc ++ rel).dropLast = c.dc ++ rel.dropLast :=
    List.dropLast_append_of_ne_nil _ hrel
  have hparView : viewAt (Node.dir c.mD kids) rel.dropLast =
      some (View.dir (c.mir pm)) := by
    rw [hD.dirs _ pm pk hpg, if_pos hparD]
  obtain ⟨pk1, hparGet⟩ := viewAt_dir_get hparView
  have hparRes : resolve fs (c.dc ++ rel.dropLast) =
      Except.ok (Node.dir (c.mir pm) pk1) := by
    rw [hfs, hok.dstResolve,
      resolve_of_searchable _ _ (searchable_mono hsd (List.dropLast_prefix rel)), hparGet]
  have htarget : resolve fs (c.dc ++ rel) =
      match (Node.dir c.mD kids).get rel with
      | some n => Except.ok n
      | none => Except.error GoError.ENOENT := by
    rw [hfs, hok.dstResolve, resolve_of_searchable _ _ hsd]
  cases hget : (Node.dir c.mD kids).get rel with
  | none =>
    rw [hget] at htarget
    rw [WriteFile_new c.umask 0o666 fs _ data (by rw [hsp]; exact htarget)
      (c.mir pm) pk1 (by rw [hsp, hdrop]; exact hparRes), hsp,
      hok.canWrite_mir]
  | some n =>
    rw [hget] at htarget
    have hv : viewAt (Node.dir c.mD kids) rel = some n.view := by simp [viewAt, hget]
    have hout : c.outcome rel = some n.view := by
      rcases hD.viewFile hg with h1 | h1
      · rw [hv] at h1; cases h1
      · rw [← h1, hv]
    rw [houtc, htr] at hout
    by_cases hw : canWrite pm = true
    · simp only [hcr, hw, and_self, if_true, Option.some.injEq] at hout
      have hn : n = Node.file (createMode c.umask 0o666) data := by
        cases n with
        | file m1 d1 =>
          simp only [Node.view, View.file.injEq] at hout
          rw [hout.1, hout.2]
        | dir m1 k1 => simp [Node.view] at hout
      rw [hn] at htarget
      rw [WriteFile_old c.umask 0o666 fs _ data _ _ (by rw [hsp]; exact htarget), hsp,
        canWrite_newFile _ hok.own, if_pos rfl, if_pos hw]
    · simp [hcr, hw] at hout

theorem viewAt_file_below (m : Nat) (d : List Nat) {r : List (List Char)} (hr : r ≠ []) :
    viewAt (Node.file m d) r = none := by
  cases r with
  | nil => exact absurd rfl hr
  | cons a r => rfl

theorem viewAt_dir_below_nil (m : Nat) {r : List (List Char)} (hr : r ≠ []) :
    viewAt (Node.dir m Entries.nil) r = none := by
  cases r with
  | nil => exact absurd rfl hr
  | cons a r => rfl

/-- A goroutine keeps the invariant of the filesystem and counts as run. -/
theorem runTask_FInv {c : Ctx} {env : Env} {σ : State} {D : List (List (List Char))}
    {P : List Task} {und : Task → Prop} (hok : c.ok) (hT : env.T = c.T)
    (hu : env.umask = c.umask) (h : FInv c σ.fs D P und) (t : Task) (ht : t ∈ P) :
    FInv c (runTask env t σ).fs D P (fun x => und x ∧ x ≠ t) ∧
    (runTask env t σ).pending = σ.pending ∧ (runTask env t σ).spawned = σ.spawned := by
  obtain ⟨kids, hfs, htidy, hD⟩ := h
  obtain ⟨rel, m, d, hpath, hnew, henc, hres, hparD, pm, pk, hpg, hpr⟩ := hD.tasks t ht
  have hg := resolve_get _ _ _ hres
  have hrel : rel ≠ [] := by
    intro e; rw [e, Ctx.S_get_nil] at hg; cases hg
  have hsS := searchable_of_resolve _ _ _ hres
  have hread : ReadFile σ.fs t.path =
      if canRead m = true then Except.ok d else Except.error GoError.EACCES := by
    unfold ReadFile
    rw [hpath, splitPath_pathOf _ (hok.srcValid hg), hfs, hok.srcResolve, hres]
  have hsame : c.outcome rel = none → FInv c σ.fs D P (fun x => und x ∧ x ≠ t) := by
    intro hnone
    refine ⟨kids, hfs, htidy, ?_⟩
    apply hD.afterTask hok t ht rel m d hg hnew (fun q _ => rfl)
    · rcases hD.viewFile hg with h1 | h1
      · rw [h1, hnone]
      · exact h1
    · intro r hr; exact hD.others _ (Node.get_file_below hg hr)
  have houtc := c.outcome_eq hg hpg
  unfold runTask
  rw [hread]
  by_cases hcr : canRead m = true
  · rw [if_pos hcr]
    simp only []
    rw [hT, henc]
    cases htr : transformToUtf8 c.T d c.enc with
    | error e =>
      exact ⟨hsame (by rw [houtc, htr]; simp), rfl, rfl⟩
    | ok data =>
      simp only []
      rw [hu, hnew, FInv.writeResult hok hfs hD hres hparD hpg hcr htr]
      by_cases hw : canWrite pm = true
      · rw [if_pos hw]
        refine ⟨?_, rfl, rfl⟩
        have hparView : viewAt (Node.dir c.mD kids) rel.dropLast =
            some (View.dir (c.mir pm)) := by
          rw [hD.dirs _ pm pk hpg, if_pos hparD]
        obtain ⟨pk1, hparGet⟩ := viewAt_dir_get hparView
        obtain ⟨c0, cs, hcs⟩ := List.exists_cons_of_ne_nil hrel
        obtain ⟨k1, hk1⟩ := Node.put_dir_form
          (Node.file (createMode c.umask 0o666) data) c.mD kids c0 cs
        rw [← hcs] at hk1
        have hpx : canSearch pm = true := by
          obtain ⟨m1, hv1, hs1⟩ := hsS rel.dropLast (List.dropLast_prefix rel) (by
            intro e
            have := congrArg List.length e
            simp only [List.length_dropLast] at this
            have : 0 < rel.length := List.length_pos.mpr hrel
            omega)
          obtain ⟨k2, hg2⟩ := viewAt_dir_get hv1
          rw [hpg] at hg2
          simp only [Option.some.injEq, Node.dir.injEq] at hg2
          rw [hg2.1]; exact hs1
        refine ⟨k1, ?_, ?_, ?_⟩
        · rw [hfs, hok.dstPut, hk1]
        · rw [← hk1]
          apply Node.tidy_put (Node.file (createMode c.umask 0o666) data) trivial rel _
            htidy hrel
          intro pm1 pk2 hg1
          rw [hparGet] at hg1
          simp only [Option.some.injEq, Node.dir.injEq] at hg1
          rw [← hg1.1]
          exact ⟨by rw [hok.canRead_mir]; exact hpr,
            by rw [hok.canWrite_mir]; exact hw,
            by rw [hok.canSearch_mir]; exact hpx⟩
        · rw [← hk1]
          have hparEx : rel ≠ [] → ∃ m k,
              (Node.dir c.mD kids).get rel.dropLast = some (Node.dir m k) :=
            fun _ => ⟨_, _, hparGet⟩
          apply hD.afterTask hok t ht rel m d hg hnew
          · intro q hq
            exact viewAt_put_apart _ rel _ q hq
          · rw [viewAt_put _ _ rel rel hparEx, if_pos (List.prefix_refl rel), houtc, htr]
            simp [hcr, hw, viewAt_nil, Node.view]
          · intro r hr
            rw [viewAt_put _ _ rel (rel ++ r) hparEx, if_pos (List.prefix_append _ _)]
            simp only [List.drop_left]
            exact viewAt_file_below _ _ hr
      · rw [if_neg hw]
        exact ⟨hsame (by rw [houtc]; simp [hw]), rfl, rfl⟩
  · rw [if_neg hcr]
    exact ⟨hsame (by rw [houtc]; simp [hcr]), rfl, rfl⟩

theorem FInv.congr {c : Ctx} {fs : FS} {D : List (List (List Char))} {P : List Task}
    {und und1 : Task → Prop} (h : FInv c fs D P und) (he : ∀ x, und x ↔ und1 x) :
    FInv c fs D P und1 := by
  have : und = und1 := funext (fun x => propext (he x))
  rw [← this]; exact h

theorem runTasks_FInv {c : Ctx} {env : Env} {D : List (List (List Char))} {P : List Task}
    (hok : c.ok) (hT : env.T = c.T) (hu : env.umask = c.umask) (ts : List Task) :
    ∀ (σ : State) (und : Task → Prop), FInv c σ.fs D P und → (∀ t ∈ ts, t ∈ P) →
      FInv c (runTasks env ts σ).fs D P (fun x => und x ∧ x ∉ ts) ∧
      (runTasks env ts σ).pending = σ.pending ∧ (runTasks env ts σ).spawned = σ.spawned := by
  induction ts with
  | nil =>
    intro σ und h _
    exact ⟨h.congr (fun x => by simp), rfl, rfl⟩
  | cons t ts ih =>
    intro σ und h hP
    obtain ⟨h1, hp1, hs1⟩ := runTask_FInv hok hT hu h t (hP t (by simp))
    obtain ⟨h2, hp2, hs2⟩ := ih (runTask env t σ) _ h1 (fun x hx => hP x (by simp [hx]))
    refine ⟨h2.congr (fun x => ?_), by rw [runTasks, hp2, hp1], by rw [runTasks, hs2, hs1]⟩
    simp only [List.mem_cons, not_or]
    tauto

theorem Inv.of_eq {c : Ctx} {σ σ1 : State} {D : List (List (List Char))} {P : List Task}
    (h : Inv c σ D P) (hf : σ1.fs = σ.fs) (hp : σ1.pending = σ.pending)
    (hs : σ1.spawned = σ.spawned) : Inv c σ1 D P := by
  unfold Inv at *
  rw [hf, hp, hs]; exact h

theorem tick_Inv {c : Ctx} {env : Env} {σ : State} {D : List (List (List Char))}
    {P : List Task} (hok : c.ok) (hT : env.T = c.T) (hu : env.umask = c.umask)
    (h : Inv c σ D P) : Inv c (tick env σ) D P := by
  obtain ⟨hF, hpend, hsp, hids⟩ := h
  unfold tick
  simp only []
  have hnow : ∀ t ∈ σ.pending.filter (fun t => env.sched σ.clock t.id), t ∈ P :=
    fun t ht => hpend t (List.mem_of_mem_filter ht)
  obtain ⟨h1, hp1, hs1⟩ := runTasks_FInv (D := D) (P := P) hok hT hu
    (σ.pending.filter (fun t => env.sched σ.clock t.id))
    { σ with pending := σ.pending.filter (fun t => !env.sched σ.clock t.id),
             clock := σ.clock + 1 } (fun t => t ∈ σ.pending) hF hnow
  refine ⟨?_, ?_, ?_, hids⟩
  · rw [hp1]
    refine h1.congr (fun x => ?_)
    simp only [List.mem_filter, Bool.not_eq_true', not_and]
    constructor
    · rintro ⟨hx, hn⟩
      refine ⟨hx, ?_⟩
      cases hsch : env.sched σ.clock x.id with
      | true => exact absurd hsch (hn hx)
      | false => rfl
    · rintro ⟨hx, hn⟩
      exact ⟨hx, fun _ => by simp [hn]⟩
  · rw [hp1]
    intro t ht
    exact hpend t (List.mem_of_mem_filter ht)
  · rw [hs1]; exact hsp

/-- After the final wait every goroutine has run. -/
theorem wait_FInv {c : Ctx} {env : Env} {σ : State} {D : List (List (List Char))}
    {P : List Task} (hok : c.ok) (hT : env.T = c.T) (hu : env.umask = c.umask)
    (h : Inv c σ D P) :
    FInv c (wait env σ).fs D P (fun _ => False) ∧ (wait env σ).pending = [] := by
  obtain ⟨hF, hpend, hsp, hids⟩ := h
  unfold wait
  obtain ⟨h1, hp1, _⟩ := runTasks_FInv (D := D) (P := P) hok hT hu σ.pending
    { σ with pending := [] } (fun t => t ∈ σ.pending) hF hpend
  exact ⟨h1.congr (fun x => by simp), hp1⟩

theorem verboseOutput_fs (cfg : Config) (msg : List Char) (σ : State) :
    (verboseOutput cfg msg σ).fs = σ.fs := by
  unfold verboseOutput; split_ifs <;> rfl

theorem verboseOutput_pending (cfg : Config) (msg : List Char) (σ : State) :
    (verboseOutput cfg msg σ).pending = σ.pending := by
  unfold verboseOutput; split_ifs <;> rfl

theorem verboseOutput_spawned (cfg : Config) (msg : List Char) (σ : State) :
    (verboseOutput cfg msg σ).spawned = σ.spawned := by
  unfold verboseOutput; split_ifs <;> rfl

theorem verboseOutput_Inv {c : Ctx} {σ : State} {D : List (List (List Char))}
    {P : List Task} (cfg : Config) (msg : List Char) (h : Inv c σ D P) :
    Inv c (verboseOutput cfg msg σ) D P :=
  h.of_eq (verboseOutput_fs _ _ _) (verboseOutput_pending _ _ _) (verboseOutput_spawned _ _ _)

/-! ## The walk function keeps the invariant -/

theorem dropLast_ne_self {α : Type} {l : List α} (h : l ≠ []) : l.dropLast ≠ l := by
  intro e
  have := congrArg List.length e
  simp only [List.length_dropLast] at this
  have : 0 < l.length := List.length_pos.mpr h
  omega

theorem Pos.parSearch {c : Ctx} {D : List (List (List Char))} {rel : List (List Char)}
    {node : Node} (hpos : Pos c D rel node) (hrel : rel ≠ []) {pm : Nat} {pk : Entries}
    (hpg : c.S.get rel.dropLast = some (Node.dir pm pk)) : canSearch pm = true := by
  obtain ⟨m1, hv1, hs1⟩ := searchable_of_resolve _ _ _ hpos.res rel.dropLast
    (List.dropLast_prefix rel) (dropLast_ne_self hrel)
  obtain ⟨k2, hg2⟩ := viewAt_dir_get hv1
  rw [hpg] at hg2
  simp only [Option.some.injEq, Node.dir.injEq] at hg2
  rw [hg2.1]; exact hs1

theorem FInv.mkdirMade {c : Ctx} {fs : FS} {D : List (List (List Char))} {P : List Task}
    {und : Task → Prop} (hok : c.ok) (h : FInv c fs D P und) {rel : List (List Char)}
    {m : Nat} {k : Entries} (hres : resolve c.S rel = Except.ok (Node.dir m k))
    (hin : rel ∈ D) (perm : Nat) :
    MkdirAll c.umask fs (pathOf (c.dc ++ rel)) perm = (fs, none) := by
  obtain ⟨kids, hfs, _, hD⟩ := h
  have hg := resolve_get _ _ _ hres
  have hview : viewAt (Node.dir c.mD kids) rel = some (View.dir (c.mir m)) := by
    rw [hD.dirs rel m k hg, if_pos hin]
  obtain ⟨k1, hget⟩ := viewAt_dir_get hview
  have hsd := hD.searchableAt hok rel (hD.made rel hin).1 (searchable_of_resolve _ _ _ hres)
  unfold MkdirAll
  rw [splitPath_pathOf _ (hok.relValid hg)]
  apply mkdirAllRev_exists c.umask perm fs _ (c.mir m) k1
  rw [List.reverse_reverse, hfs, hok.dstResolve, resolve_of_searchable _ _ hsd, hget]

theorem FInv.mkdirNew {c : Ctx} {fs : FS} {D : List (List (List Char))} {P : List Task}
    {und : Task → Prop} (hok : c.ok) (h : FInv c fs D P und) {rel : List (List Char)}
    {m : Nat} {k : Entries} (hpos : Pos c D rel (Node.dir m k)) (hnot : rel ∉ D)
    {pm : Nat} {pk : Entries} (hpg : c.S.get rel.dropLast = some (Node.dir pm pk)) :
    (canWrite pm = true → ∃ fs1, MkdirAll c.umask fs (pathOf (c.dc ++ rel)) m = (fs1, none) ∧
      FInv c fs1 (rel :: D) P und) ∧
    (¬ canWrite pm = true →
      MkdirAll c.umask fs (pathOf (c.dc ++ rel)) m = (fs, some GoError.EACCES)) := by
  obtain ⟨kids, hfs, htidy, hD⟩ := h
  have hres := hpos.res
  have hg := resolve_get _ _ _ hres
  have hrel : rel ≠ [] := by
    intro e; rw [e] at hnot; exact hnot hD.root
  obtain ⟨hparD, pm1, pk1, hpg1, hpr⟩ := hpos.par hrel
  rw [hpg] at hpg1
  simp only [Option.some.injEq, Node.dir.injEq] at hpg1
  rw [← hpg1.1] at hpr
  have hpx := hpos.parSearch hrel hpg
  have hsd := hD.searchableAt hok rel hparD (searchable_of_resolve _ _ _ hres)
  have hview : viewAt (Node.dir c.mD kids) rel = none := by
    rw [hD.dirs rel m k hg, if_neg hnot]
  have hget : (Node.dir c.mD kids).get rel = none := by
    unfold viewAt at hview
    cases hx : (Node.dir c.mD kids).get rel with
    | none => rfl
    | some v => simp [hx] at hview
  have hparView : viewAt (Node.dir c.mD kids) rel.dropLast =
      some (View.dir (c.mir pm)) := by
    rw [hD.dirs _ pm pk hpg, if_pos hparD]
  obtain ⟨pk2, hparGet⟩ := viewAt_dir_get hparView
  have hdrop : (c.dc ++ rel).dropLast = c.dc ++ rel.dropLast :=
    List.dropLast_append_of_ne_nil _ hrel
  have h1 : resolve fs (c.dc ++ rel) = Except.error GoError.ENOENT := by
    rw [hfs, hok.dstResolve, resolve_of_searchable _ _ hsd, hget]
  have h2 : resolve fs (c.dc ++ rel).dropLast =
      Except.ok (Node.dir (c.mir pm) pk2) := by
    rw [hdrop, hfs, hok.dstResolve,
      resolve_of_searchable _ _ (searchable_mono hsd (List.dropLast_prefix rel)), hparGet]
  have hne : c.dc ++ rel ≠ [] := by simp [hrel]
  have hmk := mkdirAllRev_new c.umask m fs (c.dc ++ rel) hne h1 _ _ h2
  rw [hok.canWrite_mir, Ctx.mir_parent] at hmk
  unfold MkdirAll
  rw [splitPath_pathOf _ (hok.relValid hg), hmk]
  constructor
  · intro hw
    rw [if_pos hw]
    obtain ⟨c0, cs, hcs⟩ := List.exists_cons_of_ne_nil hrel
    obtain ⟨k1, hk1⟩ := Node.put_dir_form
      (Node.dir (c.mir m) Entries.nil) c.mD kids c0 cs
    rw [← hcs] at hk1
    have hparEx : rel ≠ [] → ∃ m k,
        (Node.dir c.mD kids).get rel.dropLast = some (Node.dir m k) :=
      fun _ => ⟨_, _, hparGet⟩
    refine ⟨_, rfl, k1, ?_, ?_, ?_⟩
    · rw [hfs, hok.dstPut, hk1]
    · rw [← hk1]
      apply Node.tidy_put (Node.dir (c.mir m) Entries.nil)
        ⟨Or.inl rfl, trivial⟩ rel _ htidy hrel
      intro pm3 pk3 hg3
      rw [hparGet] at hg3
      simp only [Option.some.injEq, Node.dir.injEq] at hg3
      rw [← hg3.1]
      exact ⟨by rw [hok.canRead_mir]; exact hpr,
        by rw [hok.canWrite_mir]; exact hw,
        by rw [hok.canSearch_mir]; exact hpx⟩
    · rw [← hk1]
      apply hD.afterMkdir hok rel m k hres hnot hparD
      · intro q hq
        exact viewAt_put_apart _ rel _ q hq
      · rw [viewAt_put _ _ rel rel hparEx, if_pos (List.prefix_refl rel)]
        simp [viewAt_nil, Node.view]
      · intro r hr
        rw [viewAt_put _ _ rel (rel ++ r) hparEx, if_pos (List.prefix_append _ _)]
        simp only [List.drop_left]
        exact viewAt_dir_below_nil _ hr
  · intro hw
    rw [if_neg hw]

theorem Ctx.ok.newPath {c : Ctx} (hok : c.ok) (rel : List (List Char)) :
    Replace (pathOf (c.sc ++ rel)) c.cfg.srcDir c.cfg.dstDir 1 = pathOf (c.dc ++ rel) := by
  rw [hok.src, hok.dst, Replace_pathOf hok.sc_ne hok.dc_ne]

theorem walkFn_file {c : Ctx} {env : Env} {σ : State} {D : List (List (List Char))}
    {P : List Task} (hok : c.ok) (hT : env.T = c.T) (hu : env.umask = c.umask)
    (h : Inv c σ D P) {rel : List (List Char)} {m : Nat} {d : List Nat}
    (hpos : Pos c D rel (Node.file m d)) (err : Option GoError) :
    ∃ σ1, walkFn env c.cfg c.enc σ (pathOf (c.sc ++ rel)) (some ⟨false, m⟩) err =
        (σ1, Ret.nil) ∧
      Inv c σ1 D (P ++ [⟨P.length, pathOf (c.sc ++ rel), pathOf (c.dc ++ rel), c.enc⟩]) := by
  have h1 : Inv c (verboseOutput c.cfg (pathOf (c.sc ++ rel)) (tick env σ)) D P :=
    verboseOutput_Inv _ _ (tick_Inv hok hT hu h)
  obtain ⟨hF, hpend, hsp, hids⟩ := h1
  have hg := resolve_get _ _ _ hpos.res
  have hrel : rel ≠ [] := by
    intro e; rw [e, Ctx.S_get_nil] at hg; cases hg
  obtain ⟨hparD, hread⟩ := hpos.par hrel
  have hw : walkFn env c.cfg c.enc σ (pathOf (c.sc ++ rel)) (some ⟨false, m⟩) err =
      ({ (verboseOutput c.cfg (pathOf (c.sc ++ rel)) (tick env σ)) with
          pending := (verboseOutput c.cfg (pathOf (c.sc ++ rel)) (tick env σ)).pending ++
            [⟨P.length, pathOf (c.sc ++ rel), pathOf (c.dc ++ rel), c.enc⟩],
          spawned := P.length + 1 }, Ret.nil) := by
    simp only [walkFn, hok.newPath, Bool.false_eq_true, if_false, hsp]
  refine ⟨_, hw, ?_⟩
  obtain ⟨kids, hfs, htidy, hD⟩ := hF
  have hfresh : (⟨P.length, pathOf (c.sc ++ rel), pathOf (c.dc ++ rel), c.enc⟩ : Task) ∉ P := by
    intro hin
    have := hids _ hin
    simp at this
  refine ⟨⟨kids, hfs, htidy, ?_⟩, ?_, ?_, ?_⟩
  · exact hD.afterSpawn _ hfresh (fun x => by simp [List.mem_append]) rel m d hpos.res rfl rfl
      rfl hparD hread
  · intro t ht
    rcases List.mem_append.mp ht with e | e
    · exact List.mem_append_left _ (hpend t e)
    · exact List.mem_append_right _ e
  · simp
  · intro t ht
    rcases List.mem_append.mp ht with e | e
    · have := hids t e
      simp only [List.length_append, List.length_singleton]; omega
    · rw [List.mem_singleton.mp e]; simp

theorem walkFn_nilInfo {c : Ctx} {env : Env} {σ : State} {D : List (List (List Char))}
    {P : List Task} (hok : c.ok) (hT : env.T = c.T) (hu : env.umask = c.umask)
    (h : Inv c σ D P) (path : List Char) (err : Option GoError) :
    ∃ σ1, walkFn env c.cfg c.enc σ path none err = (σ1, Ret.panic) ∧ Inv c σ1 D P :=
  ⟨_, rfl, verboseOutput_Inv _ _ (tick_Inv hok hT hu h)⟩

theorem walkFn_dirMade {c : Ctx} {env : Env} {σ : State} {D : List (List (List Char))}
    {P : List Task} (hok : c.ok) (hT : env.T = c.T) (hu : env.umask = c.umask)
    (h : Inv c σ D P) {rel : List (List Char)} {m : Nat} {k : Entries}
    (hres : resolve c.S rel = Except.ok (Node.dir m k)) (hin : rel ∈ D)
    (err : Option GoError) :
    ∃ σ1, walkFn env c.cfg c.enc σ (pathOf (c.sc ++ rel)) (some ⟨true, m⟩) err =
        (σ1, Ret.nil) ∧ Inv c σ1 D P := by
  have h1 : Inv c (verboseOutput c.cfg (pathOf (c.sc ++ rel)) (tick env σ)) D P :=
    verboseOutput_Inv _ _ (tick_Inv hok hT hu h)
  have hmk := h1.1.mkdirMade hok hres hin m
  have hw : walkFn env c.cfg c.enc σ (pathOf (c.sc ++ rel)) (some ⟨true, m⟩) err =
      ({ (verboseOutput c.cfg (pathOf (c.sc ++ rel)) (tick env σ)) with
          fs := (verboseOutput c.cfg (pathOf (c.sc ++ rel)) (tick env σ)).fs }, Ret.nil) := by
    simp only [walkFn, hok.newPath, if_true, hu, hmk]
  exact ⟨_, hw, h1.of_eq rfl rfl rfl⟩

theorem walkFn_dirNew {c : Ctx} {env : Env} {σ : State} {D : List (List (List Char))}
    {P : List Task} (hok : c.ok) (hT : env.T = c.T) (hu : env.umask = c.umask)
    (h : Inv c σ D P) {rel : List (List Char)} {m : Nat} {k : Entries}
    (hpos : Pos c D rel (Node.dir m k)) (hnot : rel ∉ D)
    {pm : Nat} {pk : Entries} (hpg : c.S.get rel.dropLast = some (Node.dir pm pk))
    (err : Option GoError) :
    (canWrite pm = true →
      ∃ σ1, walkFn env c.cfg c.enc σ (pathOf (c.sc ++ rel)) (some ⟨true, m⟩) err =
        (σ1, Ret.nil) ∧ Inv c σ1 (rel :: D) P) ∧
    (¬ canWrite pm = true →
      ∃ σ1, walkFn env c.cfg c.enc σ (pathOf (c.sc ++ rel)) (some ⟨true, m⟩) err =
        (σ1, Ret.err GoError.EACCES) ∧ Inv c σ1 D P) := by
  have h1 : Inv c (verboseOutput c.cfg (pathOf (c.sc ++ rel)) (tick env σ)) D P :=
    verboseOutput_Inv _ _ (tick_Inv hok hT hu h)
  obtain ⟨hnew, hfail⟩ := h1.1.mkdirNew hok hpos hnot hpg
  constructor
  · intro hw
    obtain ⟨fs1, hmk, hF1⟩ := hnew hw
    have hwf : walkFn env c.cfg c.enc σ (pathOf (c.sc ++ rel)) (some ⟨true, m⟩) err =
        ({ (verboseOutput c.cfg (pathOf (c.sc ++ rel)) (tick env σ)) with fs := fs1 },
          Ret.nil) := by
      simp only [walkFn, hok.newPath, if_true, hu, hmk]
    exact ⟨_, hwf, hF1, h1.2.1, h1.2.2.1, h1.2.2.2⟩
  · intro hw
    have hmk := hfail hw
    have hwf : walkFn env c.cfg c.enc σ (pathOf (c.sc ++ rel)) (some ⟨true, m⟩) err =
        ({ (verboseOutput c.cfg (pathOf (c.sc ++ rel)) (tick env σ)) with
            fs := (verboseOutput c.cfg (pathOf (c.sc ++ rel)) (tick env σ)).fs },
          Ret.err GoError.EACCES) := by
      simp only [walkFn, hok.newPath, if_true, hu, hmk]
    exact ⟨_, hwf, h1.of_eq rfl rfl rfl⟩

/-! ## Entries of a source directory -/

theorem Entries.find_of_mem_names (t : Entries) (n : List Char) (h : n ∈ t.names) :
    ∃ v, t.find n = some v := by
  induction t with
  | nil => simp [Entries.names] at h
  | file a m d rest ih =>
    simp only [Entries.names, List.mem_cons] at h
    simp only [Entries.find]
    by_cases e : a = n
    · exact ⟨Node.file m d, by simp [e]⟩
    · rcases h with h | h
      · exact absurd h.symm e
      · simpa [e] using ih h
  | dir a m kids rest _ ih =>
    simp only [Entries.names, List.mem_cons] at h
    simp only [Entries.find]
    by_cases e : a = n
    · exact ⟨Node.dir m kids, by simp [e]⟩
    · rcases h with h | h
      · exact absurd h.symm e
      · simpa [e] using ih h

theorem Entries.walkable_find (t : Entries) (n : List Char) (v : Node) (hw : t.walkable)
    (hf : t.find n = some v) : v.walkable ∧ (∀ m k, v = Node.dir m k → t.hasDir) := by
  induction t with
  | nil => simp [Entries.find] at hf
  | file a m d rest ih =>
    simp only [Entries.find] at hf
    simp only [Entries.walkable] at hw
    by_cases e : a = n
    · simp only [e, if_true, Option.some.injEq] at hf
      subst hf
      exact ⟨trivial, fun m k h => by cases h⟩
    · simp only [e, if_false] at hf
      obtain ⟨h1, h2⟩ := ih hw hf
      exact ⟨h1, fun m k h => by simpa [Entries.hasDir] using h2 m k h⟩
  | dir a m kids rest _ ih =>
    simp only [Entries.find] at hf
    simp only [Entries.walkable] at hw
    by_cases e : a = n
    · simp only [e, if_true, Option.some.injEq] at hf
      subst hf
      exact ⟨hw.1, fun _ _ _ => by simp [Entries.hasDir]⟩
    · simp only [e, if_false] at hf
      obtain ⟨h1, _⟩ := ih hw.2 hf
      exact ⟨h1, fun _ _ _ => by simp [Entries.hasDir]⟩

theorem Entries.depth_find (t : Entries) (n : List Char) (v : Node)
    (hf : t.find n = some v) : v.depth ≤ t.depth := by
  induction t with
  | nil => simp [Entries.find] at hf
  | file a m d rest ih =>
    simp only [Entries.find] at hf
    simp only [Entries.depth]
    by_cases e : a = n
    · simp only [e, if_true, Option.some.injEq] at hf
      subst hf
      simp [Node.depth]
    · simp only [e, if_false] at hf
      exact le_trans (ih hf) (le_max_right _ _)
  | dir a m kids rest _ ih =>
    simp only [Entries.find] at hf
    simp only [Entries.depth]
    by_cases e : a = n
    · simp only [e, if_true, Option.some.injEq] at hf
      subst hf
      simp [Node.depth]
    · simp only [e, if_false] at hf
      exact le_trans (ih hf) (le_max_right _ _)

theorem mem_insertName (n x : List Char) (l : List (List Char)) :
    x ∈ insertName n l ↔ x = n ∨ x ∈ l := by
  induction l with
  | nil => simp [insertName]
  | cons a l ih =>
    simp only [insertName]
    split_ifs
    · simp
    · simp only [List.mem_cons, ih]; tauto

theorem mem_sortNames (x : List Char) (l : List (List Char)) :
    x ∈ sortNames l ↔ x ∈ l := by
  induction l with
  | nil => simp [sortNames]
  | cons a l ih => simp [sortNames, mem_insertName, ih]

/-! ## What the walk reads of the source -/

theorem Inv.fsForm {c : Ctx} {σ : State} {D : List (List (List Char))} {P : List Task}
    (h : Inv c σ D P) : ∃ kids, σ.fs = Node.put (Node.dir c.mD kids) c.base c.dc := by
  obtain ⟨⟨kids, hfs, _, _⟩, _⟩ := h
  exact ⟨kids, hfs⟩

theorem Inv.stat {c : Ctx} {σ : State} {D : List (List (List Char))} {P : List Task}
    (hok : c.ok) (h : Inv c σ D P) (rel : List (List Char)) (hv : ∀ d ∈ rel, validName d) :
    Stat σ.fs (pathOf (c.sc ++ rel)) =
      match resolve c.S rel with
      | Except.ok v => Except.ok v.info
      | Except.error e => Except.error e := by
  obtain ⟨kids, hfs⟩ := h.fsForm
  have hvs : ∀ d ∈ c.sc ++ rel, validName d := by
    intro d hd
    rcases List.mem_append.mp hd with e | e
    · exact hok.scValid d e
    · exact hv d e
  unfold Stat
  rw [splitPath_pathOf _ hvs, hfs, hok.srcResolve]

theorem Inv.listNames {c : Ctx} {σ : State} {D : List (List (List Char))} {P : List Task}
    (hok : c.ok) (h : Inv c σ D P) {rel : List (List Char)} {m : Nat} {kids : Entries}
    (hres : resolve c.S rel = Except.ok (Node.dir m kids)) :
    readDirNames σ.fs (pathOf (c.sc ++ rel)) =
      if canRead m = true then Except.ok (sortNames kids.names)
      else Except.error GoError.EACCES := by
  obtain ⟨k1, hfs⟩ := h.fsForm
  unfold Utfize.readDirNames
  rw [splitPath_pathOf _ (hok.srcValid (resolve_get _ _ _ hres)), hfs, hok.srcResolve, hres]

theorem Cov.mono {c : Ctx} {D D1 : List (List (List Char))} {P P1 : List Task}
    {rel : List (List Char)} {node : Node} (h : Cov c D P rel node)
    (hD : ∀ x ∈ D, x ∈ D1) (hP : ∃ Q, P1 = P ++ Q) : Cov c D1 P1 rel node := by
  obtain ⟨Q, rfl⟩ := hP
  refine ⟨fun r m k hg => hD _ (h.1 r m k hg), fun r m d hg => ?_⟩
  obtain ⟨t, ht, hp⟩ := h.2 r m d hg
  exact ⟨t, List.mem_append_left _ ht, hp⟩

theorem walkNames_cons_ok (env : Env)
    (fn : State → List Char → Option FileInfo → Option GoError → State × Ret)
    (rec : State → List Char → FileInfo → State × Ret) (path name : List Char)
    (names : List (List Char)) (σ σ1 : State) (fi : FileInfo) (r1 : Ret)
    (hstat : Stat (tick env σ).fs (Join path name) = Except.ok fi)
    (hrec : rec (tick env σ) (Join path name) fi = (σ1, r1)) :
    walkNames env fn rec path (name :: names) σ =
      if namesNext r1 fi.IsDir = true then walkNames env fn rec path names σ1
      else (σ1, r1) := by
  simp only [walkNames, hstat, hrec]
  cases r1 with
  | nil => simp [namesNext]
  | err e =>
    simp only [namesNext, Bool.and_eq_true, decide_eq_true_eq]
  | panic => simp [namesNext]
  | outOfFuel => simp [namesNext]

theorem walkNames_cons_err (env : Env)
    (fn : State → List Char → Option FileInfo → Option GoError → State × Ret)
    (rec : State → List Char → FileInfo → State × Ret) (path name : List Char)
    (names : List (List Char)) (σ σ1 : State) (e : GoError)
    (hstat : Stat (tick env σ).fs (Join path name) = Except.error e)
    (hfn : fn (tick env σ) (Join path name) none (some e) = (σ1, Ret.panic)) :
    walkNames env fn rec path (name :: names) σ = (σ1, Ret.panic) := by
  simp only [walkNames, hstat, hfn]

/-! ## The loop over the names of a directory -/

theorem namesSpec {c : Ctx} (hok : c.ok) (fuel : Nat) (hw : WalkSpec c fuel)
    (rel : List (List Char)) (m : Nat) (kids : Entries)
    (hres : resolve c.S rel = Except.ok (Node.dir m kids)) (hread : canRead m = true) :
    ∀ ns : List (List Char), (∀ n ∈ ns, n ∈ kids.names) → NamesSpec c fuel rel m kids ns := by
  intro ns
  induction ns with
  | nil =>
    intro _ D P _ _
    refine ⟨D, P, Ret.nil, fun x hx => hx, ⟨[], by simp⟩, ?_, ?_⟩
    · intro env σ _ _ h; exact ⟨σ, rfl, h⟩
    · intro _ _; exact ⟨rfl, fun n hn => by simp at hn⟩
  | cons n ns ih =>
    intro hns D P hrelD hroot
    have hnIn : n ∈ kids.names := hns n (by simp)
    have ihn := ih (fun x hx => hns x (by simp [hx]))
    have hg := resolve_get _ _ _ hres
    obtain ⟨hrelv, hkv⟩ := Node.validNames_of_get rel c.S _ hok.names hg
    obtain ⟨child, hfind⟩ := Entries.find_of_mem_names kids n hnIn
    have hnv : validName n := (Entries.validName_of_find kids n child hkv hfind).1
    have hvalid : ∀ d ∈ rel ++ [n], validName d := by
      intro d hd
      rcases List.mem_append.mp hd with e | e
      · exact hrelv d e
      · rw [List.mem_singleton.mp e]; exact hnv
    have hjoin : Join (pathOf (c.sc ++ rel)) n = pathOf (c.sc ++ (rel ++ [n])) := by
      rw [← List.append_assoc]
      exact Join_pathOf (by simp [hok.sc_ne]) (hok.srcValid hg) n
    by_cases hs : canSearch m = true
    · have hresc : resolve c.S (rel ++ [n]) = Except.ok child := by
        rw [resolve_append, hres]
        simp [resolve_dir_cons, hs, hfind, resolve_nil]
      have hpos : Pos c D (rel ++ [n]) child :=
        ⟨hresc, hroot, fun _ => ⟨by simpa using hrelD, m, kids, by simpa using hg, hread⟩⟩
      obtain ⟨D1, P1, r1, hD1, hP1, hrun1, hcov1⟩ := hw (rel ++ [n]) child D P hpos
      have hstep : ∀ (env : Env) (σ : State), env.T = c.T → env.umask = c.umask →
          Inv c σ D P → ∃ σ1, Inv c σ1 D1 P1 ∧
            walkNames env (walkFn env c.cfg c.enc) (walk env (walkFn env c.cfg c.enc) fuel)
              (pathOf (c.sc ++ rel)) (n :: ns) σ =
            if namesNext r1 child.info.IsDir = true then
              walkNames env (walkFn env c.cfg c.enc) (walk env (walkFn env c.cfg c.enc) fuel)
                (pathOf (c.sc ++ rel)) ns σ1
            else (σ1, r1) := by
        intro env σ hT hu h
        have ht := tick_Inv hok hT hu h
        have hstat : Stat (tick env σ).fs (Join (pathOf (c.sc ++ rel)) n) =
            Except.ok child.info := by
          rw [hjoin, ht.stat hok _ hvalid, hresc]
        obtain ⟨σ1, hrun, hinv⟩ := hrun1 env (tick env σ) hT hu ht
        rw [← hjoin] at hrun
        exact ⟨σ1, hinv, walkNames_cons_ok env _ _ _ n ns σ σ1 child.info r1 hstat hrun⟩
      have hchild : (Node.dir m kids).walkable → kids.depth ≤ fuel →
          r1 = Ret.nil ∧ Cov c D1 P1 (rel ++ [n]) child := by
        intro hwk hdep
        obtain ⟨hcw, hcd⟩ := Entries.walkable_find kids n child hwk.2.2.2 hfind
        apply hcov1 hcw
        · intro _ m1 k1 he pm pk hpg
          simp only [List.dropLast_concat] at hpg
          rw [hg] at hpg
          simp only [Option.some.injEq, Node.dir.injEq] at hpg
          rw [← hpg.1]
          exact hwk.2.2.1 (hcd m1 k1 he)
        · exact le_trans (Entries.depth_find kids n child hfind) hdep
      by_cases hc : namesNext r1 child.info.IsDir = true
      · obtain ⟨D2, P2, r2, hD2, hP2, hrun2, hcov2⟩ := ihn D1 P1 (hD1 rel hrelD) (hD1 [] hroot)
        refine ⟨D2, P2, r2, fun x hx => hD2 x (hD1 x hx), ?_, ?_, ?_⟩
        · obtain ⟨Q1, rfl⟩ := hP1
          obtain ⟨Q2, rfl⟩ := hP2
          exact ⟨Q1 ++ Q2, by simp⟩
        · intro env σ hT hu h
          obtain ⟨σ1, hinv, heq⟩ := hstep env σ hT hu h
          obtain ⟨σ2, hrun, hinv2⟩ := hrun2 env σ1 hT hu hinv
          exact ⟨σ2, by rw [heq, if_pos hc, hrun], hinv2⟩
        · intro hwk hdep
          obtain ⟨hr2, hcv2⟩ := hcov2 hwk hdep
          refine ⟨hr2, ?_⟩
          intro n1 hn1 ch1 hf1
          rcases List.mem_cons.mp hn1 with e | e
          · subst e
            rw [hfind] at hf1
            simp only [Option.some.injEq] at hf1
            subst hf1
            exact (hchild hwk hdep).2.mono hD2 hP2
          · exact hcv2 n1 e ch1 hf1
      · refine ⟨D1, P1, r1, hD1, hP1, ?_, ?_⟩
        · intro env σ hT hu h
          obtain ⟨σ1, hinv, heq⟩ := hstep env σ hT hu h
          exact ⟨σ1, by rw [heq, if_neg hc], hinv⟩
        · intro hwk hdep
          have := (hchild hwk hdep).1
          rw [this] at hc
          exact absurd rfl hc
    · refine ⟨D, P, Ret.panic, fun x hx => hx, ⟨[], by simp⟩, ?_, ?_⟩
      · intro env σ hT hu h
        have ht := tick_Inv hok hT hu h
        have hstat : Stat (tick env σ).fs (Join (pathOf (c.sc ++ rel)) n) =
            Except.error GoError.EACCES := by
          rw [hjoin, ht.stat hok _ hvalid, resolve_append, hres]
          simp [resolve_dir_cons, hs]
        obtain ⟨σ1, hfn, hinv⟩ := walkFn_nilInfo hok hT hu ht
          (Join (pathOf (c.sc ++ rel)) n) (some GoError.EACCES)
        exact ⟨σ1, walkNames_cons_err env _ _ _ n ns σ σ1 _ hstat hfn, hinv⟩
      · intro hwk _
        exact absurd hwk.2.1 hs

/-! ## The walk -/

theorem Entries.mem_names_of_find (t : Entries) (n : List Char) (v : Node)
    (hf : t.find n = some v) : n ∈ t.names := by
  induction t with
  | nil => simp [Entries.find] at hf
  | file a m d rest ih =>
    simp only [Entries.find] at hf
    simp only [Entries.names, List.mem_cons]
    by_cases e : a = n
    · exact Or.inl e.symm
    · simp only [e, if_false] at hf
      exact Or.inr (ih hf)
  | dir a m kids rest _ ih =>
    simp only [Entries.find] at hf
    simp only [Entries.names, List.mem_cons]
    by_cases e : a = n
    · exact Or.inl e.symm
    · simp only [e, if_false] at hf
      exact Or.inr (ih hf)

theorem Node.depth_pos (v : Node) : 0 < v.depth := by
  cases v <;> simp [Node.depth]

/-- What the walk function does at a source directory: the result and the
directories made do not depend on the state. -/
theorem walkFn_dirSpec {c : Ctx} (hok : c.ok) {D : List (List (List Char))}
    {rel : List (List Char)} {m : Nat} {k : Entries} (hpos : Pos c D rel (Node.dir m k))
    (P : List Task) :
    ∃ (Dm : List (List (List Char))) (rm : Ret),
      (∀ x ∈ D, x ∈ Dm) ∧ (rm = Ret.nil → rel ∈ Dm) ∧
      (MkOK c D rel (Node.dir m k) → rm = Ret.nil) ∧
      ∀ (env : Env) (σ : State), env.T = c.T → env.umask = c.umask → Inv c σ D P →
        ∀ err, ∃ σ1, walkFn env c.cfg c.enc σ (pathOf (c.sc ++ rel)) (some ⟨true, m⟩) err =
          (σ1, rm) ∧ Inv c σ1 Dm P := by
  by_cases hin : rel ∈ D
  · refine ⟨D, Ret.nil, fun x hx => hx, fun _ => hin, fun _ => rfl, ?_⟩
    intro env σ hT hu h err
    exact walkFn_dirMade hok hT hu h hpos.res hin err
  · have hrel : rel ≠ [] := by
      intro e; rw [e] at hin; exact hin hpos.root
    obtain ⟨_, pm, pk, hpg, _⟩ := hpos.par hrel
    by_cases hw : canWrite pm = true
    · refine ⟨rel :: D, Ret.nil, fun x hx => List.mem_cons_of_mem _ hx,
        fun _ => List.mem_cons_self _ _, fun _ => rfl, ?_⟩
      intro env σ hT hu h err
      exact (walkFn_dirNew hok hT hu h hpos hin hpg err).1 hw
    · refine ⟨D, Ret.err GoError.EACCES, fun x hx => hx, (fun e => by cases e), ?_, ?_⟩
      · intro hmk
        exact absurd (hmk hin m k rfl pm pk hpg) hw
      · intro env σ hT hu h err
        exact (walkFn_dirNew hok hT hu h hpos hin hpg err).2 hw

theorem walk_succ_dir (env : Env)
    (fn : State → List Char → Option FileInfo → Option GoError → State × Ret) (fuel : Nat)
    (σ : State) (path : List Char) (m : Nat) :
    walk env fn (fuel + 1) σ path ⟨true, m⟩ =
      match readDirNames (tick env σ).fs path with
      | Except.error err => fn (tick env σ) path (some ⟨true, m⟩) (some err)
      | Except.ok names =>
        match fn (tick env σ) path (some ⟨true, m⟩) none with
        | (σ1, Ret.nil) => walkNames env fn (walk env fn fuel) path names σ1
        | (σ1, r) => (σ1, r) := by
  simp only [walk, Bool.true_eq_false, if_false]

theorem walk_succ_file (env : Env)
    (fn : State → List Char → Option FileInfo → Option GoError → State × Ret) (fuel : Nat)
    (σ : State) (path : List Char) (m : Nat) :
    walk env fn (fuel + 1) σ path ⟨false, m⟩ = fn σ path (some ⟨false, m⟩) none := by
  simp [walk]

theorem walkSpec {c : Ctx} (hok : c.ok) : ∀ fuel, WalkSpec c fuel := by
  intro fuel
  induction fuel with
  | zero =>
    intro rel node D P _
    refine ⟨D, P, Ret.outOfFuel, fun x hx => hx, ⟨[], by simp⟩, ?_, ?_⟩
    · intro env σ _ _ h; exact ⟨σ, rfl, h⟩
    · intro _ _ hd
      have := Node.depth_pos node
      omega
  | succ fuel ih =>
    intro rel node D P hpos
    cases node with
    | file m d =>
      refine ⟨D, P ++ [⟨P.length, pathOf (c.sc ++ rel), pathOf (c.dc ++ rel), c.enc⟩],
        Ret.nil, fun x hx => hx, ⟨_, rfl⟩, ?_, ?_⟩
      · intro env σ hT hu h
        obtain ⟨σ1, hfn, hinv⟩ := walkFn_file hok hT hu h hpos none
        exact ⟨σ1, by rw [Node.info, walk_succ_file, hfn], hinv⟩
      · intro _ _ _
        refine ⟨rfl, ?_, ?_⟩
        · intro r m1 k1 hg
          cases r with
          | nil => simp [Node.get_nil] at hg
          | cons a r => simp [Node.get_file_cons] at hg
        · intro r m1 d1 hg
          cases r with
          | nil => exact ⟨_, List.mem_append_right _ (List.mem_singleton_self _), by simp⟩
          | cons a r => simp [Node.get_file_cons] at hg
    | dir m kids =>
      obtain ⟨Dm, rm, hDm, hrm, hmkok, hfn⟩ := walkFn_dirSpec hok hpos P
      by_cases hread : canRead m = true
      · by_cases hnil : rm = Ret.nil
        · subst hnil
          obtain ⟨D2, P2, r2, hD2, hP2, hrun2, hcov2⟩ :=
            namesSpec hok fuel ih rel m kids hpos.res hread (sortNames kids.names)
              (fun n hn => (mem_sortNames n _).mp hn) Dm P (hrm rfl) (hDm [] hpos.root)
          refine ⟨D2, P2, r2, fun x hx => hD2 x (hDm x hx), hP2, ?_, ?_⟩
          · intro env σ hT hu h
            have ht := tick_Inv hok hT hu h
            obtain ⟨σ1, hw1, hinv1⟩ := hfn env (tick env σ) hT hu ht none
            obtain ⟨σ2, hw2, hinv2⟩ := hrun2 env σ1 hT hu hinv1
            refine ⟨σ2, ?_, hinv2⟩
            rw [Node.info, walk_succ_dir, ht.listNames hok hpos.res, if_pos hread]
            simp only [hw1, hw2]
          · intro hwk _ hdep
            have hdep1 : kids.depth ≤ fuel := by
              simp only [Node.depth] at hdep; omega
            obtain ⟨hr2, hcv⟩ := hcov2 hwk hdep1
            refine ⟨hr2, ?_, ?_⟩
            · intro r m1 k1 hg
              cases r with
              | nil => simpa using hD2 rel (hrm rfl)
              | cons a r =>
                rw [Node.get_dir_cons] at hg
                cases hf : kids.find a with
                | none => simp [hf] at hg
                | some ch =>
                  simp only [hf, Option.some_bind] at hg
                  have hmem := (mem_sortNames a _).mpr (Entries.mem_names_of_find kids a ch hf)
                  have := (hcv a hmem ch hf).1 r m1 k1 hg
                  simpa using this
            · intro r m1 d1 hg
              cases r with
              | nil => simp [Node.get_nil] at hg
              | cons a r =>
                rw [Node.get_dir_cons] at hg
                cases hf : kids.find a with
                | none => simp [hf] at hg
                | some ch =>
                  simp only [hf, Option.some_bind] at hg
                  have hmem := (mem_sortNames a _).mpr (Entries.mem_names_of_find kids a ch hf)
                  obtain ⟨t, ht, hp⟩ := (hcv a hmem ch hf).2 r m1 d1 hg
                  exact ⟨t, ht, by simpa using hp⟩
        · refine ⟨Dm, P, rm, hDm, ⟨[], by simp⟩, ?_, ?_⟩
          · intro env σ hT hu h
            have ht := tick_Inv hok hT hu h
            obtain ⟨σ1, hw1, hinv1⟩ := hfn env (tick env σ) hT hu ht none
            refine ⟨σ1, ?_, hinv1⟩
            rw [Node.info, walk_succ_dir, ht.listNames hok hpos.res, if_pos hread]
            simp only [hw1]
          · intro _ hmk _
            exact absurd (hmkok hmk) hnil
      · refine ⟨Dm, P, rm, hDm, ⟨[], by simp⟩, ?_, ?_⟩
        · intro env σ hT hu h
          have ht := tick_Inv hok hT hu h
          obtain ⟨σ1, hw1, hinv1⟩ := hfn env (tick env σ) hT hu ht (some GoError.EACCES)
          refine ⟨σ1, ?_, hinv1⟩
          rw [Node.info, walk_succ_dir, ht.listNames hok hpos.res, if_neg hread]
          exact hw1
        · intro hwk _ _
          exact absurd hwk.1 hread

/-! ## Removing the destination -/

theorem Entries.removeSel_nil (w : Bool) (sel : Option (List Char)) :
    Entries.nil.removeSel w sel = Entries.nil := rfl

theorem Entries.removeSel_tidy (t : Entries) (ht : t.tidy) :
    t.removeSel true none = Entries.nil := by
  induction t with
  | nil => rfl
  | file a m d rest ih =>
    simp only [Entries.tidy] at ht
    simp [Entries.removeSel, ih ht]
  | dir a m kids rest ihk ih =>
    simp only [Entries.tidy] at ht
    obtain ⟨h1, h2, h3⟩ := ht
    have hk : (if canRead m = true ∧ canSearch m = true then kids.removeSel (canWrite m) none
        else kids) = Entries.nil := by
      rcases h1 with h | h
      · subst h; split_ifs <;> rfl
      · rw [if_pos ⟨h.1, h.2.2⟩, h.2.1]; exact ihk h2
    simp only [Entries.removeSel, true_or, if_true, hk, and_self, ih h3]

theorem Entries.removeSel_set_new (t : Entries) (name : List Char) (dn : Node)
    (hf : t.find name = none) (hd : dn.tidy) :
    (t.set name dn).removeSel true (some name) = t := by
  induction t with
  | nil =>
    cases dn with
    | file m d => simp [Entries.set, Entries.cons, Entries.removeSel]
    | dir m kids =>
      obtain ⟨h1, h2⟩ := hd
      have hk : (if canRead m = true ∧ canSearch m = true then kids.removeSel (canWrite m) none
          else kids) = Entries.nil := by
        rcases h1 with h | h
        · subst h; split_ifs <;> rfl
        · rw [if_pos ⟨h.1, h.2.2⟩, h.2.1]; exact Entries.removeSel_tidy kids h2
      simp only [Entries.set, Entries.cons, Entries.removeSel, or_true, if_true, hk, and_self]
  | file a m d rest ih =>
    simp only [Entries.find] at hf
    by_cases e : a = name
    · simp [e] at hf
    · simp only [e, if_false] at hf
      have hne : ¬ (some name = some a) := by
        intro h; exact e (Option.some.inj h).symm
      simp [Entries.set, e, Entries.removeSel, hne, ih hf]
  | dir a m kids rest _ ih =>
    simp only [Entries.find] at hf
    by_cases e : a = name
    · simp [e] at hf
    · simp only [e, if_false] at hf
      have hne : ¬ (some name = some a) := by
        intro h; exact e (Option.some.inj h).symm
      simp [Entries.set, e, Entries.removeSel, hne, ih hf]

theorem Entries.removeSel_idem (t : Entries) :
    ∀ (w : Bool) (sel : Option (List Char)),
      (t.removeSel w sel).removeSel w sel = t.removeSel w sel := by
  induction t with
  | nil => intro w sel; rfl
  | file a m d rest ih =>
    intro w sel
    simp only [Entries.removeSel]
    by_cases h : (sel = none ∨ sel = some a) ∧ w = true
    · simp only [h, and_self, if_true, ih]
    · simp only [h, if_false, Entries.removeSel, ih]
  | dir a m kids rest ihk ih =>
    intro w sel
    simp only [Entries.removeSel]
    by_cases h : sel = none ∨ sel = some a
    · simp only [h, if_true]
      by_cases h2 : (if canRead m = true ∧ canSearch m = true then
          kids.removeSel (canWrite m) none else kids) = Entries.nil ∧ w = true
      · simp only [h2, and_self, if_true, ih]
      · simp only [h2, if_false, Entries.removeSel, h, if_true, ih]
        have hk : (if canRead m = true ∧ canSearch m = true then
            (if canRead m = true ∧ canSearch m = true then
              kids.removeSel (canWrite m) none else kids).removeSel (canWrite m) none
            else (if canRead m = true ∧ canSearch m = true then
              kids.removeSel (canWrite m) none else kids)) =
            (if canRead m = true ∧ canSearch m = true then
              kids.removeSel (canWrite m) none else kids) := by
          by_cases h3 : canRead m = true ∧ canSearch m = true
          · simp only [h3, and_self, if_true, ihk]
          · simp only [h3, if_false]
        rw [hk]
        simp only [h2, if_false]
    · simp only [h, if_false, Entries.removeSel, ih]

theorem Entries.find_removeSel_ne (t : Entries) (w : Bool) (name n : List Char)
    (hne : n ≠ name) : (t.removeSel w (some name)).find n = t.find n := by
  induction t with
  | nil => rfl
  | file a m d rest ih =>
    simp only [Entries.removeSel]
    by_cases h : (some name = none ∨ some name = some a) ∧ w = true
    · have ha : a = name := by
        rcases h.1 with h1 | h1
        · cases h1
        · exact (Option.some.inj h1).symm
      have : ¬ a = n := by rw [ha]; exact fun e => hne e.symm
      have hw : w = true := h.2
      subst hw
      simp only [h, and_self, if_true, ih, Entries.find, this, if_false]
    · simp only [h, if_false, Entries.find, ih]
  | dir a m kids rest _ ih =>
    simp only [Entries.removeSel]
    by_cases h : some name = none ∨ some name = some a
    · have ha : a = name := by
        rcases h with h1 | h1
        · cases h1
        · exact (Option.some.inj h1).symm
      have hn : ¬ a = n := by rw [ha]; exact fun e => hne e.symm
      simp only [h, if_true]
      split_ifs <;> simp only [ih, Entries.find, hn, if_false]
    · simp only [h, if_false, Entries.find, ih]

theorem Entries.set_find_same (t : Entries) (n : List Char) (v : Node)
    (hf : t.find n = some v) : t.set n v = t := by
  induction t with
  | nil => simp [Entries.find] at hf
  | file a m d rest ih =>
    simp only [Entries.find] at hf
    by_cases e : a = n
    · simp only [e, if_true, Option.some.injEq] at hf
      subst hf; subst e
      simp [Entries.set, Entries.cons]
    · simp only [e, if_false] at hf
      simp [Entries.set, e, ih hf]
  | dir a m kids rest _ ih =>
    simp only [Entries.find] at hf
    by_cases e : a = n
    · simp only [e, if_true, Option.some.injEq] at hf
      subst hf; subst e
      simp [Entries.set, Entries.cons]
    · simp only [e, if_false] at hf
      simp [Entries.set, e, ih hf]

theorem Node.put_get_same (p : List (List Char)) :
    ∀ (fs v : Node), fs.get p = some v → Node.put v fs p = fs := by
  induction p with
  | nil =>
    intro fs v h
    simp only [Node.get_nil, Option.some.injEq] at h
    simp [Node.put_nil, h]
  | cons c cs ih =>
    intro fs v h
    cases fs with
    | file m d => rfl
    | dir m kids =>
      rw [Node.get_dir_cons] at h
      cases hf : kids.find c with
      | none => simp [hf] at h
      | some w =>
        simp only [hf, Option.some_bind] at h
        cases cs with
        | nil =>
          simp only [Node.get_nil, Option.some.injEq] at h
          subst h
          simp [Node.put_dir_single, Entries.set_find_same kids c w hf]
        | cons c1 cs1 =>
          rw [Node.put_dir_cons]
          simp only [hf, ih w v h, Entries.set_find_same kids c w hf]

theorem Node.get_dropLast_dir {fs v : Node} {p : List (List Char)} (hp : p ≠ [])
    (h : fs.get p = some v) : ∃ m k, fs.get p.dropLast = some (Node.dir m k) := by
  have he := (List.dropLast_append_getLast hp).symm
  rw [he] at h
  exact Node.get_prefix_dir h (by simp)

theorem RemoveAll_eq (fs : FS) (dc : List (List Char)) (hd : dc ≠ [])
    (hv : ∀ d ∈ dc, validName d) :
    RemoveAll fs (pathOf dc) =
      match resolve fs dc.dropLast with
      | Except.ok (Node.dir pm kids) =>
        if canSearch pm = true then
          Node.put (Node.dir pm (kids.removeSel (canWrite pm) (some (dc.getLast hd)))) fs
            dc.dropLast
        else fs
      | _ => fs := by
  unfold RemoveAll
  simp only [splitPath_pathOf dc hv, List.getLast?_eq_getLast _ hd]

/-- Removing the destination leaves the source as it is. -/
theorem resolve_RemoveAll_src (fs : FS) (sc dc : List (List Char)) (hd : dc ≠ [])
    (hv : ∀ d ∈ dc, validName d) (h1 : ¬ sc <+: dc) (h2 : ¬ dc <+: sc) :
    resolve (RemoveAll fs (pathOf dc)) sc = resolve fs sc := by
  rw [RemoveAll_eq fs dc hd hv]
  cases hr : resolve fs dc.dropLast with
  | error e => rfl
  | ok n =>
    cases n with
    | file m d => rfl
    | dir pm kids =>
      simp only []
      by_cases hs : canSearch pm = true
      · rw [if_pos hs]
        by_cases hp : dc.dropLast <+: sc
        · obtain ⟨r, hr1⟩ := hp
          have hsrch := searchable_of_resolve _ _ _ hr
          have hpar : dc.dropLast ≠ [] → ∃ m k,
              fs.get dc.dropLast.dropLast = some (Node.dir m k) :=
            fun hne => Node.get_dropLast_dir hne (resolve_get _ _ _ hr)
          rw [← hr1, resolve_put_below _ fs dc.dropLast r hsrch hpar, resolve_append, hr]
          cases r with
          | nil =>
            exfalso
            apply h1
            rw [← hr1, List.append_nil]
            exact List.dropLast_prefix dc
          | cons n r1 =>
            have hne : n ≠ dc.getLast hd := by
              intro e
              apply h2
              rw [← hr1, e]
              have : dc = dc.dropLast ++ [dc.getLast hd] :=
                (List.dropLast_append_getLast hd).symm
              conv_lhs => rw [this]
              exact ⟨r1, by simp⟩
            simp only [resolve_dir_cons, Entries.find_removeSel_ne _ _ _ _ hne]
        · apply resolve_put_diverge _ _ _ _ hp
          intro hsp
          exact h1 (hsp.trans (List.dropLast_prefix dc))
      · rw [if_neg hs]

theorem RemoveAll_idem (fs : FS) (dc : List (List Char)) (hd : dc ≠ [])
    (hv : ∀ d ∈ dc, validName d) :
    RemoveAll (RemoveAll fs (pathOf dc)) (pathOf dc) = RemoveAll fs (pathOf dc) := by
  rw [RemoveAll_eq fs dc hd hv]
  cases hr : resolve fs dc.dropLast with
  | error e =>
    simp only []
    rw [RemoveAll_eq fs dc hd hv, hr]
  | ok n =>
    cases n with
    | file m d =>
      simp only []
      rw [RemoveAll_eq fs dc hd hv, hr]
    | dir pm kids =>
      simp only []
      by_cases hs : canSearch pm = true
      · rw [if_pos hs]
        have hsrch := searchable_of_resolve _ _ _ hr
        have hpar : dc.dropLast ≠ [] → ∃ m k,
            fs.get dc.dropLast.dropLast = some (Node.dir m k) :=
          fun hne => Node.get_dropLast_dir hne (resolve_get _ _ _ hr)
        rw [RemoveAll_eq _ dc hd hv, resolve_put_self _ fs dc.dropLast hsrch hpar]
        simp only [hs, if_true, Node.put_put_same, Entries.removeSel_idem]
      · rw [if_neg hs, RemoveAll_eq fs dc hd hv, hr]
        simp only [hs]
        rfl

/-- Removing a tidy destination that was put into a filesystem without one
gives that filesystem back. -/
theorem RemoveAll_put_tidy {c : Ctx} (hok : c.ok) (dn : Node) (hd : dn.tidy) :
    RemoveAll (Node.put dn c.base c.dc) (pathOf c.dc) = c.base := by
  obtain ⟨pm, pk, hr, hs, hw⟩ := hok.dstPar
  have hne := hok.dc_ne
  have hdc : c.dc = c.dc.dropLast ++ [c.dc.getLast hne] :=
    (List.dropLast_append_getLast hne).symm
  have hg := resolve_get _ _ _ hr
  have hsrch := searchable_of_resolve _ _ _ hr
  have hpar : c.dc.dropLast ≠ [] → ∃ m k,
      c.base.get c.dc.dropLast.dropLast = some (Node.dir m k) :=
    fun h => Node.get_dropLast_dir h hg
  have hfind : pk.find (c.dc.getLast hne) = none := by
    have := hok.dstFree
    rw [hdc, Node.get_append, hg] at this
    simp only [Option.some_bind, Node.get_dir_cons] at this
    cases hf : pk.find (c.dc.getLast hne) with
    | none => rfl
    | some v => simp [hf, Node.get_nil] at this
  have hput : Node.put dn c.base c.dc =
      Node.put (Node.dir pm (pk.set (c.dc.getLast hne) dn)) c.base c.dc.dropLast := by
    conv_lhs => rw [hdc]
    rw [Node.put_append dn _ _ c.base _ hg, Node.put_dir_single]
  rw [RemoveAll_eq _ c.dc hne hok.dcValid, hput,
    resolve_put_self _ c.base c.dc.dropLast hsrch hpar]
  simp only [hs, if_true, hw, Node.put_put_same,
    Entries.removeSel_set_new pk _ dn hfind hd]
  exact Node.put_get_same _ _ _ hg

theorem mkdirAt_ok {u : Nat} {fs fs1 : FS} {cs : List (List Char)} {mode : Nat}
    (h : mkdirAt u fs cs mode = Except.ok fs1) :
    resolve fs cs = Except.error GoError.ENOENT ∧
    ∃ pm pk, resolve fs cs.dropLast = Except.ok (Node.dir pm pk) ∧ canWrite pm = true ∧
      fs1 = Node.put (Node.dir (mkdirMode u pm mode) Entries.nil) fs cs := by
  unfold mkdirAt at h
  cases hr : resolve fs cs with
  | ok v => simp [hr] at h
  | error e =>
    cases e <;> simp only [hr] at h <;> try (exact absurd h (by simp))
    refine ⟨rfl, ?_⟩
    cases hp : resolve fs cs.dropLast with
    | error e1 => simp [hp] at h
    | ok n =>
      cases n with
      | file m d => simp [hp] at h
      | dir pm pk =>
        simp only [hp] at h
        by_cases hw : canWrite pm = true
        · simp only [hw, if_true, Except.ok.injEq] at h
          exact ⟨pm, pk, rfl, hw, h.symm⟩
        · simp [hw] at h

/-! ## From setup to the final wait -/

theorem Ctx.pD_of_resolve {c : Ctx} {pm : Nat} {pk : Entries}
    (hr : resolve c.base c.dc.dropLast = Except.ok (Node.dir pm pk)) : c.pD = pm := by
  unfold Ctx.pD
  rw [resolve_get _ _ _ hr]

theorem Ctx.ok.mkdirDst {c : Ctx} (hok : c.ok) :
    Mkdir c.umask c.base (pathOf c.dc) c.mS =
      Except.ok (Node.put (Node.dir c.mD Entries.nil) c.base c.dc) := by
  obtain ⟨pm, pk, hr, hs, hw⟩ := hok.dstPar
  have h1 : resolve c.base c.dc = Except.error GoError.ENOENT := by
    rw [resolve_of_searchable _ _ hok.searchableDst, hok.dstFree]
  unfold Mkdir
  rw [splitPath_pathOf _ hok.dcValid, mkdirAt_new c.umask c.mS c.base c.dc h1 pm pk hr,
    if_pos hw, Ctx.mD, Ctx.mir, Ctx.pD_of_resolve hr]

theorem initInv {c : Ctx} (σ : State)
    (hfs : σ.fs = Node.put (Node.dir c.mD Entries.nil) c.base c.dc) (hp : σ.pending = [])
    (hs : σ.spawned = 0) : Inv c σ [[]] [] := by
  refine ⟨⟨Entries.nil, hfs, ⟨Or.inl rfl, trivial⟩, ?_⟩, by simp [hp], by simp [hs],
    by simp⟩
  refine ⟨?_, ?_, ?_, ?_, by simp, ?_, by simp⟩
  · intro rel m k hg
    cases rel with
    | nil =>
      rw [Ctx.S_get_nil] at hg
      simp only [Option.some.injEq, Node.dir.injEq] at hg
      simp [viewAt_nil, Node.view, Ctx.mD, hg.1]
    | cons a r => simp [viewAt_dir_cons, Entries.find]
  · rintro rel m d _ ⟨t, ht, _⟩
    simp at ht
  · intro rel m d hg _
    cases rel with
    | nil => rw [Ctx.S_get_nil] at hg; cases hg
    | cons a r => simp [viewAt_dir_cons, Entries.find]
  · intro rel hg
    cases rel with
    | nil => rw [Ctx.S_get_nil] at hg; cases hg
    | cons a r => simp [viewAt_dir_cons, Entries.find]
  · intro rel hrel
    have : rel = [] := by simpa using hrel
    subst this
    exact ⟨by simp, c.mS, c.kS, by simp [Ctx.S, resolve_nil]⟩

theorem Walk_eq (env : Env)
    (fn : State → List Char → Option FileInfo → Option GoError → State × Ret) (fuel : Nat)
    (σ σ1 : State) (root : List Char) (info : FileInfo) (r : Ret)
    (hstat : Stat (tick env σ).fs root = Except.ok info)
    (hw : walk env fn fuel (tick env σ) root info = (σ1, r)) :
    Walk env fn fuel σ root = (σ1, walkRet r) := by
  simp only [Walk, hstat, hw]
  cases r with
  | nil => rfl
  | err e =>
    simp only [walkRet]
    split_ifs <;> rfl
  | panic => rfl
  | outOfFuel => rfl

/-- Tree mode after a setup that succeeded: the result, the directories made and
the goroutines spawned do not depend on the scheduler; at the end every goroutine
has run; and a traversal that can succeed returns nil and covers the source. -/
theorem transDir_spec {c : Ctx} (hok : c.ok) (fuel : Nat)
    (henc : encodingMap c.cfg.sourceEncoding = some c.enc) :
    ∃ (D : List (List (List Char))) (P : List Task) (r : Ret),
      (∀ (env : Env) (fs : FS), env.T = c.T → env.umask = c.umask →
        resolve fs c.sc = Except.ok c.S → RemoveAll fs c.cfg.dstDir = c.base →
        (transDir env c.cfg fuel fs).2 = r ∧
        FInv c (transDir env c.cfg fuel fs).1.fs D P (fun _ => False) ∧
        (transDir env c.cfg fuel fs).1.pending = []) ∧
      (c.S.walkable → c.S.depth ≤ fuel → r = Ret.nil ∧ Cov c D P [] c.S) := by
  have hpos : Pos c [[]] [] c.S := ⟨resolve_nil _, by simp, fun h => absurd rfl h⟩
  obtain ⟨D, P, r, _, _, hrun, hcov⟩ := walkSpec hok fuel [] c.S [[]] [] hpos
  refine ⟨D, P, walkRet r, ?_, ?_⟩
  · intro env fs hT hu hres hrem
    have hstat0 : Stat fs c.cfg.srcDir = Except.ok ⟨true, c.mS⟩ := by
      unfold Stat
      rw [hok.src, splitPath_pathOf _ hok.scValid, hres]
      rfl
    have hmk := hok.mkdirDst
    rw [← hok.dst, ← hu] at hmk
    have hσ : ∃ σ3 : State, σ3.fs = Node.put (Node.dir c.mD Entries.nil) c.base c.dc ∧
        σ3.pending = [] ∧ σ3.spawned = 0 ∧
        transDir env c.cfg fuel fs =
          (wait env (Walk env (walkFn env c.cfg c.enc) fuel σ3 c.cfg.srcDir).1,
            (Walk env (walkFn env c.cfg c.enc) fuel σ3 c.cfg.srcDir).2) := by
      refine ⟨{ verboseOutput c.cfg ("src: ".toList ++ c.cfg.srcDir ++ " dst: ".toList ++
          c.cfg.dstDir ++ " [".toList ++ c.cfg.sourceEncoding ++ "]".toList)
          (verboseOutput c.cfg "transform directory mode".toList (State.init fs)) with
        fs := Node.put (Node.dir c.mD Entries.nil) c.base c.dc }, rfl,
        by simp [verboseOutput_pending, State.init],
        by simp [verboseOutput_spawned, State.init], ?_⟩
      simp only [transDir, verboseOutput_fs, State.init, hstat0, hrem, hmk, henc]
    obtain ⟨σ3, hfs3, hp3, hs3, htd⟩ := hσ
    have hinit : Inv c σ3 [[]] [] := initInv σ3 hfs3 hp3 hs3
    have ht := tick_Inv hok hT hu hinit
    have hstat : Stat (tick env σ3).fs c.cfg.srcDir = Except.ok c.S.info := by
      have := ht.stat hok [] (by simp)
      rw [List.append_nil, ← hok.src, resolve_nil] at this
      exact this
    obtain ⟨σ1, hw, hinv1⟩ := hrun env _ hT hu ht
    rw [List.append_nil, ← hok.src] at hw
    have hWalk := Walk_eq env _ fuel _ σ1 _ _ r hstat hw
    obtain ⟨hF, hpend⟩ := wait_FInv hok hT hu hinv1
    rw [hWalk] at htd
    rw [htd]
    exact ⟨rfl, hF, hpend⟩
  · intro hwk hdep
    obtain ⟨hr, hc⟩ := hcov hwk (fun h => absurd (by simp) h) hdep
    rw [hr]
    exact ⟨rfl, hc⟩

/-- Two filesystems that satisfy the final invariant for the same directories
and goroutines show the same at every path. -/
theorem FInv.views_det {c : Ctx} (hok : c.ok) {fs1 fs2 : FS} {D : List (List (List Char))}
    {P : List Task} (h1 : FInv c fs1 D P (fun _ => False))
    (h2 : FInv c fs2 D P (fun _ => False)) (q : List (List Char)) :
    viewAt fs1 q = viewAt fs2 q := by
  obtain ⟨k1, hfs1, _, hD1⟩ := h1
  obtain ⟨k2, hfs2, _, hD2⟩ := h2
  rw [hfs1, hfs2, viewAt_put _ _ _ _ (fun _ => hok.dstParGet),
    viewAt_put _ _ _ _ (fun _ => hok.dstParGet)]
  by_cases hp : c.dc <+: q
  · simp only [hp, if_true]
    generalize q.drop c.dc.length = rel
    cases hg : c.S.get rel with
    | none => rw [hD1.others rel hg, hD2.others rel hg]
    | some v =>
      cases v with
      | dir m k => rw [hD1.dirs rel m k hg, hD2.dirs rel m k hg]
      | file m d =>
        by_cases hdone : ∃ t ∈ P, ¬ False ∧ t.newPath = pathOf (c.dc ++ rel)
        · rw [hD1.filesDone rel m d hg hdone, hD2.filesDone rel m d hg hdone]
        · rw [hD1.filesWait rel m d hg hdone, hD2.filesWait rel m d hg hdone]
  · simp only [hp, if_false]

/-! ## Setup -/

theorem splitPath_of_eq (path : List Char) (cs : List (List Char)) (h : path = pathOf cs)
    (hv : ∀ d ∈ cs, validName d) : splitPath path = cs := by
  rw [h]; exact splitPath_pathOf cs hv

theorem resolve_enoent_parent (base : FS) (dc : List (List Char)) (hdne : dc ≠ [])
    (pm : Nat) (pk : Entries)
    (h1 : resolve base dc = Except.error GoError.ENOENT)
    (h2 : resolve base dc.dropLast = Except.ok (Node.dir pm pk)) :
    canSearch pm = true ∧ base.get dc = none := by
  obtain ⟨par, name, rfl⟩ : ∃ par name, dc = par ++ [name] :=
    ⟨dc.dropLast, dc.getLast hdne, (List.dropLast_append_getLast hdne).symm⟩
  simp only [List.dropLast_concat] at h2
  rw [resolve_append, h2] at h1
  simp only [resolve_dir_cons] at h1
  have hs : canSearch pm = true := by
    by_contra hs
    simp [hs] at h1
  have hfind : pk.find name = none := by
    cases hf : pk.find name with
    | none => rfl
    | some v => simp [hs, hf, resolve_nil] at h1
  refine ⟨hs, ?_⟩
  rw [Node.get_append, resolve_get _ _ _ h2]
  simp [Node.get_dir_cons, hfind]

/-- A setup that succeeds yields a context with the facts the walk needs. -/
theorem setup_ok (T : Tables) (u : Nat) (enc : Encoding) (cfg : Config) (fs fs3 : FS)
    (sc dc : List (List Char)) (mS : Nat) (kS : Entries)
    (hsrc : cfg.srcDir = pathOf sc) (hdst : cfg.dstDir = pathOf dc)
    (hscv : ∀ d ∈ sc, validName d) (hdcv : ∀ d ∈ dc, validName d)
    (hd1 : ¬ sc <+: dc) (hd2 : ¬ dc <+: sc)
    (hS : resolve fs sc = Except.ok (Node.dir mS kS)) (hnames : kS.validNames)
    (hsetup : Mkdir u (RemoveAll fs cfg.dstDir) cfg.dstDir mS = Except.ok fs3)
    (hu : u % 0o1000 < 0o100) :
    Ctx.ok ⟨T, u, enc, cfg, sc, dc, mS, kS, RemoveAll fs cfg.dstDir⟩ := by
  have hdne : dc ≠ [] := by
    intro e; exact hd2 (by rw [e]; exact List.nil_prefix)
  unfold Mkdir at hsetup
  rw [splitPath_of_eq cfg.dstDir dc hdst hdcv] at hsetup
  obtain ⟨h1, pm, pk, h2, hw, _⟩ := mkdirAt_ok hsetup
  obtain ⟨hs, hfree⟩ := resolve_enoent_parent _ dc hdne pm pk h1 h2
  refine ⟨hsrc, hdst, hscv, hdcv, hd1, hd2, hnames, ?_, hfree, ⟨pm, pk, h2, hs, hw⟩, hu⟩
  show resolve (RemoveAll fs cfg.dstDir) sc = Except.ok (Node.dir mS kS)
  rw [hdst, resolve_RemoveAll_src fs sc dc hdne hdcv hd1 hd2, hS]

theorem transDir_statErr (env : Env) (cfg : Config) (fuel : Nat) (fs : FS) (e : GoError)
    (h : Stat fs cfg.srcDir = Except.error e) :
    (transDir env cfg fuel fs).1.fs = fs ∧ (transDir env cfg fuel fs).2 = Ret.err e := by
  simp only [transDir, verboseOutput_fs, State.init, h, and_self]

theorem transDir_mkdirErr (env : Env) (cfg : Config) (fuel : Nat) (fs : FS) (fi : FileInfo)
    (e : GoError) (h : Stat fs cfg.srcDir = Except.ok fi)
    (h2 : Mkdir env.umask (RemoveAll fs cfg.dstDir) cfg.dstDir fi.Mode = Except.error e) :
    (transDir env cfg fuel fs).1.fs = RemoveAll fs cfg.dstDir ∧
      (transDir env cfg fuel fs).2 = Ret.err e := by
  simp only [transDir, verboseOutput_fs, State.init, h, h2, and_self]

theorem transDir_noEnc (env : Env) (cfg : Config) (fuel : Nat) (fs fs3 : FS) (fi : FileInfo)
    (h : Stat fs cfg.srcDir = Except.ok fi)
    (h2 : Mkdir env.umask (RemoveAll fs cfg.dstDir) cfg.dstDir fi.Mode = Except.ok fs3)
    (h3 : encodingMap cfg.sourceEncoding = none) :
    (transDir env cfg fuel fs).1.fs = fs3 ∧
      (transDir env cfg fuel fs).2 =
        Ret.err (GoError.errorf "invalid encoding: %!s(<nil>)".toList) := by
  simp only [transDir, verboseOutput_fs, State.init, h, h2, h3, and_self]

/-! ## Tree mode with source and destination apart -/

theorem FInv.viewDst {c : Ctx} (hok : c.ok) {fs : FS} {D : List (List (List Char))}
    {P : List Task} {und : Task → Prop} (h : FInv c fs D P und) :
    ∃ kids, DInv c (Node.dir c.mD kids) D P und ∧
      ∀ rel, viewAt fs (c.dc ++ rel) = viewAt (Node.dir c.mD kids) rel := by
  obtain ⟨kids, hfs, _, hD⟩ := h
  refine ⟨kids, hD, fun rel => ?_⟩
  rw [hfs, viewAt_put _ _ _ _ (fun _ => hok.dstParGet), if_pos (List.prefix_append _ _),
    List.drop_left]

theorem Stat_of_components (f : FS) (path : List Char) (sc : List (List Char))
    (h : path = pathOf sc) (hv : ∀ d ∈ sc, validName d) :
    Stat f path = match resolve f sc with
      | Except.ok v => Except.ok v.info
      | Except.error e => Except.error e := by
  unfold Stat
  rw [splitPath_of_eq path sc h hv]

theorem ReadFile_of_resolve (f : FS) (p : List (List Char)) (hv : ∀ d ∈ p, validName d)
    (m : Nat) (d : List Nat) (h : resolve f p = Except.ok (Node.file m d)) :
    ReadFile f (pathOf p) =
      if canRead m = true then Except.ok d else Except.error GoError.EACCES := by
  unfold ReadFile
  rw [splitPath_pathOf _ hv, h]

/-- Removing the destination leaves the mode of its parent as it is. -/
theorem viewAt_RemoveAll_parent (fs : FS) (dc : List (List Char)) (hd : dc ≠ [])
    (hv : ∀ d ∈ dc, validName d) :
    viewAt (RemoveAll fs (pathOf dc)) dc.dropLast = viewAt fs dc.dropLast := by
  rw [RemoveAll_eq fs dc hd hv]
  cases hr : resolve fs dc.dropLast with
  | error e => rfl
  | ok n =>
    cases n with
    | file m d => rfl
    | dir pm kids =>
      simp only []
      by_cases hs : canSearch pm = true
      · rw [if_pos hs]
        have hg := resolve_get _ _ _ hr
        rw [viewAt_put _ _ _ _ (fun hne => Node.get_dropLast_dir hne hg),
          if_pos (List.prefix_refl _), List.drop_length, viewAt_nil]
        simp [viewAt, hg, Node.view]
      · rw [if_neg hs]

theorem Ctx.pD_of_view {c : Ctx} (hok : c.ok) {pD : Nat}
    (h : viewAt c.base c.dc.dropLast = some (View.dir pD)) : c.pD = pD := by
  obtain ⟨pm, pk, hr, _, _⟩ := hok.dstPar
  rw [Ctx.pD_of_resolve hr]
  simp only [viewAt, resolve_get _ _ _ hr, Option.map_some', Node.view, Option.some.injEq,
    View.dir.injEq] at h
  exact h

/-- What a whole run leaves in the destination, for a context that is in order. -/
theorem transDir_views {c : Ctx} (hok : c.ok) (fuel : Nat)
    (henc : encodingMap c.cfg.sourceEncoding = some c.enc) (env : Env) (fs : FS)
    (hT : env.T = c.T) (hu : env.umask = c.umask) (hS : resolve fs c.sc = Except.ok c.S)
    (hb : RemoveAll fs c.cfg.dstDir = c.base) (hwalk : c.S.walkable)
    (hfuel : c.S.depth ≤ fuel) :
    (transDir env c.cfg fuel fs).2 = Ret.nil ∧ (transDir env c.cfg fuel fs).1.pending = [] ∧
    (∀ rel m k, c.S.get rel = some (Node.dir m k) →
      viewAt (transDir env c.cfg fuel fs).1.fs (c.dc ++ rel) =
        some (View.dir (c.mir m))) ∧
    (∀ rel m d pm pk, c.S.get rel = some (Node.file m d) →
      c.S.get rel.dropLast = some (Node.dir pm pk) →
      viewAt (transDir env c.cfg fuel fs).1.fs (c.dc ++ rel) = c.outcome rel ∧
      ReadFile fs (pathOf (c.sc ++ rel)) =
        if canRead m = true then Except.ok d else Except.error GoError.EACCES) ∧
    (∀ rel, c.S.get rel = none →
      viewAt (transDir env c.cfg fuel fs).1.fs (c.dc ++ rel) = none) := by
  obtain ⟨D, P, r, hrun, hcov⟩ := transDir_spec hok fuel henc
  obtain ⟨hr, hF, hpend⟩ := hrun env fs hT hu hS hb
  obtain ⟨hnil, hcD, hcP⟩ := hcov hwalk hfuel
  obtain ⟨kids, hD, hview⟩ := hF.viewDst hok
  refine ⟨by rw [hr, hnil], hpend, ?_, ?_, ?_⟩
  · intro rel m k hg
    have hin : rel ∈ D := by simpa using hcD rel m k hg
    have := hD.dirs rel m k hg
    rw [if_pos hin] at this
    exact (hview rel).trans this
  · intro rel m d pm pk hg hpg
    obtain ⟨t, ht, hp⟩ := hcP rel m d hg
    simp only [List.nil_append] at hp
    have hout := hD.filesDone rel m d hg ⟨t, ht, fun h => h, hp⟩
    obtain ⟨rel1, m1, d1, _, hn1, _, hres1, _⟩ := hD.tasks t ht
    have hrel : rel1 = rel := hok.newPath_inj (resolve_get _ _ _ hres1) hg (by rw [← hn1, hp])
    subst hrel
    have hmd : Node.file m1 d1 = Node.file m d := by
      have := resolve_get _ _ _ hres1
      rw [hg] at this
      exact (Option.some.inj this).symm
    rw [hmd] at hres1
    refine ⟨(hview rel1).trans hout, ?_⟩
    apply ReadFile_of_resolve fs _ (hok.srcValid hg)
    rw [resolve_append, hS]
    exact hres1
  · intro rel hg
    exact (hview rel).trans (hD.others rel hg)

/-- A second run after a run that walked. -/
theorem transDir_again_walk {c : Ctx} (hok : c.ok) (fuel : Nat)
    (henc : encodingMap c.cfg.sourceEncoding = some c.enc) (env1 env2 : Env) (fs : FS)
    (hT1 : env1.T = c.T) (hu1 : env1.umask = c.umask)
    (hT2 : env2.T = c.T) (hu2 : env2.umask = c.umask)
    (hS : resolve fs c.sc = Except.ok c.S) (hb : RemoveAll fs c.cfg.dstDir = c.base) :
    (transDir env2 c.cfg fuel (transDir env1 c.cfg fuel fs).1.fs).2 =
      (transDir env1 c.cfg fuel fs).2 ∧
    ∀ q, viewAt (transDir env2 c.cfg fuel (transDir env1 c.cfg fuel fs).1.fs).1.fs q =
      viewAt (transDir env1 c.cfg fuel fs).1.fs q := by
  obtain ⟨D, P, r, hrun, _⟩ := transDir_spec hok fuel henc
  obtain ⟨hr1, hF1, _⟩ := hrun env1 fs hT1 hu1 hS hb
  have hF1' := hF1
  obtain ⟨kids, hfs1, htidy, _⟩ := hF1
  have hres2 : resolve (transDir env1 c.cfg fuel fs).1.fs c.sc = Except.ok c.S := by
    have := hok.srcResolve (Node.dir c.mD kids) []
    simp only [List.append_nil, resolve_nil] at this
    rw [hfs1]; exact this
  have hrem2 : RemoveAll (transDir env1 c.cfg fuel fs).1.fs c.cfg.dstDir = c.base := by
    rw [hfs1, hok.dst]
    exact RemoveAll_put_tidy hok _ htidy
  obtain ⟨hr2, hF2, _⟩ := hrun env2 (transDir env1 c.cfg fuel fs).1.fs hT2 hu2 hres2 hrem2
  exact ⟨by rw [hr2, hr1], fun q => FInv.views_det hok hF2 hF1' q⟩

/-- A second run after a run that stopped at the encoding lookup. -/
theorem transDir_again_noEnc {c : Ctx} (hok : c.ok) (fuel : Nat)
    (henc : encodingMap c.cfg.sourceEncoding = none) (env1 env2 : Env) (fs : FS)
    (hu1 : env1.umask = c.umask) (hu2 : env2.umask = c.umask)
    (hS : resolve fs c.sc = Except.ok c.S) (hb : RemoveAll fs c.cfg.dstDir = c.base) :
    (transDir env2 c.cfg fuel (transDir env1 c.cfg fuel fs).1.fs).2 =
      (transDir env1 c.cfg fuel fs).2 ∧
    ∀ q, viewAt (transDir env2 c.cfg fuel (transDir env1 c.cfg fuel fs).1.fs).1.fs q =
      viewAt (transDir env1 c.cfg fuel fs).1.fs q := by
  have hst : Stat fs c.cfg.srcDir = Except.ok ⟨true, c.mS⟩ := by
    rw [Stat_of_components fs _ c.sc hok.src hok.scValid, hS]; rfl
  have hmk : Mkdir env1.umask (RemoveAll fs c.cfg.dstDir) c.cfg.dstDir c.mS =
      Except.ok (Node.put (Node.dir c.mD Entries.nil) c.base c.dc) := by
    rw [hb, hu1, hok.dst]; exact hok.mkdirDst
  obtain ⟨h1, h2⟩ := transDir_noEnc env1 c.cfg fuel fs _ ⟨true, c.mS⟩ hst hmk henc
  have hrem : RemoveAll (Node.put (Node.dir c.mD Entries.nil) c.base c.dc) c.cfg.dstDir =
      c.base := by
    rw [hok.dst]
    exact RemoveAll_put_tidy hok (Node.dir c.mD Entries.nil) ⟨Or.inl rfl, trivial⟩
  have hst3 : Stat (Node.put (Node.dir c.mD Entries.nil) c.base c.dc) c.cfg.srcDir =
      Except.ok ⟨true, c.mS⟩ := by
    rw [Stat_of_components _ _ c.sc hok.src hok.scValid]
    have := hok.srcResolve (Node.dir c.mD Entries.nil) []
    simp only [List.append_nil, resolve_nil] at this
    rw [this]; rfl
  have hmk3 : Mkdir env2.umask
      (RemoveAll (Node.put (Node.dir c.mD Entries.nil) c.base c.dc) c.cfg.dstDir)
      c.cfg.dstDir c.mS = Except.ok (Node.put (Node.dir c.mD Entries.nil) c.base c.dc) := by
    rw [hrem, hu2, hok.dst]; exact hok.mkdirDst
  obtain ⟨h3, h4⟩ := transDir_noEnc env2 c.cfg fuel _ _ ⟨true, c.mS⟩ hst3 hmk3 henc
  rw [h1, h2, h3, h4]
  exact ⟨rfl, fun _ => rfl⟩

/-- C7, amended: in tree mode with the destination not inside the source, the
source not inside the destination, and a umask that takes no permission from the
owner, a file-task failure is fully local. When setup succeeds (the source root
is a directory that can be reached, the destination root can be made in its
parent, whose mode is `pD`) and the traversal can succeed (every source
directory may be read and searched, and written where it holds a directory),
`transDir` returns nil with every goroutine finished; every source directory is
a directory at its mirrored path, with the mode `mkdir` gives it; a source file
is at its mirrored path, with the transformed contents, exactly when its read,
its transform and its write succeed (the write succeeds when the directory that
holds the file may be written, the mirror having the same owner bits), and is
missing otherwise; nothing else is in the destination. -/
theorem C7_file_task_failures_are_local (env : Env) (cfg : Config) (fuel : Nat) (fs fs3 : FS)
    (sc dc : List (List Char)) (mS : Nat) (kS : Entries) (enc : Encoding)
    (hsrc : cfg.srcDir = pathOf sc) (hdst : cfg.dstDir = pathOf dc)
    (hscv : ∀ d ∈ sc, validName d) (hdcv : ∀ d ∈ dc, validName d)
    (hd1 : ¬ sc <+: dc) (hd2 : ¬ dc <+: sc)
    (henc : encodingMap cfg.sourceEncoding = some enc)
    (hS : resolve fs sc = Except.ok (Node.dir mS kS)) (hnames : kS.validNames)
    (hsetup : Mkdir env.umask (RemoveAll fs cfg.dstDir) cfg.dstDir mS = Except.ok fs3)
    (hwalk : (Node.dir mS kS).walkable) (hfuel : (Node.dir mS kS).depth ≤ fuel)
    (hu : env.umask % 0o1000 < 0o100) (pD : Nat)
    (hpar : viewAt fs dc.dropLast = some (View.dir pD)) :
    (transDir env cfg fuel fs).2 = Ret.nil ∧ (transDir env cfg fuel fs).1.pending = [] ∧
    (∀ rel m k, (Node.dir mS kS).get rel = some (Node.dir m k) →
      viewAt (transDir env cfg fuel fs).1.fs (dc ++ rel) =
        some (View.dir (mkdirMode env.umask pD m))) ∧
    (∀ rel m d pm pk, (Node.dir mS kS).get rel = some (Node.file m d) →
      (Node.dir mS kS).get rel.dropLast = some (Node.dir pm pk) →
      viewAt (transDir env cfg fuel fs).1.fs (dc ++ rel) =
        match ReadFile fs (pathOf (sc ++ rel)) with
        | Except.error _ => none
        | Except.ok bs =>
          match transformToUtf8 env.T bs enc with
          | Except.error _ => none
          | Except.ok data =>
            if canWrite pm = true then some (View.file (createMode env.umask 0o666) data)
            else none) ∧
    (∀ rel, (Node.dir mS kS).get rel = none →
      viewAt (transDir env cfg fuel fs).1.fs (dc ++ rel) = none) := by
  have hok := setup_ok env.T env.umask enc cfg fs fs3 sc dc mS kS hsrc hdst hscv hdcv hd1 hd2
    hS hnames hsetup hu
  have hdne : dc ≠ [] := by
    intro e; apply hd2; rw [e]; exact List.nil_prefix
  have hpD : Ctx.pD ⟨env.T, env.umask, enc, cfg, sc, dc, mS, kS, RemoveAll fs cfg.dstDir⟩ =
      pD := by
    apply Ctx.pD_of_view hok
    show viewAt (RemoveAll fs cfg.dstDir) dc.dropLast = some (View.dir pD)
    rw [hdst, viewAt_RemoveAll_parent fs dc hdne hdcv, hpar]
  obtain ⟨h1, h2, h3, h4, h5⟩ := transDir_views hok fuel henc env fs rfl rfl hS rfl hwalk hfuel
  refine ⟨h1, h2, ?_, ?_, h5⟩
  · intro rel m k hg
    have := h3 rel m k hg
    rw [Ctx.mir, hpD] at this
    exact this
  intro rel m d pm pk hg hpg
  obtain ⟨hv, hrd⟩ := h4 rel m d pm pk hg hpg
  have ho := Ctx.outcome_eq ⟨env.T, env.umask, enc, cfg, sc, dc, mS, kS,
    RemoveAll fs cfg.dstDir⟩ hg hpg
  have hv2 : viewAt (transDir env cfg fuel fs).1.fs (dc ++ rel) =
      if canRead m = true ∧ canWrite pm = true then
        match transformToUtf8 env.T d enc with
        | Except.ok data => some (View.file (createMode env.umask 0o666) data)
        | Except.error _ => none
      else none := hv.trans ho
  have hrd2 : ReadFile fs (pathOf (sc ++ rel)) =
      if canRead m = true then Except.ok d else Except.error GoError.EACCES := hrd
  rw [hv2, hrd2]
  by_cases hcr : canRead m = true
  · rw [if_pos hcr]
    by_cases hw : canWrite pm = true
    · rw [if_pos ⟨hcr, hw⟩]
      show _ = (match transformToUtf8 env.T d enc with
        | Except.error _ => none
        | Except.ok data =>
          if canWrite pm = true then some (View.file (createMode env.umask 0o666) data)
          else none)
      cases transformToUtf8 env.T d enc with
      | error e => rfl
      | ok data => simp only [if_pos hw]
    · rw [if_neg (fun h => hw h.2)]
      show _ = (match transformToUtf8 env.T d enc with
        | Except.error _ => none
        | Except.ok data =>
          if canWrite pm = true then some (View.file (createMode env.umask 0o666) data)
          else none)
      cases transformToUtf8 env.T d enc with
      | error e => rfl
      | ok data => simp only [if_neg hw]
  · rw [if_neg hcr, if_neg (fun h => hcr h.1)]

/-- C10, amended: tree mode is idempotent on the destination when the
destination is not inside the source, the source not inside the destination,
and the umask takes no permission from the owner: whatever the destination
held before, whatever the goroutines' schedules in the two runs, and whether
the runs succeed or not, a second run with the same arguments returns what the
first returned and leaves every path of the filesystem showing what the first
run left. -/
theorem C10_idempotent_when_apart (env1 env2 : Env) (cfg : Config) (fuel : Nat) (fs : FS)
    (sc dc : List (List Char)) (hT : env2.T = env1.T) (hu : env2.umask = env1.umask)
    (hsrc : cfg.srcDir = pathOf sc) (hdst : cfg.dstDir = pathOf dc)
    (hscv : ∀ d ∈ sc, validName d) (hdcv : ∀ d ∈ dc, validName d)
    (hd1 : ¬ sc <+: dc) (hd2 : ¬ dc <+: sc)
    (hwf : ∀ n, resolve fs sc = Except.ok n → ∃ m k, n = Node.dir m k ∧ k.validNames)
    (hown : env1.umask % 0o1000 < 0o100) :
    (transDir env2 cfg fuel (transDir env1 cfg fuel fs).1.fs).2 =
      (transDir env1 cfg fuel fs).2 ∧
    ∀ q, viewAt (transDir env2 cfg fuel (transDir env1 cfg fuel fs).1.fs).1.fs q =
      viewAt (transDir env1 cfg fuel fs).1.fs q := by
  have hdne : dc ≠ [] := by
    intro e; apply hd2; rw [e]; exact List.nil_prefix
  cases hres : resolve fs sc with
  | error e =>
    have hst : Stat fs cfg.srcDir = Except.error e := by
      rw [Stat_of_components fs _ sc hsrc hscv, hres]
    obtain ⟨h1, h2⟩ := transDir_statErr env1 cfg fuel fs e hst
    obtain ⟨h3, h4⟩ := transDir_statErr env2 cfg fuel fs e hst
    rw [h1, h2, h3, h4]
    exact ⟨rfl, fun _ => rfl⟩
  | ok n =>
    obtain ⟨mS, kS, rfl, hnames⟩ := hwf n hres
    have hst : Stat fs cfg.srcDir = Except.ok ⟨true, mS⟩ := by
      rw [Stat_of_components fs _ sc hsrc hscv, hres]; rfl
    have hresB : resolve (RemoveAll fs cfg.dstDir) sc = Except.ok (Node.dir mS kS) := by
      rw [hdst, resolve_RemoveAll_src fs sc dc hdne hdcv hd1 hd2, hres]
    have hstB : Stat (RemoveAll fs cfg.dstDir) cfg.srcDir = Except.ok ⟨true, mS⟩ := by
      rw [Stat_of_components _ _ sc hsrc hscv, hresB]; rfl
    have hidem : RemoveAll (RemoveAll fs cfg.dstDir) cfg.dstDir = RemoveAll fs cfg.dstDir := by
      rw [hdst]; exact RemoveAll_idem fs dc hdne hdcv
    cases hmk : Mkdir env1.umask (RemoveAll fs cfg.dstDir) cfg.dstDir mS with
    | error e =>
      obtain ⟨h1, h2⟩ := transDir_mkdirErr env1 cfg fuel fs ⟨true, mS⟩ e hst hmk
      have hmk2 : Mkdir env2.umask (RemoveAll (RemoveAll fs cfg.dstDir) cfg.dstDir)
          cfg.dstDir mS = Except.error e := by rw [hidem, hu, hmk]
      obtain ⟨h3, h4⟩ := transDir_mkdirErr env2 cfg fuel (RemoveAll fs cfg.dstDir)
        ⟨true, mS⟩ e hstB hmk2
      rw [h1, h2, h3, h4, hidem]
      exact ⟨rfl, fun _ => rfl⟩
    | ok fs3 =>
      cases henc : encodingMap cfg.sourceEncoding with
      | none =>
        have hok := setup_ok env1.T env1.umask Encoding.UTF8 cfg fs fs3 sc dc mS kS hsrc hdst
          hscv hdcv hd1 hd2 hres hnames hmk hown
        exact transDir_again_noEnc hok fuel henc env1 env2 fs rfl hu hres rfl
      | some enc =>
        have hok := setup_ok env1.T env1.umask enc cfg fs fs3 sc dc mS kS hsrc hdst
          hscv hdcv hd1 hd2 hres hnames hmk hown
        exact transDir_again_walk hok fuel henc env1 env2 fs rfl rfl hT hu hres rfl

theorem C7_file_task_failures_witness :
    resolve exMixedFS ["src".toList] =
      Except.ok (Node.dir 0o755 (Entries.file "a.txt".toList 0o644 [0x41]
        (Entries.file "secret.txt".toList 0 [0x42] Entries.nil))) ∧
    ReadFile exMixedFS "/src/secret.txt".toList = Except.error GoError.EACCES ∧
    (transDir exEnvLazy (exConfig "GBK".toList) 8 exMixedFS).2 = Ret.nil ∧
    viewAt (transDir exEnvLazy (exConfig "GBK".toList) 8 exMixedFS).1.fs
      ["dst".toList, "a.txt".toList] = some (View.file 0o644 [0x41]) ∧
    viewAt (transDir exEnvLazy (exConfig "GBK".toList) 8 exMixedFS).1.fs
      ["dst".toList, "secret.txt".toList] = none ∧
    viewAt (transDir exEnvLazy (exConfig "GBK".toList) 8 exMixedFS).1.fs
      ["dst".toList] = some (View.dir 0o755) ∧
    viewAt (transDir exEnvLazy (exConfig "GBK".toList) 8 exMixedFS).1.fs
      ["dst".toList, "old.txt".toList] = none :=
  have h := C7_file_task_failures_are_local exEnvLazy (exConfig "GBK".toList) 8 exMixedFS
    (Node.dir 0o755
      (Entries.dir "src".toList 0o755
        (Entries.file "a.txt".toList 0o644 [0x41]
        (Entries.file "secret.txt".toList 0 [0x42] Entries.nil))
      (Entries.dir "dst".toList 0o755 Entries.nil Entries.nil)))
    ["src".toList] ["dst".toList] 0o755
    (Entries.file "a.txt".toList 0o644 [0x41]
      (Entries.file "secret.txt".toList 0 [0x42] Entries.nil))
    Encoding.GBK rfl rfl (by simp [validName]) (by simp [validName]) (by decide) (by decide)
    rfl rfl (by simp [Entries.validNames, validName]) rfl
    (by simp [Node.walkable, Entries.walkable, Entries.hasDir, canRead, canSearch])
    (by decide) (by decide) 0o755 rfl
  ⟨rfl, rfl, h.1,
    (h.2.2.2.1 ["a.txt".toList] 0o644 [0x41] 0o755
      (Entries.file "a.txt".toList 0o644 [0x41]
        (Entries.file "secret.txt".toList 0 [0x42] Entries.nil)) rfl rfl).trans (by rfl),
    (h.2.2.2.1 ["secret.txt".toList] 0 [0x42] 0o755
      (Entries.file "a.txt".toList 0o644 [0x41]
        (Entries.file "secret.txt".toList 0 [0x42] Entries.nil)) rfl rfl).trans (by rfl),
    (h.2.2.1 [] 0o755
      (Entries.file "a.txt".toList 0o644 [0x41]
        (Entries.file "secret.txt".toList 0 [0x42] Entries.nil)) rfl).trans (by rfl),
    h.2.2.2.2 ["old.txt".toList] rfl⟩

theorem C10_idempotent_witness :
    (¬ ["src".toList] <+: ["dst".toList]) ∧ (¬ ["dst".toList] <+: ["src".toList]) ∧
    exEnvLazy.umask % 0o1000 < 0o100 ∧
    (transDir exEnvEager (exConfig "GBK".toList) 8
      (transDir exEnvLazy (exConfig "GBK".toList) 8 exFS).1.fs).2 =
      (transDir exEnvLazy (exConfig "GBK".toList) 8 exFS).2 ∧
    viewAt (transDir exEnvEager (exConfig "GBK".toList) 8
      (transDir exEnvLazy (exConfig "GBK".toList) 8 exFS).1.fs).1.fs
        ["dst".toList, "a.txt".toList] =
      viewAt (transDir exEnvLazy (exConfig "GBK".toList) 8 exFS).1.fs
        ["dst".toList, "a.txt".toList] :=
  have h := C10_idempotent_when_apart exEnvLazy exEnvEager (exConfig "GBK".toList) 8 exFS
    ["src".toList] ["dst".toList] rfl rfl rfl rfl (by simp [validName]) (by simp [validName])
    (by decide) (by decide)
    (fun n hn => ⟨0o755, Entries.file "a.txt".toList 0o644 [0x41] Entries.nil,
      (Except.ok.inj ((show resolve exFS ["src".toList] = Except.ok (Node.dir 0o755
        (Entries.file "a.txt".toList 0o644 [0x41] Entries.nil)) from rfl).symm.trans hn)).symm,
      by simp [Entries.validNames, validName]⟩)
    (by decide)
  ⟨by decide, by decide, by decide, h.1, h.2 ["dst".toList, "a.txt".toList]⟩

end Utfize
